import Mathlib

/-! sulcalc: exact decimal arithmetic on digit strings and the weighted multiset.

A shallow embedding of `src/utilities.js` (`cmpStrs`, `addStrs`, `subtractStrs`,
`multiplyStrs`, `divideStrs`, `gcdStrs`, `roundHalfToZero`, `chainMod`, `applyMod`,
`damageVariation`) and of `src/Multiset.js`.

Modelling conventions.

* A JavaScript string is a `List Char`; `charCodeAt` is `Char.toNat`.  Every
  `charCodeAt(i)` of the source is evaluated at an index inside the string, so
  the `NaN` of an out-of-range index never arises; `charAt` outside the string
  is the empty string, as in JavaScript.
* In the string arithmetic the JavaScript numbers that occur (character codes,
  digits, carries, lengths) are integers far below `2^53`; they are `Int`.
  `Math.trunc(p / 10)` is `Int.tdiv`, `%` is `Int.tmod`.
* `applyMod` and `damageVariation` compute with arbitrary doubles; they are
  embedded on `JSNum`, and every product, quotient and sum is rounded to
  binary64 by `toDouble`.
* `number + string` converts the number with `String(n)`, modelled by `numStr`.
* Loops that count an index are recursive functions on the number of remaining
  iterations carrying the index; `while` loops whose termination depends on
  the data take a fuel argument and return `none` when it runs out.
-/

namespace Sulcalc

/-- A JavaScript string, as its list of characters. -/
abbrev Str := List Char

/-- The JavaScript `String(n)` of an integer `n`. -/
def numStr (n : Int) : Str :=
  if n < 0 then '-' :: Nat.toDigits 10 n.natAbs else Nat.toDigits 10 n.toNat

/-- The JavaScript `s.charCodeAt(i)` for an index inside the string. -/
def charCodeAt (s : Str) (i : Nat) : Int :=
  match s.get? i with
  | some c => (c.toNat : Int)
  | none => 0

/-- The JavaScript `s.charAt(i)`: the empty string outside the string. -/
def charAt (s : Str) (i : Int) : Str :=
  if i < 0 then [] else
  match s.get? i.toNat with
  | some c => [c]
  | none => []

/-- The JavaScript `s.slice(0, e)`; a negative `e` counts from the end. -/
def slice0 (s : Str) (e : Int) : Str :=
  if e < 0 then s.take (s.length - e.natAbs) else s.take e.toNat

/-- The JavaScript `"0".repeat(n)`. -/
def zerosStr (n : Nat) : Str := List.replicate n '0'

/-! ## cmpStrs -/

/-- The `for` loop of `cmpStrs`: `n` iterations remain, the index is `i`. -/
def cmpLoop (num1 num2 : Str) : Nat → Nat → Int
  | 0, _ => 0
  | n + 1, i =>
    if charCodeAt num1 i ≠ charCodeAt num2 i then
      charCodeAt num1 i - charCodeAt num2 i
    else cmpLoop num1 num2 n (i + 1)

/-- Embedding of `cmpStrs(num1, num2)`. -/
def cmpStrs (num1 num2 : Str) : Int :=
  if num1.length ≠ num2.length then
    (num1.length : Int) - (num2.length : Int)
  else cmpLoop num1 num2 num1.length 0

/-! ## addStrs -/

/-- The `for` loop of `addStrs`, from index `i - 1` down to `0`, on the state
`(carry, sum)`. -/
def addLoop (num1 num2 : Str) : Nat → Int → Str → Int × Str
  | 0, carry, sum => (carry, sum)
  | i + 1, carry, sum =>
    let s : Int := charCodeAt num1 i + charCodeAt num2 i + carry - 96
    addLoop num1 num2 i (if s > 9 then 1 else 0) (numStr (s.tmod 10) ++ sum)

/-- Embedding of `addStrs(num1, num2)`. -/
def addStrs (num1 num2 : Str) : Str :=
  let num1 := if num1.length < num2.length then
      zerosStr (num2.length - num1.length) ++ num1 else num1
  let num2 := if num2.length < num1.length then
      zerosStr (num1.length - num2.length) ++ num2 else num2
  let (carry, sum) := addLoop num1 num2 num1.length 0 []
  if carry ≠ 0 then numStr carry ++ sum else sum

/-! ## subtractStrs -/

/-- The `for` loop of `subtractStrs`, from index `i - 1` down to `0`, on the
state `(borrow, diff)`. -/
def subLoop (num1 num2 : Str) : Nat → Int → Str → Int × Str
  | 0, borrow, diff => (borrow, diff)
  | i + 1, borrow, diff =>
    let d : Int := charCodeAt num1 i - charCodeAt num2 i - borrow
    subLoop num1 num2 i (if d < 0 then 1 else 0)
      (numStr (if d < 0 then d + 10 else d) ++ diff)

/-- Embedding of `subtractStrs(num1, num2)`: the borrow loop, then the leading
`"0"` characters are skipped and an empty rest becomes `"0"`. -/
def subtractStrs (num1 num2 : Str) : Str :=
  let num2 := if num2.length < num1.length then
      zerosStr (num1.length - num2.length) ++ num2 else num2
  let (_, diff) := subLoop num1 num2 num1.length 0 []
  let rest := diff.dropWhile (fun c => c == '0')
  if rest = [] then ['0'] else rest

/-! ## multiplyStrs -/

/-- The inner `for` loop of `multiplyStrs` for the digit with code `c1`, from
index `j - 1` of `num2` down to `0`, on the state `(carry, digits)`. -/
def mulRow (c1 : Int) (num2 : Str) : Nat → Int → Str → Int × Str
  | 0, carry, digits => (carry, digits)
  | j + 1, carry, digits =>
    let p : Int := (c1 - 48) * (charCodeAt num2 j - 48) + carry
    mulRow c1 num2 j (p.tdiv 10) (numStr (p.tmod 10) ++ digits)

/-- The outer `for` loop of `multiplyStrs`, from index `i - 1` of `num1` down
to `0`, on the state `(zeros, product)`; `carry` and `digits` are reset at the
end of every iteration, so each row starts from `0` and `""`. -/
def mulLoop (num1 num2 : Str) : Nat → Str → Str → Str
  | 0, _, product => product
  | i + 1, zeros, product =>
    let (carry, digits) := mulRow (charCodeAt num1 i) num2 num2.length 0 []
    let product := addStrs ((if carry ≠ 0 then numStr carry else []) ++ digits ++ zeros) product
    mulLoop num1 num2 i (zeros ++ ['0']) product

/-- Embedding of `multiplyStrs(num1, num2)`. -/
def multiplyStrs (num1 num2 : Str) : Str :=
  if num1 = ['0'] ∨ num2 = ['0'] then ['0']
  else mulLoop num1 num2 num1.length [] ['0']

/-! ## divideStrs -/

/-- The inner `while (cmpStrs(r, num2) >= 0)` loop of `divideStrs` on the state
`(r, q)`; one unit of fuel is spent per evaluation of the loop condition. -/
def divWhile (num2 : Str) : Nat → Str → Int → Option (Str × Int)
  | 0, _, _ => none
  | fuel + 1, r, q =>
    if cmpStrs r num2 ≥ 0 then divWhile num2 fuel (subtractStrs r num2) (q + 1)
    else some (r, q)

/-- The `for` loop of `divideStrs`: `n` iterations remain, the index is `i`,
the state is `(quotient, r)`. -/
def divLoop (fuel : Nat) (num1 num2 : Str) : Nat → Int → Str → Str → Option (Str × Str)
  | 0, _, quotient, r => some (quotient, r)
  | n + 1, i, quotient, r =>
    let r := if r = ['0'] then charAt num1 i else r ++ charAt num1 i
    match divWhile num2 fuel r 0 with
    | none => none
    | some (r, q) =>
      let quotient := if q ≠ 0 ∨ quotient ≠ [] then quotient ++ numStr q else quotient
      divLoop fuel num1 num2 n (i + 1) quotient r

/-- Embedding of `divideStrs(num1, num2)`; `fuel` bounds each inner `while`
loop, and `none` means that a loop did not finish within it. -/
def divideStrs (fuel : Nat) (num1 num2 : Str) : Option (Str × Str) :=
  if num2 = ['0'] then
    some (if num1 = ['0'] then "NaN".toList else "Infinity".toList, "NaN".toList)
  else if cmpStrs num1 num2 < 0 then some (['0'], num1)
  else
    divLoop fuel num1 num2
      ((num1.length : Int) - ((num2.length : Int) - 1)).toNat
      ((num2.length : Int) - 1) [] (slice0 num1 ((num2.length : Int) - 1))

/-! ## gcdStrs -/

/-- Embedding of `gcdStrs(num1, num2)`: the `while (b !== "0")` loop on the
state `(a, b)`; `fuel` bounds the number of evaluations of the loop condition
and is also handed to every `divideStrs`. -/
def gcdLoop (fuel : Nat) : Nat → Str → Str → Option Str
  | 0, _, _ => none
  | n + 1, a, b =>
    if b ≠ ['0'] then
      match divideStrs fuel a b with
      | none => none
      | some (_, r) => gcdLoop fuel n b r
    else some a

/-- Embedding of `gcdStrs(num1, num2)` with fuel. -/
def gcdStrs (fuel : Nat) (num1 num2 : Str) : Option Str :=
  gcdLoop fuel fuel num1 num2

/-! ## Multiset (`src/Multiset.js`) -/

/-- The JavaScript `Map` held in `_data`, as its entries in insertion order. -/
abbrev MapData (α : Type) := List (α × Str)

/-- The JavaScript `Map.prototype.get`; `none` is `undefined`. -/
def mapGet {α : Type} [DecidableEq α] : MapData α → α → Option Str
  | [], _ => none
  | (k, m) :: t, v => if k = v then some m else mapGet t v

/-- The JavaScript `Map.prototype.set`: an existing key keeps its place and gets
the new value, a new key is appended. -/
def mapSet {α : Type} [DecidableEq α] : MapData α → α → Str → MapData α
  | [], v, m => [(v, m)]
  | (k, x) :: t, v, m => if k = v then (k, m) :: t else (k, x) :: mapSet t v m

/-- The class `Multiset`: its only field is the map `_data`. -/
structure Multiset (α : Type) where
  /-- The map from value to multiplicity. -/
  data : MapData α
  deriving DecidableEq

namespace Multiset

variable {α β γ : Type} [DecidableEq α] [DecidableEq β] [DecidableEq γ]

/-- The result of `new Multiset()`. -/
def empty : Multiset α := ⟨[]⟩

/-- The expression `x || "0"` on the result of a `get`: `undefined` and the
empty string are falsy. -/
def orZero : Option Str → Str
  | some m => if m = [] then ['0'] else m
  | none => ['0']

/-- Embedding of `has(value)`. -/
def has (ms : Multiset α) (v : α) : Bool := (mapGet ms.data v).isSome

/-- Embedding of `get(value)`. -/
def get (ms : Multiset α) (v : α) : Option Str := mapGet ms.data v

/-- Embedding of `add(value, multiplicity)` for a string multiplicity; the
mutated multiset is the result. -/
def add (ms : Multiset α) (v : α) (multiplicity : Str) : Multiset α :=
  ⟨mapSet ms.data v (addStrs (orZero (mapGet ms.data v)) multiplicity)⟩

/-- Embedding of the getter `size`. -/
def size (ms : Multiset α) : Str :=
  ms.data.foldl (fun size e => addStrs size e.2) ['0']

/-- Embedding of `intersect(iterable)` for a `Multiset` argument.  Multiplicities
are strings, so `multiset.has(value)` holds exactly when `multiset.get(value)`
is defined; the `match` reads both. -/
def intersect (ms other : Multiset α) : Multiset α :=
  ms.data.foldl (fun intersection e =>
    match other.get e.1 with
    | some m2 =>
      if cmpStrs e.2 m2 ≤ 0 then intersection.add e.1 e.2
      else intersection.add e.1 m2
    | none => intersection) empty

/-- Embedding of `permute(iterable, callbackFn)` for a `Multiset` argument. -/
def permute (ms : Multiset α) (other : Multiset β) (callbackFn : α → β → γ) : Multiset γ :=
  ms.data.foldl (fun permutation e1 =>
    other.data.foldl (fun permutation e2 =>
      permutation.add (callbackFn e1.1 e2.1) (multiplyStrs e1.2 e2.2)) permutation) empty

/-- Embedding of `union(iterable)` for a `Multiset` argument: a copy of `this`
to which every entry of the argument is added. -/
def union (ms other : Multiset α) : Multiset α :=
  other.data.foldl (fun union e => union.add e.1 e.2) ⟨ms.data⟩

/-- Embedding of `scale(factor)` for a string factor. -/
def scale (ms : Multiset α) (factor : Str) : Multiset α :=
  ms.data.foldl (fun scaled e => scaled.add e.1 (multiplyStrs e.2 factor)) empty

/-- The first loop of `simplify`: `gcd = gcdStrs(gcd, multiplicity)` over the
multiplicities that follow the first one. -/
def gcdMults (fuel : Nat) : Str → List Str → Option Str
  | gcd, [] => some gcd
  | gcd, multiplicity :: rest =>
    match gcdStrs fuel gcd multiplicity with
    | none => none
    | some g => gcdMults fuel g rest

/-- The second loop of `simplify`:
`simplified.add(value, divideStrs(multiplicity, gcd)[0])` for every entry. -/
def simplifyLoop (fuel : Nat) (gcd : Str) : MapData α → Multiset α → Option (Multiset α)
  | [], simplified => some simplified
  | (v, multiplicity) :: rest, simplified =>
    match divideStrs fuel multiplicity gcd with
    | none => none
    | some (q, _) => simplifyLoop fuel gcd rest (simplified.add v q)

/-- Embedding of `simplify()`; `fuel` is handed to every `gcdStrs` and
`divideStrs`, and `none` means that one of them did not finish within it. -/
def simplify (fuel : Nat) (ms : Multiset α) : Option (Multiset α) :=
  match ms.data with
  | [] => some empty
  | (_, first) :: rest =>
    match gcdMults fuel first (rest.map Prod.snd) with
    | none => none
    | some gcd => simplifyLoop fuel gcd ms.data empty

/-- The gcd of all multiplicities of a non-empty multiset, computed the way
`simplify` computes it: the first multiplicity, then `gcdStrs` with each of the
others in turn. -/
def gcdOfAll (fuel : Nat) (ms : Multiset α) : Option Str :=
  match ms.data with
  | [] => none
  | (_, first) :: rest => gcdMults fuel first (rest.map Prod.snd)

end Multiset

/-! ## Fixed-point modifier math (`src/utilities.js`)

`roundHalfToZero` is embedded on the rational value of a finite double, where
every step of it is exact, and `chainMod` on integers.  `applyMod` and
`damageVariation` multiply, divide and count in doubles, so they are embedded
on `JSNum` with the binary64 rounding `toDouble` after every operation. -/

/-- The JavaScript `Math.trunc`. -/
def mathTrunc (n : ℚ) : ℚ := if 0 ≤ n then (⌊n⌋ : ℚ) else (⌈n⌉ : ℚ)

/-- The JavaScript `Math.sign`. -/
def mathSign (n : ℚ) : ℚ := if 0 < n then 1 else if n < 0 then -1 else 0

/-- Embedding of `roundHalfToZero(n)`; the comparison `> 0.5` is a boolean that
the multiplication converts to `1` or `0`. -/
def roundHalfToZero (n : ℚ) : ℚ :=
  mathTrunc n + mathSign n * (if |n - mathTrunc n| > 1 / 2 then 1 else 0)

/-- The conversion `ToInt32` that `>>` applies to its left operand. -/
def toInt32 (x : Int) : Int := (x + 2 ^ 31) % 2 ^ 32 - 2 ^ 31

/-- Embedding of `chainMod(modifier1, modifier2)` on integers. -/
def chainMod (modifier1 modifier2 : Int) : Int :=
  toInt32 (modifier1 * modifier2 + 0x800) >>> (12 : Nat)

/-- A JavaScript number: a finite double given by its rational value, an
infinity, or `NaN`.  The two zeros `+0` and `-0` are one value. -/
inductive JSNum where
  | finite (q : ℚ)
  | posInf
  | negInf
  | nan
  deriving DecidableEq

/-- The nearest integer, a tie going to the even one. -/
def roundHalfEven (y : ℚ) : ℤ :=
  if y - ⌊y⌋ < 1 / 2 then ⌊y⌋
  else if 1 / 2 < y - ⌊y⌋ then ⌊y⌋ + 1
  else if ⌊y⌋ % 2 = 0 then ⌊y⌋ else ⌊y⌋ + 1

/-- The binary64 rounding of an exact result `q`: round to nearest, ties to
even, with 53 significant bits; the unit of the last place is `2 ^ e` with
`e = max (⌊log₂ |q|⌋ - 52) (-1074)`, which covers the subnormal range, and a
rounded magnitude of `2 ^ 1024` or more is an infinity. -/
def toDouble (q : ℚ) : JSNum :=
  if q = 0 then JSNum.finite 0
  else
    let e : ℤ := max (Int.log 2 |q| - 52) (-1074)
    let r : ℚ := (roundHalfEven (|q| / (2 : ℚ) ^ e) : ℚ) * (2 : ℚ) ^ e
    if (2 : ℚ) ^ (1024 : ℕ) ≤ r then (if 0 < q then JSNum.posInf else JSNum.negInf)
    else JSNum.finite (if 0 < q then r else -r)

/-- An infinity times the finite number `a`, the infinity having the sign of
`+Infinity`. -/
def infTimes (a : ℚ) : JSNum :=
  if a = 0 then JSNum.nan else if 0 < a then JSNum.posInf else JSNum.negInf

/-- The JavaScript `x * y` on numbers. -/
def jsMul : JSNum → JSNum → JSNum
  | JSNum.finite a, JSNum.finite b => toDouble (a * b)
  | JSNum.nan, _ => JSNum.nan
  | _, JSNum.nan => JSNum.nan
  | JSNum.finite a, JSNum.posInf => infTimes a
  | JSNum.posInf, JSNum.finite a => infTimes a
  | JSNum.finite a, JSNum.negInf => infTimes (-a)
  | JSNum.negInf, JSNum.finite a => infTimes (-a)
  | JSNum.posInf, JSNum.posInf => JSNum.posInf
  | JSNum.negInf, JSNum.negInf => JSNum.posInf
  | JSNum.posInf, JSNum.negInf => JSNum.negInf
  | JSNum.negInf, JSNum.posInf => JSNum.negInf

/-- The JavaScript `x / y` on numbers; a zero divisor is read as `+0`. -/
def jsDiv : JSNum → JSNum → JSNum
  | JSNum.finite a, JSNum.finite b =>
    if b = 0 then
      (if a = 0 then JSNum.nan else if 0 < a then JSNum.posInf else JSNum.negInf)
    else toDouble (a / b)
  | JSNum.nan, _ => JSNum.nan
  | _, JSNum.nan => JSNum.nan
  | JSNum.finite _, JSNum.posInf => JSNum.finite 0
  | JSNum.finite _, JSNum.negInf => JSNum.finite 0
  | JSNum.posInf, JSNum.finite b => if 0 ≤ b then JSNum.posInf else JSNum.negInf
  | JSNum.negInf, JSNum.finite b => if 0 ≤ b then JSNum.negInf else JSNum.posInf
  | JSNum.posInf, JSNum.posInf => JSNum.nan
  | JSNum.posInf, JSNum.negInf => JSNum.nan
  | JSNum.negInf, JSNum.posInf => JSNum.nan
  | JSNum.negInf, JSNum.negInf => JSNum.nan

/-- The JavaScript `x + y` on numbers. -/
def jsAdd : JSNum → JSNum → JSNum
  | JSNum.finite a, JSNum.finite b => toDouble (a + b)
  | JSNum.nan, _ => JSNum.nan
  | _, JSNum.nan => JSNum.nan
  | JSNum.posInf, JSNum.negInf => JSNum.nan
  | JSNum.negInf, JSNum.posInf => JSNum.nan
  | JSNum.posInf, _ => JSNum.posInf
  | _, JSNum.posInf => JSNum.posInf
  | JSNum.negInf, _ => JSNum.negInf
  | _, JSNum.negInf => JSNum.negInf

/-- The JavaScript `x <= y` on numbers. -/
def jsLe : JSNum → JSNum → Bool
  | JSNum.finite a, JSNum.finite b => decide (a ≤ b)
  | JSNum.nan, _ => false
  | _, JSNum.nan => false
  | JSNum.negInf, _ => true
  | _, JSNum.posInf => true
  | _, _ => false

/-- The JavaScript `Math.trunc` on numbers. -/
def jsTrunc : JSNum → JSNum
  | JSNum.finite q => JSNum.finite (mathTrunc q)
  | x => x

/-- The function `roundHalfToZero` on numbers.  On a finite double it is
`roundHalfToZero` of its value, every step being exact there.  On `±Infinity`
the difference `n - Math.trunc(n)` is `NaN`, the comparison `> 0.5` is false and
the sum is `n`; `NaN` gives `NaN`. -/
def roundHalfToZeroNum : JSNum → JSNum
  | JSNum.finite q => JSNum.finite (roundHalfToZero q)
  | x => x

/-- The second argument of `applyMod`: a number or an array of numbers. -/
inductive NumOrArray where
  | num (v : JSNum)
  | array (vs : List JSNum)
  deriving DecidableEq

/-- Embedding of `applyMod(modifier, value)`: the product and the quotient by
`0x1000` are computed in doubles. -/
def applyMod (modifier : JSNum) : NumOrArray → NumOrArray
  | NumOrArray.array value =>
    NumOrArray.array
      (value.map (fun v => roundHalfToZeroNum (jsDiv (jsMul v modifier) (JSNum.finite 0x1000))))
  | NumOrArray.num value =>
    NumOrArray.num (roundHalfToZeroNum (jsDiv (jsMul value modifier) (JSNum.finite 0x1000)))

/-- The `for` loop of `damageVariation` on the state `(i, damages)`: the test
`i <= max`, the push of `Math.trunc(baseDamage * i / max)` and the step `i++`
are all computed in doubles; one unit of fuel is spent per evaluation of the
loop condition. -/
def damageLoop (baseDamage max : JSNum) : Nat → JSNum → List JSNum → Option (List JSNum)
  | 0, _, _ => none
  | fuel + 1, i, damages =>
    if jsLe i max = true then
      damageLoop baseDamage max fuel (jsAdd i (JSNum.finite 1))
        (damages ++ [jsTrunc (jsDiv (jsMul baseDamage i) max)])
    else some damages

/-- Embedding of `damageVariation(baseDamage, min, max)`; `none` means that the
loop did not finish within the fuel. -/
def damageVariation (fuel : Nat) (baseDamage min max : JSNum) : Option (List JSNum) :=
  damageLoop baseDamage max fuel min []

/-- The rational `q` is the value of a finite double: `m * 2 ^ e` with a
significand below `2 ^ 53` in magnitude, a last place not below `2 ^ (-1074)` and
a magnitude below `2 ^ 1024`. -/
def isDouble (q : ℚ) : Prop :=
  ∃ m e : ℤ, |m| < 2 ^ 53 ∧ -1074 ≤ e ∧ q = (m : ℚ) * (2 : ℚ) ^ e ∧ |q| < (2 : ℚ) ^ (1024 : ℕ)

/-! ## Values and canonical form -/

/-- The digit value of a character, `charCode - 48`. -/
def dig (c : Char) : Nat := c.toNat - 48

/-- The natural number a digit string denotes, most significant digit first. -/
def value : Str → Nat
  | [] => 0
  | c :: t => dig c * 10 ^ t.length + value t

/-- All characters are decimal digits. -/
def allDigits (s : Str) : Bool := s.all Char.isDigit

/-- Canonical digit string: non-empty, decimal digits only, and no leading
zero except for the string `"0"` itself. -/
def canonical (s : Str) : Bool :=
  allDigits s && !s.isEmpty && (s.head? != some '0' || s == ['0'])

/-- The integer `c` has the sign of the comparison of `x` with `y`. -/
def SignAgrees (c : Int) (x y : Nat) : Prop :=
  (c < 0 ↔ x < y) ∧ (c = 0 ↔ x = y) ∧ (0 < c ↔ y < x)

/-- A digit string, possibly empty, that does not start with `'0'`. -/
def noLeadZero (s : Str) : Prop := allDigits s = true ∧ s.head? ≠ some '0'

namespace Multiset

variable {α : Type} [DecidableEq α]

/-- Every multiplicity is a canonical digit string. -/
def canonicalMults (ms : Multiset α) : Bool := ms.data.all (fun e => canonical e.2)

/-- The keys of the map are pairwise distinct, as in every JavaScript `Map`. -/
def distinctKeys (ms : Multiset α) : Prop := (ms.data.map Prod.fst).Nodup

instance (ms : Multiset α) : Decidable ms.distinctKeys :=
  inferInstanceAs (Decidable (ms.data.map Prod.fst).Nodup)

/-- The numerically smaller of two multiplicities of a value present on both
sides, and nothing when it is absent on a side. -/
def smaller : Option Str → Option Str → Option Str
  | some m1, some m2 => some (if value m1 ≤ value m2 then m1 else m2)
  | _, _ => none

/-- The sum of the numbers the multiplicities denote. -/
def total (ms : Multiset α) : Nat := (ms.data.map (fun e => value e.2)).sum

end Multiset

/-! ## Basic facts on digits and values -/

theorem numStr_digit (n : Int) (h0 : 0 ≤ n) (h9 : n ≤ 9) :
    numStr n = [Nat.digitChar n.toNat] := by
  interval_cases n <;> rfl

theorem dig_digitChar (k : Nat) (h : k ≤ 9) : dig (Nat.digitChar k) = k := by
  interval_cases k <;> rfl

theorem isDigit_digitChar (k : Nat) (h : k ≤ 9) : (Nat.digitChar k).isDigit = true := by
  interval_cases k <;> rfl

theorem isDigit_bounds (c : Char) (h : c.isDigit = true) : 48 ≤ c.toNat ∧ c.toNat ≤ 57 := by
  simp only [Char.isDigit, Bool.and_eq_true, decide_eq_true_eq] at h
  exact ⟨h.1, h.2⟩

theorem dig_le (c : Char) (h : c.isDigit = true) : dig c ≤ 9 := by
  have := isDigit_bounds c h
  unfold dig; omega

theorem toNat_eq_dig (c : Char) (h : c.isDigit = true) : c.toNat = dig c + 48 := by
  have := isDigit_bounds c h
  unfold dig; omega

theorem value_append (s t : Str) : value (s ++ t) = value s * 10 ^ t.length + value t := by
  induction s with
  | nil => simp [value]
  | cons c s ih =>
    have hl : ((c :: s) ++ t) = c :: (s ++ t) := rfl
    rw [hl]
    simp only [value, ih, List.length_append, pow_add]
    ring

theorem value_lt (s : Str) (h : allDigits s = true) : value s < 10 ^ s.length := by
  induction s with
  | nil => simp [value]
  | cons c s ih =>
    simp only [allDigits, List.all_cons, Bool.and_eq_true] at h
    have ht := ih h.2
    have hc := dig_le c h.1
    simp only [value, List.length_cons, pow_succ]
    have hp : 0 < 10 ^ s.length := pow_pos (by norm_num) _
    nlinarith

theorem lex_lt (x y ra rb P : Nat) (hra : ra < P) (hxy : x < y) :
    x * P + ra < y * P + rb := by
  have : (x + 1) * P ≤ y * P := Nat.mul_le_mul_right P hxy
  nlinarith

theorem exists_at (s : Str) (i : Nat) (h : i < s.length) :
    ∃ c, s.drop i = c :: s.drop (i + 1) ∧ s.take (i + 1) = s.take i ++ [c] ∧
      charCodeAt s i = (c.toNat : Int) ∧ c ∈ s ∧ s.get? i = some c := by
  refine ⟨s[i], List.drop_eq_getElem_cons h, ?_, ?_, List.getElem_mem h, ?_⟩
  · rw [List.take_succ, List.getElem?_eq_getElem h]; rfl
  · simp [charCodeAt, List.getElem?_eq_getElem h]
  · simp [List.getElem?_eq_getElem h]

theorem allDigits_mem (s : Str) (h : allDigits s = true) (c : Char) (hc : c ∈ s) :
    c.isDigit = true := by
  simp only [allDigits, List.all_eq_true] at h
  exact h c hc

theorem allDigits_append (s t : Str) :
    allDigits (s ++ t) = true ↔ allDigits s = true ∧ allDigits t = true := by
  simp [allDigits, List.all_append]

theorem allDigits_drop (s : Str) (h : allDigits s = true) (i : Nat) :
    allDigits (s.drop i) = true := by
  simp only [allDigits, List.all_eq_true] at *
  exact fun c hc => h c (List.mem_of_mem_drop hc)

theorem allDigits_take (s : Str) (h : allDigits s = true) (i : Nat) :
    allDigits (s.take i) = true := by
  simp only [allDigits, List.all_eq_true] at *
  exact fun c hc => h c (List.mem_of_mem_take hc)

theorem dig_eq_zero (c : Char) (h : c.isDigit = true) (h0 : dig c = 0) : c = '0' := by
  have hb := isDigit_bounds c h
  have h48 : c.toNat = 48 := by unfold dig at h0; omega
  have : Char.ofNat c.toNat = Char.ofNat 48 := by rw [h48]
  rw [Char.ofNat_toNat] at this
  exact this

theorem canonical_iff (s : Str) :
    canonical s = true ↔
      s = ['0'] ∨ ∃ c t, s = c :: t ∧ c.isDigit = true ∧ c ≠ '0' ∧ allDigits t = true := by
  cases s with
  | nil => simp [canonical]
  | cons c t =>
    by_cases hc : c = '0'
    · subst hc
      cases t with
      | nil => simp [canonical, allDigits]
      | cons d u => simp [canonical, allDigits]
    · simp only [canonical, allDigits, List.all_cons, List.isEmpty_cons, Bool.not_false,
        Bool.and_true, List.head?_cons, Bool.and_eq_true, Bool.or_eq_true, bne_iff_ne, ne_eq,
        Option.some.injEq, beq_iff_eq, List.cons.injEq, hc, not_false_eq_true, false_and,
        or_false, true_or, and_true, false_or]
      constructor
      · rintro ⟨h1, h2⟩
        exact ⟨c, t, ⟨rfl, rfl⟩, h1, hc, h2⟩
      · rintro ⟨c1, t1, ⟨rfl, rfl⟩, h1, _, h2⟩
        exact ⟨h1, h2⟩

theorem canonical_allDigits (s : Str) (h : canonical s = true) : allDigits s = true := by
  simp only [canonical, Bool.and_eq_true] at h
  exact h.1.1

theorem canonical_ne_nil (s : Str) (h : canonical s = true) : s ≠ [] := by
  intro h0; subst h0; simp [canonical] at h

theorem canonical_length_pos (s : Str) (h : canonical s = true) : 0 < s.length :=
  List.length_pos.mpr (canonical_ne_nil s h)

/-- A canonical string other than `"0"` has its value at least `10^(length-1)`. -/
theorem canonical_ge (s : Str) (h : canonical s = true) (h0 : s ≠ ['0']) :
    10 ^ (s.length - 1) ≤ value s := by
  rcases (canonical_iff s).mp h with h1 | ⟨c, t, rfl, hc, hc0, _⟩
  · exact absurd h1 h0
  · have hd : 1 ≤ dig c := by
      rcases Nat.eq_zero_or_pos (dig c) with hz | hp
      · exact absurd (dig_eq_zero c hc hz) hc0
      · exact hp
    simp only [value, List.length_cons, Nat.add_sub_cancel]
    nlinarith [pow_pos (show 0 < 10 by norm_num) t.length]

/-- A non-empty digit string whose value reaches `10^(length-1)` is canonical. -/
theorem canonical_of_ge (s : Str) (hd : allDigits s = true) (hl : 0 < s.length)
    (h : 10 ^ (s.length - 1) ≤ value s) : canonical s = true := by
  cases s with
  | nil => simp at hl
  | cons c t =>
    simp only [allDigits, List.all_cons, Bool.and_eq_true] at hd
    refine (canonical_iff _).mpr (Or.inr ⟨c, t, rfl, hd.1, ?_, hd.2⟩)
    intro hc0
    subst hc0
    simp only [value, List.length_cons, Nat.add_sub_cancel] at h
    have := value_lt t hd.2
    have h00 : dig '0' = 0 := rfl
    rw [h00] at h
    omega

/-- A canonical string is determined by its value. -/
theorem canonical_value_zero (s : Str) (h : canonical s = true) (hv : value s = 0) :
    s = ['0'] := by
  by_contra h0
  have := canonical_ge s h h0
  have hp : 0 < 10 ^ (s.length - 1) := pow_pos (by norm_num) _
  omega

/-! ## cmpStrs -/

theorem cmpLoop_spec (a b : Str) (ha : allDigits a = true) (hb : allDigits b = true) :
    ∀ n i, a.length = i + n → b.length = i + n →
      SignAgrees (cmpLoop a b n i) (value (a.drop i)) (value (b.drop i)) := by
  intro n
  induction n with
  | zero =>
    intro i hla hlb
    have h1 : a.drop i = [] := List.drop_eq_nil_of_le (by omega)
    have h2 : b.drop i = [] := List.drop_eq_nil_of_le (by omega)
    simp [cmpLoop, SignAgrees, h1, h2, value]
  | succ n ih =>
    intro i hla hlb
    obtain ⟨x, hxd, -, hxc, hxm, -⟩ := exists_at a i (by omega)
    obtain ⟨y, hyd, -, hyc, hym, -⟩ := exists_at b i (by omega)
    have hx := toNat_eq_dig x (allDigits_mem a ha x hxm)
    have hy := toNat_eq_dig y (allDigits_mem b hb y hym)
    have hra := value_lt _ (allDigits_drop a ha (i + 1))
    have hrb := value_lt _ (allDigits_drop b hb (i + 1))
    have hla1 : (a.drop (i + 1)).length = n := by simp [List.length_drop]; omega
    have hlb1 : (b.drop (i + 1)).length = n := by simp [List.length_drop]; omega
    rw [hla1] at hra
    rw [hlb1] at hrb
    have IH := ih (i + 1) (by omega) (by omega)
    unfold cmpLoop
    rw [hxd, hyd]
    simp only [value, hla1, hlb1, hxc, hyc, hx, hy]
    by_cases hxy : dig x = dig y
    · have hc : ((dig x + 48 : Nat) : Int) = ((dig y + 48 : Nat) : Int) := by rw [hxy]
      rw [if_neg (by simpa using hc)]
      rw [hxy]
      obtain ⟨h1, h2, h3⟩ := IH
      exact ⟨by rw [h1]; omega, by rw [h2]; omega, by rw [h3]; omega⟩
    · have hc : ((dig x + 48 : Nat) : Int) ≠ ((dig y + 48 : Nat) : Int) := by
        intro h; apply hxy; omega
      rw [if_pos hc]
      rcases Nat.lt_or_gt_of_ne hxy with hlt | hgt
      · have := lex_lt (dig x) (dig y) (value (a.drop (i + 1))) (value (b.drop (i + 1)))
          (10 ^ n) hra hlt
        refine ⟨?_, ?_, ?_⟩ <;> constructor <;> intro h <;> omega
      · have := lex_lt (dig y) (dig x) (value (b.drop (i + 1))) (value (a.drop (i + 1)))
          (10 ^ n) hrb hgt
        refine ⟨?_, ?_, ?_⟩ <;> constructor <;> intro h <;> omega

theorem cmpStrs_spec (a b : Str) (ha : canonical a = true) (hb : canonical b = true) :
    SignAgrees (cmpStrs a b) (value a) (value b) := by
  unfold cmpStrs
  by_cases hl : a.length = b.length
  · rw [if_neg (by simpa using hl)]
    have := cmpLoop_spec a b (canonical_allDigits a ha) (canonical_allDigits b hb)
      a.length 0 (by simp) (by simp [hl])
    simpa using this
  · rw [if_pos hl]
    have hpa := canonical_length_pos a ha
    have hpb := canonical_length_pos b hb
    have hva := value_lt a (canonical_allDigits a ha)
    have hvb := value_lt b (canonical_allDigits b hb)
    rcases Nat.lt_or_gt_of_ne hl with hlt | hgt
    · have hb0 : b ≠ ['0'] := by
        intro h
        have : b.length = 1 := by rw [h]; rfl
        omega
      have hge := canonical_ge b hb hb0
      have hpow : 10 ^ a.length ≤ 10 ^ (b.length - 1) :=
        Nat.pow_le_pow_right (by norm_num) (by omega)
      refine ⟨?_, ?_, ?_⟩ <;> constructor <;> intro h <;> omega
    · have ha0 : a ≠ ['0'] := by
        intro h
        have : a.length = 1 := by rw [h]; rfl
        omega
      have hge := canonical_ge a ha ha0
      have hpow : 10 ^ b.length ≤ 10 ^ (a.length - 1) :=
        Nat.pow_le_pow_right (by norm_num) (by omega)
      refine ⟨?_, ?_, ?_⟩ <;> constructor <;> intro h <;> omega

/-! ## addStrs -/

theorem addLoop_succ (a b : Str) (i : Nat) (carry : Int) (sum : Str) :
    addLoop a b (i + 1) carry sum =
      addLoop a b i
        (if charCodeAt a i + charCodeAt b i + carry - 96 > 9 then 1 else 0)
        (numStr ((charCodeAt a i + charCodeAt b i + carry - 96).tmod 10) ++ sum) := rfl

theorem numStr_tmod (t : Nat) : numStr (Int.tmod (t : Int) 10) = [Nat.digitChar (t % 10)] := by
  have h : Int.tmod (t : Int) 10 = ((t % 10 : Nat) : Int) := (Int.ofNat_tmod t 10).symm
  rw [h, numStr_digit _ (by omega) (by omega), Int.toNat_ofNat]

theorem value_zerosStr (n : Nat) : value (zerosStr n) = 0 := by
  induction n with
  | zero => rfl
  | succ n ih =>
    have h : zerosStr (n + 1) = '0' :: zerosStr n := rfl
    rw [h, value, ih]
    have h00 : dig '0' = 0 := rfl
    simp [h00]

theorem allDigits_zerosStr (n : Nat) : allDigits (zerosStr n) = true := by
  simp only [allDigits, zerosStr, List.all_eq_true]
  intro c hc
  rw [List.eq_of_mem_replicate hc]
  rfl

theorem length_zerosStr (n : Nat) : (zerosStr n).length = n := by
  simp [zerosStr]

theorem value_take_succ (s : Str) (i : Nat) (c : Char) (h : s.take (i + 1) = s.take i ++ [c]) :
    value (s.take (i + 1)) = value (s.take i) * 10 + dig c := by
  rw [h, value_append]
  simp [value]

theorem addLoop_spec (a b : Str) (ha : allDigits a = true) (hb : allDigits b = true) :
    ∀ (i k : Nat) (sum : Str), i ≤ a.length → i ≤ b.length → k ≤ 1 →
      allDigits sum = true →
      ∃ (k2 : Nat) (s2 : Str), addLoop a b i (k : Int) sum = ((k2 : Int), s2) ∧ k2 ≤ 1 ∧
        allDigits s2 = true ∧ s2.length = i + sum.length ∧
        k2 * 10 ^ s2.length + value s2 =
          (value (a.take i) + value (b.take i) + k) * 10 ^ sum.length + value sum := by
  intro i
  induction i with
  | zero =>
    intro k sum _ _ hk hs
    exact ⟨k, sum, rfl, hk, hs, by simp, by simp [value]⟩
  | succ i ih =>
    intro k sum hia hib hk hs
    obtain ⟨x, -, hxt, hxc, hxm, -⟩ := exists_at a i (by omega)
    obtain ⟨y, -, hyt, hyc, hym, -⟩ := exists_at b i (by omega)
    have hxd := allDigits_mem a ha x hxm
    have hyd := allDigits_mem b hb y hym
    have hx := toNat_eq_dig x hxd
    have hy := toNat_eq_dig y hyd
    have hx9 := dig_le x hxd
    have hy9 := dig_le y hyd
    have hs0 : charCodeAt a i + charCodeAt b i + (k : Int) - 96 = ((dig x + dig y + k : Nat) : Int) := by
      rw [hxc, hyc, hx, hy]; push_cast; ring
    have hcarry : (if ((dig x + dig y + k : Nat) : Int) > 9 then (1 : Int) else 0) =
        ((if dig x + dig y + k > 9 then 1 else 0 : Nat) : Int) := by
      split_ifs <;> first | rfl | omega
    rw [addLoop_succ, hs0, hcarry, numStr_tmod]
    have hs2 : allDigits ([Nat.digitChar ((dig x + dig y + k) % 10)] ++ sum) = true := by
      rw [allDigits_append]
      refine ⟨?_, hs⟩
      simp [allDigits, isDigit_digitChar _ (show (dig x + dig y + k) % 10 ≤ 9 by omega)]
    obtain ⟨k2, s2, heq, hk2, hd2, hl2, hv2⟩ :=
      ih (if dig x + dig y + k > 9 then 1 else 0) _ (by omega) (by omega)
        (by split_ifs <;> omega) hs2
    refine ⟨k2, s2, heq, hk2, hd2, ?_, ?_⟩
    · rw [hl2]; simp; omega
    · rw [hv2, value_take_succ a i x hxt, value_take_succ b i y hyt]
      have hval : value ([Nat.digitChar ((dig x + dig y + k) % 10)] ++ sum) =
          (dig x + dig y + k) % 10 * 10 ^ sum.length + value sum := by
        rw [value_append]
        simp [value, dig_digitChar _ (show (dig x + dig y + k) % 10 ≤ 9 by omega)]
      have hlen : ([Nat.digitChar ((dig x + dig y + k) % 10)] ++ sum).length =
          sum.length + 1 := by simp
      rw [hval, hlen, pow_succ]
      have key : (if dig x + dig y + k > 9 then 1 else 0) * 10 + (dig x + dig y + k) % 10 =
          dig x + dig y + k := by
        split_ifs <;> omega
      generalize (if dig x + dig y + k > 9 then 1 else 0) = c at key
      generalize (dig x + dig y + k) % 10 = m at key
      have e : dig x + dig y + k = c * 10 + m := key.symm
      calc (value (a.take i) + value (b.take i) + c) * (10 ^ sum.length * 10)
              + (m * 10 ^ sum.length + value sum)
          = ((value (a.take i) + value (b.take i)) * 10 + (c * 10 + m)) * 10 ^ sum.length
              + value sum := by ring
        _ = ((value (a.take i) + value (b.take i)) * 10 + (dig x + dig y + k)) * 10 ^ sum.length
              + value sum := by rw [e]
        _ = _ := by ring

/-- The general behaviour of `addStrs` on digit strings, leading zeros allowed:
the result is a digit string of the sum, as long as the longer operand, and one
longer exactly when the sum does not fit. -/
theorem addStrs_digits (a b : Str) (ha : allDigits a = true) (hb : allDigits b = true) :
    allDigits (addStrs a b) = true ∧ value (addStrs a b) = value a + value b ∧
      (value a + value b < 10 ^ max a.length b.length →
        (addStrs a b).length = max a.length b.length) ∧
      (10 ^ max a.length b.length ≤ value a + value b →
        (addStrs a b).length = max a.length b.length + 1) := by
  obtain ⟨a2, ha2, hla2, hva2, hda2⟩ : ∃ a2 : Str,
      (if a.length < b.length then zerosStr (b.length - a.length) ++ a else a) = a2 ∧
      a2.length = max a.length b.length ∧ value a2 = value a ∧ allDigits a2 = true := by
    refine ⟨_, rfl, ?_, ?_, ?_⟩
    · split_ifs with h
      · simp [length_zerosStr]; omega
      · omega
    · split_ifs with h
      · rw [value_append, value_zerosStr]; simp
      · rfl
    · split_ifs with h
      · rw [allDigits_append]; exact ⟨allDigits_zerosStr _, ha⟩
      · exact ha
  obtain ⟨b2, hb2, hlb2, hvb2, hdb2⟩ : ∃ b2 : Str,
      (if b.length < a2.length then zerosStr (a2.length - b.length) ++ b else b) = b2 ∧
      b2.length = max a.length b.length ∧ value b2 = value b ∧ allDigits b2 = true := by
    refine ⟨_, rfl, ?_, ?_, ?_⟩
    · split_ifs with h
      · simp [length_zerosStr]; omega
      · omega
    · split_ifs with h
      · rw [value_append, value_zerosStr]; simp
      · rfl
    · split_ifs with h
      · rw [allDigits_append]; exact ⟨allDigits_zerosStr _, hb⟩
      · exact hb
  obtain ⟨k2, s2, heq, hk2, hd2, hl2, hv2⟩ :=
    addLoop_spec a2 b2 hda2 hdb2 a2.length 0 [] (le_refl _) (by omega) (by omega) rfl
  have hr : addStrs a b = if (k2 : Int) ≠ 0 then numStr (k2 : Int) ++ s2 else s2 := by
    unfold addStrs
    simp only [ha2, hb2, Nat.cast_zero] at heq ⊢
    rw [heq]
  have ht1 : a2.take a2.length = a2 := List.take_length _
  have ht2 : b2.take a2.length = b2 := by rw [hla2, ← hlb2]; exact List.take_length _
  rw [ht1, ht2, hva2, hvb2] at hv2
  simp only [List.length_nil, value, pow_zero, mul_one, add_zero, hla2] at hv2 hl2
  have hlt := value_lt s2 hd2
  rw [hl2] at hv2 hlt
  rw [hr]
  rcases Nat.eq_zero_or_pos k2 with h0 | hpos
  · subst h0
    simp only [Nat.cast_zero, ne_eq, not_true_eq_false, if_false]
    refine ⟨hd2, by omega, fun _ => hl2, fun h => by omega⟩
  · have h1 : k2 = 1 := by omega
    subst h1
    have hn : numStr ((1 : Nat) : Int) = ['1'] := rfl
    rw [if_pos (by simp), hn]
    have hv : value (['1'] ++ s2) = 10 ^ max a.length b.length + value s2 := by
      rw [value_append, hl2]
      have : value ['1'] = 1 := rfl
      rw [this]; ring
    refine ⟨?_, ?_, ?_, ?_⟩
    · rw [allDigits_append]; exact ⟨rfl, hd2⟩
    · rw [hv]; omega
    · intro h; omega
    · intro _; simp [hl2]

theorem canonical_of_length_one (s : Str) (hd : allDigits s = true) (hl : s.length = 1) :
    canonical s = true := by
  match s, hl with
  | [c], _ =>
    simp only [allDigits, List.all_cons, List.all_nil, Bool.and_true] at hd
    by_cases hc : c = '0'
    · subst hc; rfl
    · exact (canonical_iff _).mpr (Or.inr ⟨c, [], rfl, hd, hc, rfl⟩)

theorem pow_length_le (a b : Str) (ha : allDigits a = true) (hb : canonical b = true)
    (hb0 : b ≠ ['0']) (h : value b ≤ value a) : b.length ≤ a.length := by
  have h1 := canonical_ge b hb hb0
  have h2 := value_lt a ha
  have h3 : 10 ^ (b.length - 1) < 10 ^ a.length := by omega
  have h4 := (Nat.pow_lt_pow_iff_right (show 1 < 10 by norm_num)).mp h3
  omega

theorem addStrs_canonical (a b : Str) (ha : canonical a = true) (hb : canonical b = true) :
    canonical (addStrs a b) = true ∧ value (addStrs a b) = value a + value b := by
  have hda := canonical_allDigits a ha
  have hdb := canonical_allDigits b hb
  obtain ⟨hd, hv, hl1, hl2⟩ := addStrs_digits a b hda hdb
  refine ⟨?_, hv⟩
  have hpa := canonical_length_pos a ha
  have hpb := canonical_length_pos b hb
  rcases Nat.lt_or_ge (value a + value b) (10 ^ max a.length b.length) with hlt | hge
  · have hl := hl1 hlt
    by_cases hM : max a.length b.length = 1
    · exact canonical_of_length_one _ hd (by omega)
    · apply canonical_of_ge _ hd (by omega)
      rw [hl, hv]
      rcases le_total a.length b.length with hab | hab
      · have hb0 : b ≠ ['0'] := by
          intro h
          have : b.length = 1 := by rw [h]; rfl
          omega
        have := canonical_ge b hb hb0
        rw [max_eq_right hab]; omega
      · have ha0 : a ≠ ['0'] := by
          intro h
          have : a.length = 1 := by rw [h]; rfl
          omega
        have := canonical_ge a ha ha0
        rw [max_eq_left hab]; omega
  · have hl := hl2 hge
    apply canonical_of_ge _ hd (by omega)
    rw [hl, hv]
    simpa using hge

/-! ## subtractStrs -/

theorem subLoop_succ (a b : Str) (i : Nat) (borrow : Int) (diff : Str) :
    subLoop a b (i + 1) borrow diff =
      subLoop a b i
        (if charCodeAt a i - charCodeAt b i - borrow < 0 then 1 else 0)
        (numStr (if charCodeAt a i - charCodeAt b i - borrow < 0
          then charCodeAt a i - charCodeAt b i - borrow + 10
          else charCodeAt a i - charCodeAt b i - borrow) ++ diff) := rfl

theorem sub_step_arith (S Tb Ta P m vd K c dx dy k : Nat)
    (hv2 : S + (Tb + c) * (P * 10) = Ta * (P * 10) + (m * P + vd) + K)
    (hcm : dx + 10 * c = dy + k + m) :
    S + (Tb * 10 + dy + k) * P = (Ta * 10 + dx) * P + vd + K := by
  have e2 : (dx + 10 * c) * P = (dy + k + m) * P := by rw [hcm]
  linarith

theorem subLoop_spec (a b : Str) (ha : allDigits a = true) (hb : allDigits b = true) :
    ∀ (i k : Nat) (diff : Str), i ≤ a.length → i ≤ b.length → k ≤ 1 →
      allDigits diff = true →
      ∃ (k2 : Nat) (s2 : Str), subLoop a b i (k : Int) diff = ((k2 : Int), s2) ∧ k2 ≤ 1 ∧
        allDigits s2 = true ∧ s2.length = i + diff.length ∧
        value s2 + (value (b.take i) + k) * 10 ^ diff.length =
          value (a.take i) * 10 ^ diff.length + value diff + k2 * 10 ^ s2.length := by
  intro i
  induction i with
  | zero =>
    intro k diff _ _ hk hs
    exact ⟨k, diff, rfl, hk, hs, by simp, by simp [value]⟩
  | succ i ih =>
    intro k diff hia hib hk hs
    obtain ⟨x, -, hxt, hxc, hxm, -⟩ := exists_at a i (by omega)
    obtain ⟨y, -, hyt, hyc, hym, -⟩ := exists_at b i (by omega)
    have hxd := allDigits_mem a ha x hxm
    have hyd := allDigits_mem b hb y hym
    have hx := toNat_eq_dig x hxd
    have hy := toNat_eq_dig y hyd
    have hx9 := dig_le x hxd
    have hy9 := dig_le y hyd
    have hd0 : charCodeAt a i - charCodeAt b i - (k : Int) =
        (dig x : Int) - (dig y : Int) - (k : Int) := by
      rw [hxc, hyc, hx, hy]; push_cast; ring
    obtain ⟨c, m, hc, hm, hc1, hm9, hcm⟩ : ∃ c m : Nat,
        (if (dig x : Int) - (dig y : Int) - (k : Int) < 0 then (1 : Int) else 0) = (c : Int) ∧
        (if (dig x : Int) - (dig y : Int) - (k : Int) < 0
          then (dig x : Int) - (dig y : Int) - (k : Int) + 10
          else (dig x : Int) - (dig y : Int) - (k : Int)) = (m : Int) ∧
        c ≤ 1 ∧ m ≤ 9 ∧ dig x + 10 * c = dig y + k + m := by
      by_cases hneg : (dig x : Int) - (dig y : Int) - (k : Int) < 0
      · refine ⟨1, dig x + 10 - dig y - k, ?_, ?_, ?_, ?_, ?_⟩
        · rw [if_pos hneg]; rfl
        · rw [if_pos hneg]; omega
        · omega
        · omega
        · omega
      · refine ⟨0, dig x - dig y - k, ?_, ?_, ?_, ?_, ?_⟩
        · rw [if_neg hneg]; rfl
        · rw [if_neg hneg]; omega
        · omega
        · omega
        · omega
    rw [subLoop_succ, hd0, hc, hm, numStr_digit _ (by omega) (by omega), Int.toNat_ofNat]
    have hs2 : allDigits ([Nat.digitChar m] ++ diff) = true := by
      rw [allDigits_append]
      refine ⟨?_, hs⟩
      simp [allDigits, isDigit_digitChar _ hm9]
    obtain ⟨k2, s2, heq, hk2, hd2, hl2, hv2⟩ :=
      ih c _ (by omega) (by omega) hc1 hs2
    have hlen : ([Nat.digitChar m] ++ diff).length = diff.length + 1 := rfl
    refine ⟨k2, s2, heq, hk2, hd2, ?_, ?_⟩
    · rw [hl2, hlen]; omega
    · rw [value_take_succ a i x hxt, value_take_succ b i y hyt]
      have hval : value ([Nat.digitChar m] ++ diff) = m * 10 ^ diff.length + value diff := by
        rw [value_append]
        simp [value, dig_digitChar _ hm9]
      rw [hval, hlen, pow_succ] at hv2
      exact sub_step_arith _ _ _ _ _ _ _ _ _ _ _ hv2 hcm

theorem strip_spec (s : Str) (hd : allDigits s = true) :
    value (s.dropWhile (fun c => c == '0')) = value s ∧
      allDigits (s.dropWhile (fun c => c == '0')) = true ∧
      (s.dropWhile (fun c => c == '0')).head? ≠ some '0' := by
  induction s with
  | nil => simp [value, allDigits]
  | cons c t ih =>
    have hd2 := hd
    simp only [allDigits, List.all_cons, Bool.and_eq_true] at hd2
    by_cases hc : c = '0'
    · subst hc
      have h00 : dig '0' = 0 := rfl
      have hdw : List.dropWhile (fun c => c == '0') ('0' :: t) =
          List.dropWhile (fun c => c == '0') t := by
        simp [List.dropWhile]
      rw [hdw]
      obtain ⟨h1, h2, h3⟩ := ih hd2.2
      refine ⟨?_, h2, h3⟩
      rw [h1]; simp [value, h00]
    · have hc2 : (c == '0') = false := by simpa using hc
      have hdw : List.dropWhile (fun c => c == '0') (c :: t) = c :: t := by
        simp [List.dropWhile, hc2]
      rw [hdw]
      exact ⟨rfl, hd, by simpa using hc⟩

/-- The behaviour of `subtractStrs` on digit strings with the second no longer
than the first and no larger in value. -/
theorem subtractStrs_digits (a b : Str) (ha : allDigits a = true) (hb : allDigits b = true)
    (hl : b.length ≤ a.length) (hv : value b ≤ value a) :
    canonical (subtractStrs a b) = true ∧ value (subtractStrs a b) + value b = value a := by
  obtain ⟨b2, hb2, hlb2, hvb2, hdb2⟩ : ∃ b2 : Str,
      (if b.length < a.length then zerosStr (a.length - b.length) ++ b else b) = b2 ∧
      b2.length = a.length ∧ value b2 = value b ∧ allDigits b2 = true := by
    refine ⟨_, rfl, ?_, ?_, ?_⟩
    · split_ifs with h
      · simp [length_zerosStr]; omega
      · omega
    · split_ifs with h
      · rw [value_append, value_zerosStr]; simp
      · rfl
    · split_ifs with h
      · rw [allDigits_append]; exact ⟨allDigits_zerosStr _, hb⟩
      · exact hb
  obtain ⟨k2, s2, heq, hk2, hd2, hl2, hv2⟩ :=
    subLoop_spec a b2 ha hdb2 a.length 0 [] (le_refl _) (by omega) (by omega) rfl
  have ht1 : a.take a.length = a := List.take_length _
  have ht2 : b2.take a.length = b2 := by rw [← hlb2]; exact List.take_length _
  rw [ht1, ht2, hvb2] at hv2
  simp only [List.length_nil, value, pow_zero, mul_one, add_zero] at hv2 hl2
  have hlt := value_lt s2 hd2
  have hk0 : k2 = 0 := by
    rcases Nat.eq_zero_or_pos k2 with h0 | hpos
    · exact h0
    · have h1 : k2 = 1 := by omega
      subst h1
      omega
  subst hk0
  simp only [zero_mul, add_zero] at hv2
  obtain ⟨hs1, hs2, hs3⟩ := strip_spec s2 hd2
  have hr : subtractStrs a b =
      if s2.dropWhile (fun c => c == '0') = [] then ['0']
      else s2.dropWhile (fun c => c == '0') := by
    unfold subtractStrs
    simp only [hb2, Nat.cast_zero] at heq ⊢
    rw [heq]
  rw [hr]
  by_cases hnil : s2.dropWhile (fun c => c == '0') = []
  · rw [if_pos hnil]
    rw [hnil] at hs1
    refine ⟨rfl, ?_⟩
    have : value ['0'] = 0 := rfl
    rw [this]
    have : value ([] : Str) = 0 := rfl
    omega
  · rw [if_neg hnil]
    refine ⟨?_, by omega⟩
    generalize s2.dropWhile (fun c => c == '0') = r at hs1 hs2 hs3 hnil
    cases r with
    | nil => exact absurd rfl hnil
    | cons c t =>
      simp only [allDigits, List.all_cons, Bool.and_eq_true] at hs2
      exact (canonical_iff _).mpr
        (Or.inr ⟨c, t, rfl, hs2.1, by simpa using hs3, hs2.2⟩)

theorem subtractStrs_canonical (a b : Str) (ha : canonical a = true) (hb : canonical b = true)
    (hv : value b ≤ value a) :
    canonical (subtractStrs a b) = true ∧ value (subtractStrs a b) + value b = value a := by
  apply subtractStrs_digits a b (canonical_allDigits a ha) (canonical_allDigits b hb) _ hv
  by_cases hb0 : b = ['0']
  · have := canonical_length_pos a ha
    rw [hb0]; exact this
  · exact pow_length_le a b (canonical_allDigits a ha) hb hb0 hv

/-! ## multiplyStrs -/

theorem mulRow_succ (c1 : Int) (b : Str) (j : Nat) (carry : Int) (digits : Str) :
    mulRow c1 b (j + 1) carry digits =
      mulRow c1 b j (((c1 - 48) * (charCodeAt b j - 48) + carry).tdiv 10)
        (numStr (((c1 - 48) * (charCodeAt b j - 48) + carry).tmod 10) ++ digits) := rfl

theorem mul_step_arith (L d T c m P vds dy k : Nat)
    (h : L = (d * T + c) * (P * 10) + (m * P + vds))
    (hp : d * dy + k = 10 * c + m) :
    L = (d * (T * 10 + dy) + k) * P + vds := by
  have e : (d * dy + k) * P = (10 * c + m) * P := by rw [hp]
  linarith

theorem mulRow_spec (x : Char) (hx : x.isDigit = true) (b : Str) (hb : allDigits b = true) :
    ∀ (j k : Nat) (ds : Str), j ≤ b.length → k ≤ 8 → allDigits ds = true →
      ∃ (k2 : Nat) (s2 : Str), mulRow (x.toNat : Int) b j (k : Int) ds = ((k2 : Int), s2) ∧
        k2 ≤ 8 ∧ allDigits s2 = true ∧ s2.length = j + ds.length ∧
        k2 * 10 ^ s2.length + value s2 =
          (dig x * value (b.take j) + k) * 10 ^ ds.length + value ds := by
  intro j
  induction j with
  | zero =>
    intro k ds _ hk hs
    exact ⟨k, ds, rfl, hk, hs, by simp, by simp [value]⟩
  | succ j ih =>
    intro k ds hjb hk hs
    obtain ⟨y, -, hyt, hyc, hym, -⟩ := exists_at b j (by omega)
    have hyd := allDigits_mem b hb y hym
    have hxn := toNat_eq_dig x hx
    have hy := toNat_eq_dig y hyd
    have hx9 := dig_le x hx
    have hy9 := dig_le y hyd
    have hprod : dig x * dig y ≤ 81 := Nat.mul_le_mul hx9 hy9
    have hp0 : ((x.toNat : Int) - 48) * (charCodeAt b j - 48) + (k : Int) =
        ((dig x * dig y + k : Nat) : Int) := by
      rw [hyc, hxn, hy]; push_cast; ring
    have htd : Int.tdiv ((dig x * dig y + k : Nat) : Int) 10 =
        (((dig x * dig y + k) / 10 : Nat) : Int) := (Int.ofNat_tdiv _ 10).symm
    rw [mulRow_succ, hp0, htd]
    have hn10 : numStr (Int.tmod ((dig x * dig y + k : Nat) : Int) 10) =
        [Nat.digitChar ((dig x * dig y + k) % 10)] := numStr_tmod _
    rw [hn10]
    have hm9 : (dig x * dig y + k) % 10 ≤ 9 := by omega
    have hs2 : allDigits ([Nat.digitChar ((dig x * dig y + k) % 10)] ++ ds) = true := by
      rw [allDigits_append]
      refine ⟨?_, hs⟩
      simp [allDigits, isDigit_digitChar _ hm9]
    obtain ⟨k2, s2, heq, hk2, hd2, hl2, hv2⟩ :=
      ih ((dig x * dig y + k) / 10) _ (by omega) (by omega) hs2
    have hlen : ([Nat.digitChar ((dig x * dig y + k) % 10)] ++ ds).length = ds.length + 1 := rfl
    refine ⟨k2, s2, heq, hk2, hd2, ?_, ?_⟩
    · rw [hl2, hlen]; omega
    · rw [value_take_succ b j y hyt]
      have hval : value ([Nat.digitChar ((dig x * dig y + k) % 10)] ++ ds) =
          (dig x * dig y + k) % 10 * 10 ^ ds.length + value ds := by
        rw [value_append]
        simp [value, dig_digitChar _ hm9]
      rw [hval, hlen, pow_succ] at hv2
      exact mul_step_arith _ _ _ _ _ _ _ _ _ hv2 (by omega)

/-- One row of the long multiplication: the digit `x` times `b`, shifted by `z`
places. -/
theorem mulRow_row (x : Char) (hx : x.isDigit = true) (b : Str) (hb : allDigits b = true)
    (z : Nat) :
    ∃ row : Str,
      (match mulRow (x.toNat : Int) b b.length 0 [] with
        | (carry, digits) =>
          (if carry ≠ 0 then numStr carry else []) ++ digits ++ zerosStr z) = row ∧
      allDigits row = true ∧ value row = dig x * value b * 10 ^ z ∧
      b.length + z ≤ row.length ∧ row.length ≤ b.length + z + 1 ∧
      (dig x ≠ 0 → 10 ^ (b.length - 1) ≤ value b → 10 ^ (row.length - 1) ≤ value row) := by
  obtain ⟨k2, s2, heq, hk2, hd2, hl2, hv2⟩ :=
    mulRow_spec x hx b hb b.length 0 [] (le_refl _) (by omega) rfl
  simp only [Nat.cast_zero] at heq
  rw [heq]
  simp only [List.length_nil, add_zero, List.take_length, value, pow_zero, mul_one] at hl2 hv2
  rw [hl2] at hv2
  have hvb := value_lt b hb
  have hs2lt := value_lt s2 hd2
  rw [hl2] at hs2lt
  have hP : 0 < 10 ^ z := pow_pos (by norm_num) _
  refine ⟨(if (k2 : Int) ≠ 0 then numStr (k2 : Int) else []) ++ s2 ++ zerosStr z, rfl, ?_⟩
  rcases Nat.eq_zero_or_pos k2 with h0 | hpos
  · subst h0
    simp only [Nat.cast_zero, ne_eq, not_true_eq_false, if_false, List.nil_append]
    simp only [zero_mul, zero_add] at hv2
    have hlen : (s2 ++ zerosStr z).length = b.length + z := by
      rw [List.length_append, length_zerosStr, hl2]
    have hval : value (s2 ++ zerosStr z) = dig x * value b * 10 ^ z := by
      rw [value_append, value_zerosStr, length_zerosStr, hv2]; ring
    refine ⟨?_, hval, by omega, by omega, ?_⟩
    · rw [allDigits_append]; exact ⟨hd2, allDigits_zerosStr z⟩
    · intro hd hge
      have hlb : 1 ≤ b.length := by
        rcases Nat.eq_zero_or_pos b.length with h | h
        · rw [h] at hvb hge; simp at hvb hge; omega
        · exact h
      have hlen2 : (s2 ++ zerosStr z).length - 1 = (b.length - 1) + z := by omega
      rw [hlen2, pow_add, hval]
      have h1 : value b ≤ dig x * value b := Nat.le_mul_of_pos_left _ (Nat.pos_of_ne_zero hd)
      exact Nat.mul_le_mul_right _ (le_trans hge h1)
  · have hk9 : k2 ≤ 9 := by omega
    have hn : numStr ((k2 : Nat) : Int) = [Nat.digitChar k2] := by
      rw [numStr_digit _ (by omega) (by omega), Int.toNat_ofNat]
    have hne : ((k2 : Nat) : Int) ≠ 0 := by omega
    rw [if_pos hne, hn]
    have hval : value ([Nat.digitChar k2] ++ s2 ++ zerosStr z) =
        dig x * value b * 10 ^ z := by
      rw [value_append, value_zerosStr, length_zerosStr, value_append, hl2]
      simp only [value, List.length_nil, pow_zero, mul_one, add_zero, dig_digitChar _ hk9]
      rw [hv2]
    have hlen : ([Nat.digitChar k2] ++ s2 ++ zerosStr z).length = b.length + z + 1 := by
      rw [List.length_append, List.length_append, length_zerosStr, hl2]
      simp only [List.length_singleton]; omega
    refine ⟨?_, hval, by omega, by omega, ?_⟩
    · rw [allDigits_append, allDigits_append]
      refine ⟨⟨?_, hd2⟩, allDigits_zerosStr z⟩
      simp [allDigits, isDigit_digitChar _ hk9]
    · intro _ _
      rw [hlen, hval, ← hv2]
      simp only [Nat.add_sub_cancel, pow_add]
      have : 1 * 10 ^ b.length ≤ k2 * 10 ^ b.length + value s2 := by
        have := Nat.mul_le_mul_right (10 ^ b.length) hpos
        omega
      calc 10 ^ b.length * 10 ^ z = (1 * 10 ^ b.length) * 10 ^ z := by ring
        _ ≤ (k2 * 10 ^ b.length + value s2) * 10 ^ z := Nat.mul_le_mul_right _ this

theorem mulLoop_succ (a b : Str) (i : Nat) (zeros product : Str) :
    mulLoop a b (i + 1) zeros product =
      mulLoop a b i (zeros ++ ['0'])
        (addStrs
          (match mulRow (charCodeAt a i) b b.length 0 [] with
            | (carry, digits) =>
              (if carry ≠ 0 then numStr carry else []) ++ digits ++ zeros)
          product) := rfl

theorem zerosStr_snoc (n : Nat) : zerosStr n ++ ['0'] = zerosStr (n + 1) := by
  induction n with
  | zero => rfl
  | succ n ih =>
    have h : ∀ m, zerosStr (m + 1) = '0' :: zerosStr m := fun _ => rfl
    rw [h n, List.cons_append, ih, h (n + 1)]

theorem mulLoop_spec (a b : Str) (ha : allDigits a = true) (hb : canonical b = true)
    (hb0 : b ≠ ['0']) :
    ∀ (i : Nat) (zeros product : Str), i ≤ a.length → zeros = zerosStr (a.length - i) →
      allDigits product = true → value product = value (a.drop i) * value b →
      1 ≤ product.length → product.length ≤ b.length + (a.length - i) →
      (∀ c, a.get? i = some c → c ≠ '0' → canonical product = true) →
      allDigits (mulLoop a b i zeros product) = true ∧
        value (mulLoop a b i zeros product) = value a * value b ∧
        (∀ c, a.get? 0 = some c → c ≠ '0' →
          canonical (mulLoop a b i zeros product) = true) := by
  have hdb := canonical_allDigits b hb
  have hgeb := canonical_ge b hb hb0
  have hvb := value_lt b hdb
  intro i
  induction i with
  | zero =>
    intro zeros product _ _ hd hv _ _ hc
    exact ⟨hd, by simpa using hv, hc⟩
  | succ i ih =>
    intro zeros product hi hz hd hv hl1 hl2 _
    obtain ⟨x, hxd, -, hxc, hxm, hxg⟩ := exists_at a i (by omega)
    have hxdig := allDigits_mem a ha x hxm
    obtain ⟨row, hrow, hrd, hrv, hrl1, hrl2, hrge⟩ :=
      mulRow_row x hxdig b hdb (a.length - (i + 1))
    rw [mulLoop_succ, hxc, hz, hrow]
    have hz2 : zerosStr (a.length - (i + 1)) ++ ['0'] = zerosStr (a.length - i) := by
      rw [zerosStr_snoc]; congr 1; omega
    obtain ⟨hpd, hpv, hpl1, hpl2⟩ := addStrs_digits row product hrd hd
    have hlen1 : (a.drop (i + 1)).length = a.length - (i + 1) := by simp
    have hvd : value (a.drop i) = dig x * 10 ^ (a.length - (i + 1)) + value (a.drop (i + 1)) := by
      rw [hxd, value, hlen1]
    have hval : value (addStrs row product) = value (a.drop i) * value b := by
      rw [hpv, hrv, hv, hvd]; ring
    have hM : max row.length product.length = row.length := max_eq_left (by omega)
    rw [hM] at hpl1 hpl2
    have hlt : value (addStrs row product) < 10 ^ (b.length + (a.length - (i + 1)) + 1) := by
      rw [hval]
      have h1 := value_lt _ (allDigits_drop a ha i)
      have h2 : (a.drop i).length = a.length - (i + 1) + 1 := by simp; omega
      rw [h2] at h1
      have := Nat.mul_lt_mul'' h1 hvb
      calc value (a.drop i) * value b < 10 ^ (a.length - (i + 1) + 1) * 10 ^ b.length := this
        _ = 10 ^ (b.length + (a.length - (i + 1)) + 1) := by rw [← pow_add]; congr 1; omega
    have hlen : (addStrs row product).length = row.length ∨
        ((addStrs row product).length = row.length + 1 ∧
          10 ^ row.length ≤ value (addStrs row product)) := by
      rcases Nat.lt_or_ge (value row + value product) (10 ^ row.length) with h | h
      · exact Or.inl (hpl1 h)
      · exact Or.inr ⟨hpl2 h, by rw [hpv]; exact h⟩
    rw [hz2]
    apply ih _ _ (by omega) rfl hpd hval
    · rcases hlen with h | ⟨h, _⟩ <;> omega
    · rcases hlen with h | ⟨h, hge⟩
      · omega
      · have h3 : 10 ^ row.length < 10 ^ (b.length + (a.length - (i + 1)) + 1) := by omega
        have h4 := (Nat.pow_lt_pow_iff_right (show 1 < 10 by norm_num)).mp h3
        omega
    · intro c hc hc0
      rw [hxg] at hc
      have hcx : x = c := by simpa using hc
      subst hcx
      have hd0 : dig x ≠ 0 := fun h => hc0 (dig_eq_zero x hxdig h)
      have hr := hrge hd0 hgeb
      apply canonical_of_ge _ hpd
      · rcases hlen with h | ⟨h, _⟩ <;> omega
      · rcases hlen with h | ⟨h, hge⟩
        · rw [h, hpv]; omega
        · rw [h]; simpa using hge

theorem value_zero_str : value ['0'] = 0 := rfl

theorem multiplyStrs_spec (a b : Str) (ha : canonical a = true) (hb : canonical b = true) :
    canonical (multiplyStrs a b) = true ∧ value (multiplyStrs a b) = value a * value b := by
  unfold multiplyStrs
  by_cases h0 : a = ['0'] ∨ b = ['0']
  · rw [if_pos h0]
    refine ⟨rfl, ?_⟩
    rcases h0 with h | h <;> rw [h] <;> simp [value_zero_str]
  · rw [if_neg h0]
    push_neg at h0
    have hlb := canonical_length_pos b hb
    obtain ⟨h1, h2, h3⟩ := mulLoop_spec a b (canonical_allDigits a ha) hb h0.2 a.length [] ['0']
      (le_refl _) (by simp [zerosStr]) rfl (by rw [value_zero_str]; simp [value])
      (by simp) (by simp; omega) (by intro c hc; simp at hc)
    refine ⟨?_, h2⟩
    rcases (canonical_iff a).mp ha with h | ⟨c, t, rfl, _, hc0, _⟩
    · exact absurd h h0.1
    · exact h3 c rfl hc0

/-! ## divideStrs -/

theorem canonical_of_noLeadZero (s : Str) (h : noLeadZero s) (hne : s ≠ []) :
    canonical s = true ∧ s ≠ ['0'] := by
  cases s with
  | nil => exact absurd rfl hne
  | cons c t =>
    obtain ⟨hd, hh⟩ := h
    have hc : c ≠ '0' := by simpa using hh
    simp only [allDigits, List.all_cons, Bool.and_eq_true] at hd
    refine ⟨(canonical_iff _).mpr (Or.inr ⟨c, t, rfl, hd.1, hc, hd.2⟩), ?_⟩
    intro h0
    simp only [List.cons.injEq] at h0
    exact hc h0.1

theorem noLeadZero_of_canonical (s : Str) (h : canonical s = true) (h0 : s ≠ ['0']) :
    noLeadZero s := by
  rcases (canonical_iff s).mp h with h1 | ⟨c, t, rfl, hc, hc0, ht⟩
  · exact absurd h1 h0
  · refine ⟨?_, by simpa using hc0⟩
    simp only [allDigits, List.all_cons, Bool.and_eq_true]
    exact ⟨hc, ht⟩

theorem noLeadZero_nil : noLeadZero [] := ⟨rfl, by simp⟩

theorem noLeadZero_snoc (s : Str) (h : noLeadZero s) (hne : s ≠ []) (c : Char)
    (hc : c.isDigit = true) : noLeadZero (s ++ [c]) := by
  cases s with
  | nil => exact absurd rfl hne
  | cons x t =>
    obtain ⟨hd, hh⟩ := h
    refine ⟨?_, by simpa using hh⟩
    rw [allDigits_append]
    exact ⟨hd, by simp [allDigits, hc]⟩

theorem noLeadZero_take (s : Str) (h : noLeadZero s) (n : Nat) : noLeadZero (s.take n) := by
  obtain ⟨hd, hh⟩ := h
  refine ⟨allDigits_take s hd n, ?_⟩
  cases n with
  | zero => simp
  | succ n =>
    cases s with
    | nil => simp
    | cons c t => simpa using hh

theorem value_snoc (s : Str) (c : Char) : value (s ++ [c]) = value s * 10 + dig c := by
  rw [value_append]; simp [value]

theorem cmpStrs_ge_iff (a b : Str) (ha : canonical a = true) (hb : canonical b = true) :
    cmpStrs a b ≥ 0 ↔ value b ≤ value a := by
  obtain ⟨h1, -, -⟩ := cmpStrs_spec a b ha hb
  constructor
  · intro h
    by_contra hc
    have := h1.mpr (by omega)
    omega
  · intro h
    by_contra hc
    have := h1.mp (by omega)
    omega

theorem divWhile_spec (b : Str) (hb : canonical b = true) (hb0 : 0 < value b) :
    ∀ (fuel : Nat) (r : Str) (q : Nat), canonical r = true → value r / value b < fuel →
      ∃ r2 : Str, divWhile b fuel r (q : Int) = some (r2, ((q + value r / value b : Nat) : Int)) ∧
        canonical r2 = true ∧ value r2 = value r % value b := by
  intro fuel
  induction fuel with
  | zero => intro r q _ h; exact absurd h (Nat.not_lt_zero _)
  | succ fuel ih =>
    intro r q hr hq
    unfold divWhile
    by_cases hge : cmpStrs r b ≥ 0
    · rw [if_pos hge]
      have hle := (cmpStrs_ge_iff r b hr hb).mp hge
      obtain ⟨hc, hv⟩ := subtractStrs_canonical r b hr hb hle
      have hv2 : value (subtractStrs r b) = value r - value b := by omega
      have hdiv : value r / value b = (value r - value b) / value b + 1 :=
        Nat.div_eq_sub_div hb0 hle
      have hmod : value r % value b = (value r - value b) % value b :=
        Nat.mod_eq_sub_mod hle
      obtain ⟨r2, h1, h2, h3⟩ := ih (subtractStrs r b) (q + 1) hc (by rw [hv2]; omega)
      refine ⟨r2, ?_, h2, ?_⟩
      · have hcast : ((q : Nat) : Int) + 1 = ((q + 1 : Nat) : Int) := by push_cast; ring
        rw [hcast, h1, hv2, hdiv]
        congr 3; omega
      · rw [h3, hv2, hmod]
    · rw [if_neg hge]
      have hlt : value r < value b := by
        by_contra hc
        exact hge ((cmpStrs_ge_iff r b hr hb).mpr (by omega))
      refine ⟨r, ?_, hr, (Nat.mod_eq_of_lt hlt).symm⟩
      rw [Nat.div_eq_of_lt hlt]; simp

theorem divLoop_step (fuel : Nat) (a b : Str) (n : Nat) (i : Int) (quotient r r2 : Str)
    (q : Int)
    (h : divWhile b fuel (if r = ['0'] then charAt a i else r ++ charAt a i) 0 = some (r2, q)) :
    divLoop fuel a b (n + 1) i quotient r =
      divLoop fuel a b n (i + 1)
        (if q ≠ 0 ∨ quotient ≠ [] then quotient ++ numStr q else quotient) r2 := by
  simp only [divLoop, h]

theorem charAt_nat (a : Str) (i : Nat) (c : Char) (h : a.get? i = some c) :
    charAt a (i : Int) = [c] := by
  unfold charAt
  rw [if_neg (by omega), Int.toNat_ofNat, h]

theorem bring_down (r : Str) (c : Char) (hc : c.isDigit = true)
    (hr : r = ['0'] ∨ noLeadZero r) :
    canonical (if r = ['0'] then [c] else r ++ [c]) = true ∧
      value (if r = ['0'] then [c] else r ++ [c]) = value r * 10 + dig c := by
  have h1 : canonical [c] = true := canonical_of_length_one _ (by simp [allDigits, hc]) rfl
  have h2 : value [c] = dig c := by simp [value]
  by_cases h0 : r = ['0']
  · rw [if_pos h0, h0, value_zero_str]
    exact ⟨h1, by rw [h2]; simp⟩
  · rw [if_neg h0]
    refine ⟨?_, value_snoc r c⟩
    rcases hr with h | h
    · exact absurd h h0
    · by_cases hnil : r = []
      · rw [hnil]; exact h1
      · exact (canonical_of_noLeadZero _ (noLeadZero_snoc r h hnil c hc) (by simp)).1

theorem push_digit (quotient : Str) (q : Nat) (hq9 : q ≤ 9) (hq : noLeadZero quotient) :
    noLeadZero (if (q : Int) ≠ 0 ∨ quotient ≠ [] then quotient ++ numStr (q : Int)
      else quotient) ∧
      value (if (q : Int) ≠ 0 ∨ quotient ≠ [] then quotient ++ numStr (q : Int)
        else quotient) = value quotient * 10 + q := by
  have hn : numStr ((q : Nat) : Int) = [Nat.digitChar q] := by
    rw [numStr_digit _ (by omega) (by omega), Int.toNat_ofNat]
  have hd := isDigit_digitChar q hq9
  have hv := dig_digitChar q hq9
  by_cases hc : (q : Int) ≠ 0 ∨ quotient ≠ []
  · rw [if_pos hc, hn]
    refine ⟨?_, by rw [value_snoc, hv]⟩
    by_cases hnil : quotient = []
    · rw [hnil]
      refine ⟨by simp [allDigits, hd], ?_⟩
      have hq0 : q ≠ 0 := by
        rcases hc with h | h
        · omega
        · exact absurd hnil h
      intro h
      simp only [List.nil_append, List.head?_cons, Option.some.injEq] at h
      rw [h] at hv
      have h00 : dig '0' = 0 := rfl
      omega
    · exact noLeadZero_snoc quotient hq hnil _ hd
  · rw [if_neg hc]
    push_neg at hc
    refine ⟨hq, ?_⟩
    have : q = 0 := by omega
    rw [hc.2, this]; rfl

theorem divLoop_spec (a b : Str) (ha : allDigits a = true) (hb : canonical b = true)
    (hb0 : 0 < value b) (fuel : Nat) (hf : 10 ≤ fuel) :
    ∀ (n : Nat) (quotient r : Str), n ≤ a.length → (r = ['0'] ∨ noLeadZero r) →
      value r < value b → noLeadZero quotient →
      value (a.take (a.length - n)) = value quotient * value b + value r →
      ∃ Q R : Str, divLoop fuel a b n ((a.length - n : Nat) : Int) quotient r = some (Q, R) ∧
        noLeadZero Q ∧ (0 < n ∨ canonical r = true → canonical R = true) ∧
        value R < value b ∧ value a = value Q * value b + value R := by
  intro n
  induction n with
  | zero =>
    intro quotient r _ _ hlt hq hv
    refine ⟨quotient, r, rfl, hq, ?_, hlt, by simpa using hv⟩
    rintro (h | h)
    · omega
    · exact h
  | succ n ih =>
    intro quotient r hn hr hlt hq hv
    obtain ⟨c, -, hct, -, hcm, hcg⟩ := exists_at a (a.length - (n + 1)) (by omega)
    have hcd := allDigits_mem a ha c hcm
    have hch := charAt_nat a _ c hcg
    obtain ⟨hcr, hvr⟩ := bring_down r c hcd hr
    have hc9 := dig_le c hcd
    have hq9 : value (if r = ['0'] then [c] else r ++ [c]) / value b < 10 := by
      rw [Nat.div_lt_iff_lt_mul hb0, hvr]
      nlinarith
    obtain ⟨r2, hw, hcr2, hvr2⟩ := divWhile_spec b hb hb0 fuel _ 0 hcr (by omega)
    simp only [Nat.cast_zero, zero_add] at hw
    have hw2 : divWhile b fuel
        (if r = ['0'] then charAt a ((a.length - (n + 1) : Nat) : Int)
          else r ++ charAt a ((a.length - (n + 1) : Nat) : Int)) 0 =
        some (r2, ((value (if r = ['0'] then [c] else r ++ [c]) / value b : Nat) : Int)) := by
      rw [hch]; exact hw
    rw [divLoop_step fuel a b n _ quotient r r2 _ hw2]
    obtain ⟨hq2, hvq2⟩ := push_digit quotient
      (value (if r = ['0'] then [c] else r ++ [c]) / value b) (by omega) hq
    have hidx : (((a.length - (n + 1) : Nat) : Int) + 1) = ((a.length - n : Nat) : Int) := by
      omega
    rw [hidx]
    have hr2 : r2 = ['0'] ∨ noLeadZero r2 := by
      by_cases h : r2 = ['0']
      · exact Or.inl h
      · exact Or.inr (noLeadZero_of_canonical r2 hcr2 h)
    have hlt2 : value r2 < value b := by rw [hvr2]; exact Nat.mod_lt _ hb0
    have htake : a.take (a.length - n) = a.take (a.length - (n + 1)) ++ [c] := by
      rw [← hct]; congr 1; omega
    have hinv : value (a.take (a.length - n)) =
        value (if ((value (if r = ['0'] then [c] else r ++ [c]) / value b : Nat) : Int) ≠ 0 ∨
            quotient ≠ []
          then quotient ++
            numStr ((value (if r = ['0'] then [c] else r ++ [c]) / value b : Nat) : Int)
          else quotient) * value b + value r2 := by
      rw [htake, value_snoc, hv, hvq2, hvr2]
      have hdm := Nat.div_add_mod (value (if r = ['0'] then [c] else r ++ [c])) (value b)
      rw [hvr] at hdm ⊢
      generalize (value r * 10 + dig c) / value b = d at hdm ⊢
      generalize (value r * 10 + dig c) % value b = m at hdm ⊢
      nlinarith
    obtain ⟨Q, R, h1, h2, h3, h4, h5⟩ := ih _ r2 (by omega) hr2 hlt2 hq2 hinv
    exact ⟨Q, R, h1, h2, fun _ => h3 (Or.inr hcr2), h4, h5⟩

theorem value_pos_of_ne_zero (b : Str) (hb : canonical b = true) (hb0 : b ≠ ['0']) :
    0 < value b := by
  have := canonical_ge b hb hb0
  have hp : 0 < 10 ^ (b.length - 1) := pow_pos (by norm_num) _
  omega

/-- The behaviour of `divideStrs` on canonical operands with a non-zero divisor:
with fuel at least `10` it returns the canonical quotient and remainder. -/
theorem divideStrs_spec (a b : Str) (ha : canonical a = true) (hb : canonical b = true)
    (hb0 : b ≠ ['0']) (fuel : Nat) (hf : 10 ≤ fuel) :
    ∃ q r : Str, divideStrs fuel a b = some (q, r) ∧ canonical q = true ∧
      canonical r = true ∧ value a = value q * value b + value r ∧ value r < value b ∧
      (value a < value b → q = ['0'] ∧ r = a) := by
  have hvb := value_pos_of_ne_zero b hb hb0
  obtain ⟨hcmp, -, -⟩ := cmpStrs_spec a b ha hb
  unfold divideStrs
  rw [if_neg hb0]
  by_cases hlt : cmpStrs a b < 0
  · rw [if_pos hlt]
    have hv := hcmp.mp hlt
    exact ⟨['0'], a, rfl, rfl, ha, by rw [value_zero_str]; simp, hv, fun _ => ⟨rfl, rfl⟩⟩
  · rw [if_neg hlt]
    have hge : value b ≤ value a := by
      by_contra hc
      exact hlt (hcmp.mpr (by omega))
    have hda := canonical_allDigits a ha
    have ha0 : a ≠ ['0'] := by
      intro h
      rw [h, value_zero_str] at hge
      omega
    have hlen := pow_length_le a b hda hb hb0 hge
    have hlb := canonical_length_pos b hb
    have hn : ((a.length : Int) - ((b.length : Int) - 1)).toNat = a.length - (b.length - 1) := by
      omega
    have hi : ((b.length : Int) - 1) = ((a.length - (a.length - (b.length - 1)) : Nat) : Int) := by
      omega
    have hsl : slice0 a ((b.length : Int) - 1) = a.take (b.length - 1) := by
      unfold slice0
      rw [if_neg (by omega)]
      congr 1
      omega
    rw [hn, hsl, hi]
    have htl : (a.take (b.length - 1)).length = b.length - 1 := by
      rw [List.length_take]; omega
    have hr0 : value (a.take (b.length - 1)) < value b := by
      have h1 := value_lt _ (allDigits_take a hda (b.length - 1))
      rw [htl] at h1
      have h2 := canonical_ge b hb hb0
      omega
    have hinv : value (a.take (a.length - (a.length - (b.length - 1)))) =
        value ([] : Str) * value b + value (a.take (b.length - 1)) := by
      have : a.length - (a.length - (b.length - 1)) = b.length - 1 := by omega
      rw [this]; simp [value]
    obtain ⟨Q, R, h1, h2, h3, h4, h5⟩ :=
      divLoop_spec a b hda hb hvb fuel hf (a.length - (b.length - 1)) []
        (a.take (b.length - 1)) (by omega)
        (Or.inr (noLeadZero_take a (noLeadZero_of_canonical a ha ha0) _)) hr0
        noLeadZero_nil hinv
    have hQ : Q ≠ [] := by
      intro h
      rw [h] at h5
      simp only [value, zero_mul, zero_add] at h5
      omega
    exact ⟨Q, R, h1, (canonical_of_noLeadZero Q h2 hQ).1, h3 (Or.inl (by omega)), h5, h4,
      fun h => by omega⟩

theorem char_eq_of_dig (c d : Char) (hc : c.isDigit = true) (hd : d.isDigit = true)
    (h : dig c = dig d) : c = d := by
  have h1 := toNat_eq_dig c hc
  have h2 := toNat_eq_dig d hd
  have h3 : Char.ofNat c.toNat = Char.ofNat d.toNat := by rw [h1, h2, h]
  rwa [Char.ofNat_toNat, Char.ofNat_toNat] at h3

theorem digits_inj : ∀ (s t : Str), allDigits s = true → allDigits t = true →
    s.length = t.length → value s = value t → s = t := by
  intro s
  induction s with
  | nil =>
    intro t _ _ hl _
    exact (List.length_eq_zero.mp hl.symm).symm
  | cons c s ih =>
    intro t hs ht hl hv
    cases t with
    | nil => simp at hl
    | cons d t =>
      simp only [allDigits, List.all_cons, Bool.and_eq_true] at hs ht
      simp only [List.length_cons, Nat.add_right_cancel_iff] at hl
      simp only [value, hl] at hv
      have h1 := value_lt s hs.2
      have h2 := value_lt t ht.2
      rw [hl] at h1
      have hcd : dig c = dig d := by
        by_contra hne
        rcases Nat.lt_or_gt_of_ne hne with h | h
        · have := lex_lt (dig c) (dig d) (value s) (value t) (10 ^ t.length) h1 h
          omega
        · have := lex_lt (dig d) (dig c) (value t) (value s) (10 ^ t.length) h2 h
          omega
      rw [hcd] at hv
      rw [char_eq_of_dig c d hs.1 ht.1 hcd, ih t hs.2 ht.2 hl (by omega)]

/-- A canonical digit string is determined by the number it denotes. -/
theorem canonical_inj (s t : Str) (hs : canonical s = true) (ht : canonical t = true)
    (hv : value s = value t) : s = t := by
  by_cases hs0 : s = ['0']
  · rw [hs0, value_zero_str] at hv
    rw [hs0, canonical_value_zero t ht hv.symm]
  · by_cases ht0 : t = ['0']
    · rw [ht0, value_zero_str] at hv
      rw [ht0, canonical_value_zero s hs hv]
    · have hds := canonical_allDigits s hs
      have hdt := canonical_allDigits t ht
      have h1 := pow_length_le s t hds ht ht0 (by omega)
      have h2 := pow_length_le t s hdt hs hs0 (by omega)
      exact digits_inj s t hds hdt (by omega) hv

/-! ## gcdStrs -/

theorem gcdLoop_spec (fuel : Nat) (hf : 10 ≤ fuel) :
    ∀ (n : Nat) (a b : Str), canonical a = true → canonical b = true → value b < n →
      ∃ g : Str, gcdLoop fuel n a b = some g ∧ canonical g = true ∧
        value g = Nat.gcd (value a) (value b) := by
  intro n
  induction n with
  | zero => intro a b _ _ h; omega
  | succ n ih =>
    intro a b ha hb hlt
    unfold gcdLoop
    by_cases hb0 : b = ['0']
    · rw [if_neg (by simpa using hb0)]
      exact ⟨a, rfl, ha, by rw [hb0, value_zero_str]; simp⟩
    · rw [if_pos hb0]
      obtain ⟨q, r, hdiv, -, hr, hv, hrlt, -⟩ := divideStrs_spec a b ha hb hb0 fuel hf
      rw [hdiv]
      obtain ⟨g, h1, h2, h3⟩ := ih b r hb hr (by omega)
      refine ⟨g, h1, h2, ?_⟩
      have hmod : value a % value b = value r := by
        rw [hv, Nat.mul_add_mod_of_lt hrlt]
      rw [h3, ← hmod, Nat.gcd_comm (value a) (value b), Nat.gcd_rec (value b) (value a),
        Nat.gcd_comm]

/-! ## Multiset -/

namespace Multiset

variable {α β γ : Type}

theorem canonicalMults_iff (ms : Multiset α) :
    ms.canonicalMults = true ↔ ∀ e ∈ ms.data, canonical e.2 = true := by
  simp [canonicalMults, List.all_eq_true]

theorem orZero_canonical (m : Str) (h : canonical m = true) : orZero (some m) = m := by
  simp only [orZero, if_neg (canonical_ne_nil m h)]

theorem add_data_spec [DecidableEq α] (v : α) (k : Str) (hk : canonical k = true) :
    ∀ d : MapData α, (∀ e ∈ d, canonical e.2 = true) →
      (∀ e ∈ mapSet d v (addStrs (orZero (mapGet d v)) k), canonical e.2 = true) ∧
      ((mapSet d v (addStrs (orZero (mapGet d v)) k)).map (fun e => value e.2)).sum =
        (d.map (fun e => value e.2)).sum + value k := by
  intro d
  induction d with
  | nil =>
    intro _
    obtain ⟨h1, h2⟩ := addStrs_canonical ['0'] k rfl hk
    simp only [mapGet, orZero, mapSet, List.mem_singleton, forall_eq, List.map_cons,
      List.map_nil, List.sum_cons, List.sum_nil, add_zero, zero_add]
    exact ⟨h1, by rw [h2, value_zero_str]; simp⟩
  | cons e t ih =>
    intro hd
    obtain ⟨k0, x⟩ := e
    have hx : canonical x = true := hd (k0, x) (List.mem_cons_self _ _)
    have ht : ∀ e ∈ t, canonical e.2 = true := fun e he => hd e (List.mem_cons_of_mem _ he)
    by_cases h : k0 = v
    · simp only [mapGet, mapSet, if_pos h, orZero_canonical x hx]
      obtain ⟨h1, h2⟩ := addStrs_canonical x k hx hk
      refine ⟨?_, ?_⟩
      · intro e he
        rcases List.mem_cons.mp he with rfl | he
        · exact h1
        · exact ht e he
      · simp only [List.map_cons, List.sum_cons, h2]; ring
    · simp only [mapGet, mapSet, if_neg h]
      obtain ⟨h1, h2⟩ := ih ht
      refine ⟨?_, ?_⟩
      · intro e he
        rcases List.mem_cons.mp he with rfl | he
        · exact hx
        · exact h1 e he
      · simp only [List.map_cons, List.sum_cons, h2]; ring

theorem add_spec [DecidableEq α] (ms : Multiset α) (v : α) (k : Str) (hm : ms.canonicalMults = true)
    (hk : canonical k = true) :
    (ms.add v k).canonicalMults = true ∧ (ms.add v k).total = ms.total + value k := by
  obtain ⟨h1, h2⟩ := add_data_spec v k hk ms.data ((canonicalMults_iff ms).mp hm)
  exact ⟨(canonicalMults_iff _).mpr h1, h2⟩

theorem size_fold_spec : ∀ (d : MapData α) (acc : Str), canonical acc = true →
    (∀ e ∈ d, canonical e.2 = true) →
    canonical (d.foldl (fun size e => addStrs size e.2) acc) = true ∧
      value (d.foldl (fun size e => addStrs size e.2) acc) =
        value acc + (d.map (fun e => value e.2)).sum := by
  intro d
  induction d with
  | nil => intro acc ha _; exact ⟨ha, by simp⟩
  | cons e t ih =>
    intro acc ha hd
    obtain ⟨h1, h2⟩ := addStrs_canonical acc e.2 ha (hd e (List.mem_cons_self _ _))
    obtain ⟨h3, h4⟩ := ih (addStrs acc e.2) h1 (fun x hx => hd x (List.mem_cons_of_mem _ hx))
    refine ⟨h3, ?_⟩
    simp only [List.foldl_cons, List.map_cons, List.sum_cons] at h4 ⊢
    rw [h4, h2]; ring

theorem size_spec (ms : Multiset α) (hm : ms.canonicalMults = true) :
    canonical ms.size = true ∧ value ms.size = ms.total := by
  obtain ⟨h1, h2⟩ := size_fold_spec ms.data ['0'] rfl ((canonicalMults_iff ms).mp hm)
  exact ⟨h1, by rw [size, h2, value_zero_str, total]; simp⟩

theorem permute_inner_spec [DecidableEq γ] (callbackFn : α → β → γ) (v1 : α) (m1 : Str)
    (hm1 : canonical m1 = true) :
    ∀ (d2 : MapData β) (acc : Multiset γ), acc.canonicalMults = true →
      (∀ e ∈ d2, canonical e.2 = true) →
      (d2.foldl (fun permutation e2 =>
        permutation.add (callbackFn v1 e2.1) (multiplyStrs m1 e2.2)) acc).canonicalMults = true ∧
      (d2.foldl (fun permutation e2 =>
        permutation.add (callbackFn v1 e2.1) (multiplyStrs m1 e2.2)) acc).total =
        acc.total + value m1 * (d2.map (fun e => value e.2)).sum := by
  intro d2
  induction d2 with
  | nil => intro acc ha _; exact ⟨ha, by simp⟩
  | cons e t ih =>
    intro acc ha hd
    obtain ⟨hc, hv⟩ := multiplyStrs_spec m1 e.2 hm1 (hd e (List.mem_cons_self _ _))
    obtain ⟨h1, h2⟩ := add_spec acc (callbackFn v1 e.1) _ ha hc
    obtain ⟨h3, h4⟩ := ih _ h1 (fun x hx => hd x (List.mem_cons_of_mem _ hx))
    refine ⟨h3, ?_⟩
    simp only [List.foldl_cons, List.map_cons, List.sum_cons] at h4 ⊢
    rw [h4, h2, hv]; ring

theorem permute_outer_spec [DecidableEq γ] (callbackFn : α → β → γ) (other : Multiset β)
    (ho : other.canonicalMults = true) :
    ∀ (d1 : MapData α) (acc : Multiset γ), acc.canonicalMults = true →
      (∀ e ∈ d1, canonical e.2 = true) →
      (d1.foldl (fun permutation e1 =>
        other.data.foldl (fun permutation e2 =>
          permutation.add (callbackFn e1.1 e2.1) (multiplyStrs e1.2 e2.2)) permutation)
        acc).canonicalMults = true ∧
      (d1.foldl (fun permutation e1 =>
        other.data.foldl (fun permutation e2 =>
          permutation.add (callbackFn e1.1 e2.1) (multiplyStrs e1.2 e2.2)) permutation)
        acc).total = acc.total + (d1.map (fun e => value e.2)).sum * other.total := by
  intro d1
  induction d1 with
  | nil => intro acc ha _; exact ⟨ha, by simp⟩
  | cons e t ih =>
    intro acc ha hd
    obtain ⟨h1, h2⟩ := permute_inner_spec callbackFn e.1 e.2 (hd e (List.mem_cons_self _ _))
      other.data acc ha ((canonicalMults_iff other).mp ho)
    obtain ⟨h3, h4⟩ := ih _ h1 (fun x hx => hd x (List.mem_cons_of_mem _ hx))
    refine ⟨h3, ?_⟩
    simp only [List.foldl_cons, List.map_cons, List.sum_cons] at h4 ⊢
    rw [h4, h2]; simp only [total]; ring

theorem permute_spec [DecidableEq γ] (ms : Multiset α) (other : Multiset β) (callbackFn : α → β → γ)
    (hm : ms.canonicalMults = true) (ho : other.canonicalMults = true) :
    (ms.permute other callbackFn).canonicalMults = true ∧
      (ms.permute other callbackFn).total = ms.total * other.total := by
  obtain ⟨h1, h2⟩ := permute_outer_spec callbackFn other ho ms.data empty rfl
    ((canonicalMults_iff ms).mp hm)
  refine ⟨h1, ?_⟩
  rw [permute, h2]
  simp [total, empty]

theorem union_fold_spec [DecidableEq α] : ∀ (d : MapData α) (acc : Multiset α), acc.canonicalMults = true →
    (∀ e ∈ d, canonical e.2 = true) →
    (d.foldl (fun union e => union.add e.1 e.2) acc).canonicalMults = true ∧
      (d.foldl (fun union e => union.add e.1 e.2) acc).total =
        acc.total + (d.map (fun e => value e.2)).sum := by
  intro d
  induction d with
  | nil => intro acc ha _; exact ⟨ha, by simp⟩
  | cons e t ih =>
    intro acc ha hd
    obtain ⟨h1, h2⟩ := add_spec acc e.1 e.2 ha (hd e (List.mem_cons_self _ _))
    obtain ⟨h3, h4⟩ := ih _ h1 (fun x hx => hd x (List.mem_cons_of_mem _ hx))
    refine ⟨h3, ?_⟩
    simp only [List.foldl_cons, List.map_cons, List.sum_cons] at h4 ⊢
    rw [h4, h2]; ring

theorem union_spec [DecidableEq α] (ms other : Multiset α) (hm : ms.canonicalMults = true)
    (ho : other.canonicalMults = true) :
    (ms.union other).canonicalMults = true ∧
      (ms.union other).total = ms.total + other.total := by
  obtain ⟨h1, h2⟩ := union_fold_spec other.data ⟨ms.data⟩ hm ((canonicalMults_iff other).mp ho)
  exact ⟨h1, h2⟩

theorem mapGet_mapSet [DecidableEq α] (v w : α) (m : Str) :
    ∀ d : MapData α, mapGet (mapSet d v m) w = if v = w then some m else mapGet d w := by
  intro d
  induction d with
  | nil => simp [mapSet, mapGet]
  | cons e t ih =>
    obtain ⟨k, x⟩ := e
    by_cases hkv : k = v
    · subst hkv
      by_cases hkw : k = w
      · simp [mapSet, mapGet, hkw]
      · simp [mapSet, mapGet, hkw]
    · by_cases hkw : k = w
      · subst hkw
        simp [mapSet, mapGet, hkv, Ne.symm hkv]
      · simp [mapSet, mapGet, hkv, hkw, ih]

theorem keys_mapSet [DecidableEq α] (v : α) (m : Str) :
    ∀ d : MapData α, (mapSet d v m).map Prod.fst =
      if v ∈ d.map Prod.fst then d.map Prod.fst else d.map Prod.fst ++ [v] := by
  intro d
  induction d with
  | nil => simp [mapSet]
  | cons e t ih =>
    obtain ⟨k, x⟩ := e
    by_cases hkv : k = v
    · subst hkv
      simp [mapSet]
    · have hvk : ¬ v = k := fun h => hkv h.symm
      simp only [mapSet, if_neg hkv, List.map_cons, ih, List.mem_cons, hvk, false_or]
      split_ifs <;> simp

theorem mapGet_none_of_not_mem [DecidableEq α] (w : α) :
    ∀ d : MapData α, w ∉ d.map Prod.fst → mapGet d w = none := by
  intro d
  induction d with
  | nil => intro _; rfl
  | cons e t ih =>
    intro h
    obtain ⟨k, x⟩ := e
    simp only [List.map_cons, List.mem_cons, not_or] at h
    have hkw : ¬ k = w := fun hk => h.1 hk.symm
    simp only [mapGet, if_neg hkw]
    exact ih h.2

theorem mem_iff_mapGet [DecidableEq α] (w : α) (m : Str) :
    ∀ d : MapData α, (d.map Prod.fst).Nodup → ((w, m) ∈ d ↔ mapGet d w = some m) := by
  intro d
  induction d with
  | nil => intro _; simp [mapGet]
  | cons e t ih =>
    intro hn
    obtain ⟨k, x⟩ := e
    simp only [List.map_cons, List.nodup_cons] at hn
    by_cases hkw : k = w
    · subst hkw
      simp only [mapGet, if_true, List.mem_cons, Prod.mk.injEq, true_and, Option.some.injEq]
      constructor
      · rintro (h | h)
        · exact h.symm
        · exact absurd (List.mem_map_of_mem Prod.fst h) hn.1
      · intro h; exact Or.inl h.symm
    · simp only [mapGet, if_neg hkw, List.mem_cons, Prod.mk.injEq, ← ih hn.2]
      constructor
      · rintro (h | h)
        · exact absurd h.1.symm hkw
        · exact h
      · intro h; exact Or.inr h

theorem get_add [DecidableEq α] (ms : Multiset α) (v w : α) (k : Str) :
    (ms.add v k).get w =
      if v = w then some (addStrs (orZero (ms.get v)) k) else ms.get w :=
  mapGet_mapSet v w _ ms.data

theorem add_distinctKeys [DecidableEq α] (ms : Multiset α) (v : α) (k : Str)
    (h : ms.distinctKeys) : (ms.add v k).distinctKeys := by
  unfold distinctKeys add at *
  rw [keys_mapSet]
  split_ifs with hv
  · exact h
  · exact List.Nodup.append h (List.nodup_singleton v) (by simpa using hv)

theorem addStrs_zero_left (k : Str) (hk : canonical k = true) : addStrs ['0'] k = k := by
  obtain ⟨h1, h2⟩ := addStrs_canonical ['0'] k rfl hk
  exact canonical_inj _ _ h1 hk (by rw [h2, value_zero_str]; simp)

theorem cmpStrs_le_iff (a b : Str) (ha : canonical a = true) (hb : canonical b = true) :
    cmpStrs a b ≤ 0 ↔ value a ≤ value b := by
  obtain ⟨-, -, h3⟩ := cmpStrs_spec a b ha hb
  constructor
  · intro h
    by_contra hc
    have := h3.mpr (by omega)
    omega
  · intro h
    by_contra hc
    have := h3.mp (by omega)
    omega

theorem canonical_of_mapGet [DecidableEq α] (w : α) (m : Str) :
    ∀ d : MapData α, (∀ e ∈ d, canonical e.2 = true) → mapGet d w = some m →
      canonical m = true := by
  intro d
  induction d with
  | nil => intro _ h; simp [mapGet] at h
  | cons e t ih =>
    intro hd h
    obtain ⟨k, x⟩ := e
    by_cases hkw : k = w
    · simp only [mapGet, if_pos hkw, Option.some.injEq] at h
      rw [← h]
      exact hd (k, x) (List.mem_cons_self _ _)
    · simp only [mapGet, if_neg hkw] at h
      exact ih (fun e he => hd e (List.mem_cons_of_mem _ he)) h

/-- One iteration of the loop of `intersect`, on a value absent so far. -/
theorem intersect_step [DecidableEq α] (other acc : Multiset α)
    (ho : other.canonicalMults = true) (k : α) (m : Str) (hm : canonical m = true)
    (hk : acc.get k = none) (w : α) :
    (match other.get k with
      | some m2 => if cmpStrs m m2 ≤ 0 then acc.add k m else acc.add k m2
      | none => acc).get w =
      if k = w then smaller (some m) (other.get k) else acc.get w := by
  cases hg : other.get k with
  | none =>
    simp only [smaller]
    split_ifs with h
    · rw [← h, hk]
    · rfl
  | some m2 =>
    have hm2 := canonical_of_mapGet k m2 other.data ((canonicalMults_iff other).mp ho) hg
    simp only [smaller]
    by_cases hle : cmpStrs m m2 ≤ 0
    · rw [if_pos hle, if_pos ((cmpStrs_le_iff m m2 hm hm2).mp hle), get_add, hk]
      simp only [orZero, addStrs_zero_left m hm]
    · rw [if_neg hle, if_neg (fun h => hle ((cmpStrs_le_iff m m2 hm hm2).mpr h)), get_add, hk]
      simp only [orZero, addStrs_zero_left m2 hm2]

theorem intersect_fold_get [DecidableEq α] (other : Multiset α)
    (ho : other.canonicalMults = true) :
    ∀ (d : MapData α) (acc : Multiset α), (d.map Prod.fst).Nodup →
      (∀ e ∈ d, acc.get e.1 = none) → (∀ e ∈ d, canonical e.2 = true) →
      ∀ w, (d.foldl (fun intersection e =>
          match other.get e.1 with
          | some m2 =>
            if cmpStrs e.2 m2 ≤ 0 then intersection.add e.1 e.2
            else intersection.add e.1 m2
          | none => intersection) acc).get w =
        if (mapGet d w).isSome then smaller (mapGet d w) (other.get w) else acc.get w := by
  intro d
  induction d with
  | nil => intro acc _ _ _ w; simp [mapGet]
  | cons e t ih =>
    intro acc hn hacc hd w
    obtain ⟨k, m⟩ := e
    simp only [List.map_cons, List.nodup_cons] at hn
    have hm : canonical m = true := hd (k, m) (List.mem_cons_self _ _)
    have hk : acc.get k = none := hacc (k, m) (List.mem_cons_self _ _)
    have hstep := intersect_step other acc ho k m hm hk
    rw [List.foldl_cons, ih _ hn.2 ?_ (fun e he => hd e (List.mem_cons_of_mem _ he)) w]
    · rw [hstep w]
      by_cases hkw : k = w
      · subst hkw
        simp [mapGet, mapGet_none_of_not_mem k t hn.1]
      · simp [mapGet, hkw]
    · intro e he
      rw [hstep e.1]
      have hne : k ≠ e.1 := fun h => hn.1 (h ▸ List.mem_map_of_mem Prod.fst he)
      rw [if_neg hne]
      exact hacc e (List.mem_cons_of_mem _ he)

theorem intersect_get [DecidableEq α] (ms other : Multiset α)
    (hm : ms.canonicalMults = true) (ho : other.canonicalMults = true)
    (hk : ms.distinctKeys) (w : α) :
    (ms.intersect other).get w = smaller (ms.get w) (other.get w) := by
  have h := intersect_fold_get other ho ms.data empty hk (fun _ _ => rfl)
    ((canonicalMults_iff ms).mp hm) w
  rw [intersect, h]
  cases hg : mapGet ms.data w with
  | none => simp [get, hg, smaller, empty, mapGet]
  | some m => simp [get, hg]

theorem intersect_fold_distinct [DecidableEq α] (other : Multiset α) :
    ∀ (d : MapData α) (acc : Multiset α), acc.distinctKeys →
      (d.foldl (fun intersection e =>
          match other.get e.1 with
          | some m2 =>
            if cmpStrs e.2 m2 ≤ 0 then intersection.add e.1 e.2
            else intersection.add e.1 m2
          | none => intersection) acc).distinctKeys := by
  intro d
  induction d with
  | nil => intro acc h; exact h
  | cons e t ih =>
    intro acc h
    rw [List.foldl_cons]
    apply ih
    cases other.get e.1 with
    | none => exact h
    | some m2 =>
      simp only
      split_ifs
      · exact add_distinctKeys _ _ _ h
      · exact add_distinctKeys _ _ _ h

theorem smaller_comm (x y : Option Str) (hx : ∀ m, x = some m → canonical m = true)
    (hy : ∀ m, y = some m → canonical m = true) : smaller x y = smaller y x := by
  cases x with
  | none => cases y <;> rfl
  | some m1 =>
    cases y with
    | none => rfl
    | some m2 =>
      simp only [smaller, Option.some.injEq]
      have h1 := hx m1 rfl
      have h2 := hy m2 rfl
      by_cases h12 : value m1 ≤ value m2
      · by_cases h21 : value m2 ≤ value m1
        · rw [if_pos h12, if_pos h21]
          exact canonical_inj m1 m2 h1 h2 (by omega)
        · rw [if_pos h12, if_neg h21]
      · rw [if_neg h12, if_pos (by omega)]

theorem addStrs_zero_right (k : Str) (hk : canonical k = true) : addStrs k ['0'] = k := by
  obtain ⟨h1, h2⟩ := addStrs_canonical k ['0'] hk rfl
  exact canonical_inj _ _ h1 hk (by rw [h2, value_zero_str]; simp)

theorem orZero_get_canonical [DecidableEq α] (ms : Multiset α)
    (hm : ms.canonicalMults = true) (w : α) : canonical (orZero (ms.get w)) = true := by
  cases hg : ms.get w with
  | none => rfl
  | some m =>
    have := canonical_of_mapGet w m ms.data ((canonicalMults_iff ms).mp hm) hg
    rw [orZero_canonical m this]; exact this

theorem union_fold_get [DecidableEq α] :
    ∀ (d : MapData α) (acc : Multiset α), (d.map Prod.fst).Nodup →
      acc.canonicalMults = true → (∀ e ∈ d, canonical e.2 = true) →
      ∀ w, orZero ((d.foldl (fun union e => union.add e.1 e.2) acc).get w) =
        addStrs (orZero (acc.get w)) (orZero (mapGet d w)) := by
  intro d
  induction d with
  | nil =>
    intro acc _ ha _ w
    simp only [List.foldl_nil, mapGet, orZero]
    exact (addStrs_zero_right _ (orZero_get_canonical acc ha w)).symm
  | cons e t ih =>
    intro acc hn ha hd w
    obtain ⟨k, m⟩ := e
    simp only [List.map_cons, List.nodup_cons] at hn
    have hm : canonical m = true := hd (k, m) (List.mem_cons_self _ _)
    obtain ⟨ha2, -⟩ := add_spec acc k m ha hm
    rw [List.foldl_cons, ih _ hn.2 ha2 (fun e he => hd e (List.mem_cons_of_mem _ he)) w,
      get_add]
    by_cases hkw : k = w
    · subst hkw
      have hX := (addStrs_canonical _ m (orZero_get_canonical acc ha k) hm).1
      simp only [if_true, mapGet, mapGet_none_of_not_mem k t hn.1, orZero_canonical _ hX,
        orZero_canonical m hm]
      exact addStrs_zero_right _ hX
    · simp only [if_neg hkw, mapGet]

theorem perm_of_get_eq [DecidableEq α] (a b : Multiset α) (ha : a.distinctKeys)
    (hb : b.distinctKeys) (h : ∀ w, a.get w = b.get w) : a.data.Perm b.data := by
  rw [List.perm_ext_iff_of_nodup (List.Nodup.of_map _ ha) (List.Nodup.of_map _ hb)]
  rintro ⟨w, m⟩
  rw [mem_iff_mapGet w m a.data ha, mem_iff_mapGet w m b.data hb]
  have := h w
  unfold get at this
  rw [this]

end Multiset

/-! ## The claims -/

/-- C1: for canonical digit strings `a` and `b` with `b ≠ "0"`,
`divideStrs(multiplyStrs(a, b), b)` returns exactly `[a, "0"]`; every fuel of
at least `10` per inner loop suffices. -/
theorem divideStrs_multiplyStrs (a b : Str) (ha : canonical a = true)
    (hb : canonical b = true) (hb0 : b ≠ ['0']) (fuel : Nat) (hf : 10 ≤ fuel) :
    divideStrs fuel (multiplyStrs a b) b = some (a, ['0']) := by
  obtain ⟨hpc, hpv⟩ := multiplyStrs_spec a b ha hb
  obtain ⟨q, r, hdiv, hq, hr, hv, hrlt, -⟩ := divideStrs_spec _ b hpc hb hb0 fuel hf
  have hvb := value_pos_of_ne_zero b hb hb0
  rw [hpv] at hv
  have hr0 : value r = 0 := by
    have h1 : value b ∣ value r := by
      have h2 : value b ∣ value q * value b + value r := by
        rw [← hv]; exact Dvd.intro_left _ rfl
      exact (Nat.dvd_add_right (Dvd.intro_left _ rfl)).mp h2
    exact Nat.eq_zero_of_dvd_of_lt h1 hrlt
  have hqa : value q = value a := by
    rw [hr0, add_zero] at hv
    exact (Nat.eq_of_mul_eq_mul_right hvb hv).symm
  rw [hdiv, canonical_inj q a hq ha hqa, canonical_value_zero r hr hr0]

theorem divideStrs_multiplyStrs_witness :
    canonical "105".toList = true ∧ canonical "27".toList = true ∧ "27".toList ≠ ['0'] ∧
      10 ≤ 10 ∧
      divideStrs 10 (multiplyStrs "105".toList "27".toList) "27".toList =
        some ("105".toList, ['0']) :=
  ⟨by decide, by decide, by decide, by decide,
    divideStrs_multiplyStrs "105".toList "27".toList (by decide) (by decide) (by decide) 10
      (by decide)⟩

/-- C2: for canonical digit strings `a` and `b` with `b ≠ "0"`, `divideStrs(a, b)`
returns a pair `[q, r]` of canonical digit strings with
`value a = value q * value b + value r` and `value r < value b`; when `a < b` the
pair is `["0", a]`.  Every fuel of at least `10` per inner loop suffices. -/
theorem divideStrs_correct (a b : Str) (ha : canonical a = true) (hb : canonical b = true)
    (hb0 : b ≠ ['0']) (fuel : Nat) (hf : 10 ≤ fuel) :
    ∃ q r : Str, divideStrs fuel a b = some (q, r) ∧ canonical q = true ∧
      canonical r = true ∧ value a = value q * value b + value r ∧ value r < value b ∧
      (value a < value b → q = ['0'] ∧ r = a) :=
  divideStrs_spec a b ha hb hb0 fuel hf

theorem divideStrs_correct_witness :
    canonical "1000".toList = true ∧ canonical "7".toList = true ∧ "7".toList ≠ ['0'] ∧
      10 ≤ 12 ∧
      ∃ q r : Str, divideStrs 12 "1000".toList "7".toList = some (q, r) ∧
        canonical q = true ∧ canonical r = true ∧
        value "1000".toList = value q * value "7".toList + value r ∧
        value r < value "7".toList ∧
        (value "1000".toList < value "7".toList → q = ['0'] ∧ r = "1000".toList) :=
  ⟨by decide, by decide, by decide, by decide,
    divideStrs_correct "1000".toList "7".toList (by decide) (by decide) (by decide) 12
      (by decide)⟩

/-- C3: for canonical digit strings `a` and `b`, `addStrs(a, b)` is the canonical
digit string of `value a + value b`. -/
theorem addStrs_correct (a b : Str) (ha : canonical a = true) (hb : canonical b = true) :
    canonical (addStrs a b) = true ∧ value (addStrs a b) = value a + value b :=
  addStrs_canonical a b ha hb

theorem addStrs_correct_witness :
    canonical "999".toList = true ∧ canonical "1".toList = true ∧
      canonical (addStrs "999".toList "1".toList) = true ∧
      value (addStrs "999".toList "1".toList) = value "999".toList + value "1".toList :=
  ⟨by decide, by decide, addStrs_correct "999".toList "1".toList (by decide) (by decide)⟩

/-- C4: for canonical digit strings `a` and `b`, `multiplyStrs(a, b)` is the
canonical digit string of `value a * value b`, and it is `"0"` whenever either
operand is `"0"`. -/
theorem multiplyStrs_correct (a b : Str) (ha : canonical a = true) (hb : canonical b = true) :
    canonical (multiplyStrs a b) = true ∧ value (multiplyStrs a b) = value a * value b ∧
      (a = ['0'] ∨ b = ['0'] → multiplyStrs a b = ['0']) := by
  obtain ⟨h1, h2⟩ := multiplyStrs_spec a b ha hb
  refine ⟨h1, h2, fun h => ?_⟩
  unfold multiplyStrs
  rw [if_pos h]

theorem multiplyStrs_correct_witness :
    canonical "105".toList = true ∧ canonical "27".toList = true ∧
      canonical (multiplyStrs "105".toList "27".toList) = true ∧
      value (multiplyStrs "105".toList "27".toList) =
        value "105".toList * value "27".toList ∧
      ("105".toList = ['0'] ∨ "27".toList = ['0'] →
        multiplyStrs "105".toList "27".toList = ['0']) :=
  ⟨by decide, by decide, multiplyStrs_correct "105".toList "27".toList (by decide) (by decide)⟩

/-- C5: for canonical digit strings `a` and `b` with `value a ≥ value b`,
`subtractStrs(a, b)` is the canonical digit string of `value a - value b`; in
particular equal operands give `"0"`. -/
theorem subtractStrs_correct (a b : Str) (ha : canonical a = true) (hb : canonical b = true)
    (hv : value b ≤ value a) :
    canonical (subtractStrs a b) = true ∧ value (subtractStrs a b) = value a - value b ∧
      (value a = value b → subtractStrs a b = ['0']) := by
  obtain ⟨h1, h2⟩ := subtractStrs_canonical a b ha hb hv
  refine ⟨h1, by omega, fun h => ?_⟩
  exact canonical_value_zero _ h1 (by omega)

theorem subtractStrs_correct_witness :
    canonical "1000".toList = true ∧ canonical "1".toList = true ∧
      value "1".toList ≤ value "1000".toList ∧
      canonical (subtractStrs "1000".toList "1".toList) = true ∧
      value (subtractStrs "1000".toList "1".toList) =
        value "1000".toList - value "1".toList ∧
      (value "1000".toList = value "1".toList →
        subtractStrs "1000".toList "1".toList = ['0']) :=
  ⟨by decide, by decide, by decide,
    subtractStrs_correct "1000".toList "1".toList (by decide) (by decide) (by decide)⟩

/-- C6: for canonical digit strings `a` and `b`, `cmpStrs(a, b)` is negative, zero
or positive exactly when `value a` is less than, equal to or greater than
`value b`. -/
theorem cmpStrs_correct (a b : Str) (ha : canonical a = true) (hb : canonical b = true) :
    (cmpStrs a b < 0 ↔ value a < value b) ∧ (cmpStrs a b = 0 ↔ value a = value b) ∧
      (0 < cmpStrs a b ↔ value b < value a) :=
  cmpStrs_spec a b ha hb

theorem cmpStrs_correct_witness :
    canonical "123".toList = true ∧ canonical "145".toList = true ∧
      (cmpStrs "123".toList "145".toList < 0 ↔ value "123".toList < value "145".toList) ∧
      (cmpStrs "123".toList "145".toList = 0 ↔ value "123".toList = value "145".toList) ∧
      (0 < cmpStrs "123".toList "145".toList ↔ value "145".toList < value "123".toList) :=
  ⟨by decide, by decide, cmpStrs_correct "123".toList "145".toList (by decide) (by decide)⟩

/-- C7: for canonical non-zero digit strings `a` and `b`, `gcdStrs(a, b)` returns a
canonical digit string `g` that divides both exactly (`divideStrs(a, g)` and
`divideStrs(b, g)` have remainder `"0"`) and every natural number dividing both
`value a` and `value b` is at most `value g`.  Fuel of at least `10` and above
`value b` suffices. -/
theorem gcdStrs_correct (a b : Str) (ha : canonical a = true) (hb : canonical b = true)
    (ha0 : a ≠ ['0']) (_hb0 : b ≠ ['0']) (fuel : Nat) (hf : 10 ≤ fuel)
    (hfb : value b < fuel) :
    ∃ g : Str, gcdStrs fuel a b = some g ∧ canonical g = true ∧
      (∃ q, divideStrs fuel a g = some (q, ['0'])) ∧
      (∃ q, divideStrs fuel b g = some (q, ['0'])) ∧
      ∀ d : Nat, d ∣ value a → d ∣ value b → d ≤ value g := by
  obtain ⟨g, hg, hgc, hgv⟩ := gcdLoop_spec fuel hf fuel a b ha hb hfb
  have hva := value_pos_of_ne_zero a ha ha0
  have hgpos : 0 < value g := by rw [hgv]; exact Nat.gcd_pos_of_pos_left _ hva
  have hg0 : g ≠ ['0'] := by
    intro h
    rw [h, value_zero_str] at hgpos
    omega
  have hrem : ∀ x : Str, canonical x = true → value g ∣ value x →
      ∃ q, divideStrs fuel x g = some (q, ['0']) := by
    intro x hx hdvd
    obtain ⟨q, r, hdiv, -, hr, hv, hrlt, -⟩ := divideStrs_spec x g hx hgc hg0 fuel hf
    have h1 : value g ∣ value r := by
      rw [hv] at hdvd
      exact (Nat.dvd_add_right (Dvd.intro_left _ rfl)).mp hdvd
    have hr0 : value r = 0 := Nat.eq_zero_of_dvd_of_lt h1 hrlt
    exact ⟨q, by rw [hdiv, canonical_value_zero r hr hr0]⟩
  refine ⟨g, hg, hgc, hrem a ha ?_, hrem b hb ?_, ?_⟩
  · rw [hgv]; exact Nat.gcd_dvd_left _ _
  · rw [hgv]; exact Nat.gcd_dvd_right _ _
  · intro d hda hdb
    rw [hgv]
    exact Nat.le_of_dvd (by rw [← hgv]; exact hgpos) (Nat.dvd_gcd hda hdb)

theorem gcdStrs_correct_witness :
    canonical "84".toList = true ∧ canonical "36".toList = true ∧ "84".toList ≠ ['0'] ∧
      "36".toList ≠ ['0'] ∧ 10 ≤ 40 ∧ value "36".toList < 40 ∧
      ∃ g : Str, gcdStrs 40 "84".toList "36".toList = some g ∧ canonical g = true ∧
        (∃ q, divideStrs 40 "84".toList g = some (q, ['0'])) ∧
        (∃ q, divideStrs 40 "36".toList g = some (q, ['0'])) ∧
        ∀ d : Nat, d ∣ value "84".toList → d ∣ value "36".toList → d ≤ value g :=
  ⟨by decide, by decide, by decide, by decide, by decide, by decide,
    gcdStrs_correct "84".toList "36".toList (by decide) (by decide) (by decide) (by decide) 40
      (by decide) (by decide)⟩

/-- C8: for multisets `a` and `b` with canonical multiplicities and every combine
function, also one that maps distinct pairs to the same value,
`a.permute(b, combine).size` equals `multiplyStrs(a.size, b.size)`. -/
theorem permute_size {α β γ : Type} [DecidableEq γ] (a : Multiset α) (b : Multiset β)
    (combine : α → β → γ) (ha : a.canonicalMults = true) (hb : b.canonicalMults = true) :
    (a.permute b combine).size = multiplyStrs a.size b.size := by
  obtain ⟨hpc, hpt⟩ := Multiset.permute_spec a b combine ha hb
  obtain ⟨h1, h2⟩ := Multiset.size_spec _ hpc
  obtain ⟨ha1, ha2⟩ := Multiset.size_spec a ha
  obtain ⟨hb1, hb2⟩ := Multiset.size_spec b hb
  obtain ⟨hm1, hm2⟩ := multiplyStrs_spec a.size b.size ha1 hb1
  exact canonical_inj _ _ h1 hm1 (by rw [h2, hpt, hm2, ha2, hb2])

theorem permute_size_witness :
    (Multiset.mk [(1, "2".toList), (2, "13".toList)] : Multiset Nat).canonicalMults = true ∧
      (Multiset.mk [(10, "4".toList), (20, "5".toList)] : Multiset Nat).canonicalMults = true ∧
      ((Multiset.mk [(1, "2".toList), (2, "13".toList)] : Multiset Nat).permute
          (Multiset.mk [(10, "4".toList), (20, "5".toList)] : Multiset Nat)
          (fun _ _ => (0 : Nat))).size =
        multiplyStrs (Multiset.mk [(1, "2".toList), (2, "13".toList)] : Multiset Nat).size
          (Multiset.mk [(10, "4".toList), (20, "5".toList)] : Multiset Nat).size :=
  ⟨by decide, by decide,
    permute_size (Multiset.mk [(1, "2".toList), (2, "13".toList)] : Multiset Nat)
      (Multiset.mk [(10, "4".toList), (20, "5".toList)] : Multiset Nat)
      (fun _ _ => (0 : Nat)) (by decide) (by decide)⟩

/-- C9: for multisets `a` and `b` with canonical multiplicities, `a.union(b).size`
equals `addStrs(a.size, b.size)`, and the multiplicity of every value in the
union is the sum of its multiplicities in `a` and in `b`, an absent value
counting as `"0"`. -/
theorem union_size {α : Type} [DecidableEq α] (a b : Multiset α)
    (ha : a.canonicalMults = true) (hb : b.canonicalMults = true) (hkb : b.distinctKeys) :
    (a.union b).size = addStrs a.size b.size ∧
      ∀ v, Multiset.orZero ((a.union b).get v) =
        addStrs (Multiset.orZero (a.get v)) (Multiset.orZero (b.get v)) := by
  obtain ⟨huc, hut⟩ := Multiset.union_spec a b ha hb
  obtain ⟨h1, h2⟩ := Multiset.size_spec _ huc
  obtain ⟨ha1, ha2⟩ := Multiset.size_spec a ha
  obtain ⟨hb1, hb2⟩ := Multiset.size_spec b hb
  obtain ⟨hm1, hm2⟩ := addStrs_canonical a.size b.size ha1 hb1
  refine ⟨canonical_inj _ _ h1 hm1 (by rw [h2, hut, hm2, ha2, hb2]), ?_⟩
  intro v
  exact Multiset.union_fold_get b.data ⟨a.data⟩ hkb ha
    ((Multiset.canonicalMults_iff b).mp hb) v

theorem union_size_witness :
    (Multiset.mk [(1, "2".toList), (2, "13".toList)] : Multiset Nat).canonicalMults = true ∧
      (Multiset.mk [(2, "9".toList), (3, "5".toList)] : Multiset Nat).canonicalMults = true ∧
      (Multiset.mk [(2, "9".toList), (3, "5".toList)] : Multiset Nat).distinctKeys ∧
      (((Multiset.mk [(1, "2".toList), (2, "13".toList)] : Multiset Nat).union
          (Multiset.mk [(2, "9".toList), (3, "5".toList)] : Multiset Nat)).size =
        addStrs (Multiset.mk [(1, "2".toList), (2, "13".toList)] : Multiset Nat).size
          (Multiset.mk [(2, "9".toList), (3, "5".toList)] : Multiset Nat).size ∧
      ∀ v, Multiset.orZero
          (((Multiset.mk [(1, "2".toList), (2, "13".toList)] : Multiset Nat).union
            (Multiset.mk [(2, "9".toList), (3, "5".toList)] : Multiset Nat)).get v) =
        addStrs
          (Multiset.orZero
            ((Multiset.mk [(1, "2".toList), (2, "13".toList)] : Multiset Nat).get v))
          (Multiset.orZero
            ((Multiset.mk [(2, "9".toList), (3, "5".toList)] : Multiset Nat).get v))) :=
  ⟨by decide, by decide, by decide,
    union_size (Multiset.mk [(1, "2".toList), (2, "13".toList)] : Multiset Nat)
      (Multiset.mk [(2, "9".toList), (3, "5".toList)] : Multiset Nat)
      (by decide) (by decide) (by decide)⟩

/-- C10: `intersect` is commutative: for multisets `a` and `b` with canonical
multiplicities, `a.intersect(b)` and `b.intersect(a)` hold the same entries up to
insertion order, namely each value present in both with the numerically smaller
of its two multiplicities. -/
theorem intersect_comm {α : Type} [DecidableEq α] (a b : Multiset α)
    (ha : a.canonicalMults = true) (hb : b.canonicalMults = true)
    (hka : a.distinctKeys) (hkb : b.distinctKeys) :
    (a.intersect b).data.Perm (b.intersect a).data ∧
      ∀ v, (a.intersect b).get v = Multiset.smaller (a.get v) (b.get v) ∧
        (b.intersect a).get v = Multiset.smaller (a.get v) (b.get v) := by
  have hcomm : ∀ v, Multiset.smaller (b.get v) (a.get v) =
      Multiset.smaller (a.get v) (b.get v) := fun v =>
    Multiset.smaller_comm _ _
      (fun m h => Multiset.canonical_of_mapGet v m b.data
        ((Multiset.canonicalMults_iff b).mp hb) h)
      (fun m h => Multiset.canonical_of_mapGet v m a.data
        ((Multiset.canonicalMults_iff a).mp ha) h)
  have h1 : ∀ v, (a.intersect b).get v = Multiset.smaller (a.get v) (b.get v) :=
    fun v => Multiset.intersect_get a b ha hb hka v
  have h2 : ∀ v, (b.intersect a).get v = Multiset.smaller (a.get v) (b.get v) :=
    fun v => by rw [Multiset.intersect_get b a hb ha hkb v, hcomm v]
  refine ⟨?_, fun v => ⟨h1 v, h2 v⟩⟩
  apply Multiset.perm_of_get_eq
  · exact Multiset.intersect_fold_distinct b a.data Multiset.empty List.nodup_nil
  · exact Multiset.intersect_fold_distinct a b.data Multiset.empty List.nodup_nil
  · intro w; rw [h1 w, h2 w]

theorem intersect_comm_witness :
    (Multiset.mk [(1, "2".toList), (2, "13".toList), (3, "7".toList)] :
        Multiset Nat).canonicalMults = true ∧
      (Multiset.mk [(3, "10".toList), (2, "9".toList)] : Multiset Nat).canonicalMults = true ∧
      (Multiset.mk [(1, "2".toList), (2, "13".toList), (3, "7".toList)] :
        Multiset Nat).distinctKeys ∧
      (Multiset.mk [(3, "10".toList), (2, "9".toList)] : Multiset Nat).distinctKeys ∧
      (((Multiset.mk [(1, "2".toList), (2, "13".toList), (3, "7".toList)] :
          Multiset Nat).intersect
          (Multiset.mk [(3, "10".toList), (2, "9".toList)] : Multiset Nat)).data.Perm
        ((Multiset.mk [(3, "10".toList), (2, "9".toList)] : Multiset Nat).intersect
          (Multiset.mk [(1, "2".toList), (2, "13".toList), (3, "7".toList)] :
            Multiset Nat)).data ∧
      ∀ v,
        ((Multiset.mk [(1, "2".toList), (2, "13".toList), (3, "7".toList)] :
            Multiset Nat).intersect
          (Multiset.mk [(3, "10".toList), (2, "9".toList)] : Multiset Nat)).get v =
          Multiset.smaller
            ((Multiset.mk [(1, "2".toList), (2, "13".toList), (3, "7".toList)] :
              Multiset Nat).get v)
            ((Multiset.mk [(3, "10".toList), (2, "9".toList)] : Multiset Nat).get v) ∧
        ((Multiset.mk [(3, "10".toList), (2, "9".toList)] : Multiset Nat).intersect
          (Multiset.mk [(1, "2".toList), (2, "13".toList), (3, "7".toList)] :
            Multiset Nat)).get v =
          Multiset.smaller
            ((Multiset.mk [(1, "2".toList), (2, "13".toList), (3, "7".toList)] :
              Multiset Nat).get v)
            ((Multiset.mk [(3, "10".toList), (2, "9".toList)] : Multiset Nat).get v)) :=
  ⟨by decide, by decide, by decide, by decide,
    intersect_comm
      (Multiset.mk [(1, "2".toList), (2, "13".toList), (3, "7".toList)] : Multiset Nat)
      (Multiset.mk [(3, "10".toList), (2, "9".toList)] : Multiset Nat)
      (by decide) (by decide) (by decide) (by decide)⟩

theorem addStrs_nil_left (k : Str) (hk : k ≠ []) : addStrs [] k = addStrs ['0'] k := by
  have hl : 0 < k.length := List.length_pos.mpr hk
  have h1 : (if ([] : Str).length < k.length
      then zerosStr (k.length - ([] : Str).length) ++ [] else []) = zerosStr k.length := by
    rw [if_pos (show ([] : Str).length < k.length from hl)]; simp
  have h2 : (if (['0'] : Str).length < k.length
      then zerosStr (k.length - (['0'] : Str).length) ++ ['0'] else ['0']) =
      zerosStr k.length := by
    by_cases h : (['0'] : Str).length < k.length
    · rw [if_pos h, zerosStr_snoc]
      congr 1
      simp only [List.length_singleton] at h ⊢
      omega
    · rw [if_neg h]
      simp only [List.length_singleton] at h
      have : k.length = 1 := by omega
      rw [this]; rfl
  unfold addStrs
  simp only [h1, h2]

/-- C13: for a multiset `m`, a value `v` and a canonical digit string `k`, after
`m.add(v, k)` the multiplicity of `v` is `addStrs(old, k)`, an absent `v`
counting as `"0"`, so that the entry is created; every other value keeps its
multiplicity; and, the multiplicities of `m` being canonical, the size has
grown by exactly `k`. -/
theorem add_frame {α : Type} [DecidableEq α] (m : Multiset α) (v : α) (k : Str)
    (hk : canonical k = true) :
    (∀ old, m.get v = some old → (m.add v k).get v = some (addStrs old k)) ∧
      (m.get v = none → (m.add v k).get v = some (addStrs ['0'] k)) ∧
      (∀ w, w ≠ v → (m.add v k).get w = m.get w) ∧
      (m.canonicalMults = true → (m.add v k).size = addStrs m.size k) := by
  refine ⟨?_, ?_, ?_, ?_⟩
  · intro old hold
    rw [Multiset.get_add, if_pos rfl, hold]
    by_cases ho : old = []
    · rw [ho, addStrs_nil_left k (canonical_ne_nil k hk)]; rfl
    · simp only [Multiset.orZero, if_neg ho]
  · intro hnone
    rw [Multiset.get_add, if_pos rfl, hnone]
    rfl
  · intro w hw
    rw [Multiset.get_add, if_neg (fun h => hw h.symm)]
  · intro hm
    obtain ⟨hac, hat⟩ := Multiset.add_spec m v k hm hk
    obtain ⟨h1, h2⟩ := Multiset.size_spec _ hac
    obtain ⟨h3, h4⟩ := Multiset.size_spec m hm
    obtain ⟨h5, h6⟩ := addStrs_canonical m.size k h3 hk
    exact canonical_inj _ _ h1 h5 (by rw [h2, hat, h6, h4])

theorem add_frame_witness :
    canonical "9".toList = true ∧
      ((∀ old, (Multiset.mk [(1, "2".toList), (2, "13".toList)] : Multiset Nat).get 2 =
            some old →
          ((Multiset.mk [(1, "2".toList), (2, "13".toList)] : Multiset Nat).add 2
            "9".toList).get 2 = some (addStrs old "9".toList)) ∧
        ((Multiset.mk [(1, "2".toList), (2, "13".toList)] : Multiset Nat).get 2 = none →
          ((Multiset.mk [(1, "2".toList), (2, "13".toList)] : Multiset Nat).add 2
            "9".toList).get 2 = some (addStrs ['0'] "9".toList)) ∧
        (∀ w, w ≠ 2 →
          ((Multiset.mk [(1, "2".toList), (2, "13".toList)] : Multiset Nat).add 2
            "9".toList).get w =
          (Multiset.mk [(1, "2".toList), (2, "13".toList)] : Multiset Nat).get w) ∧
        ((Multiset.mk [(1, "2".toList), (2, "13".toList)] : Multiset Nat).canonicalMults =
            true →
          ((Multiset.mk [(1, "2".toList), (2, "13".toList)] : Multiset Nat).add 2
            "9".toList).size =
          addStrs (Multiset.mk [(1, "2".toList), (2, "13".toList)] : Multiset Nat).size
            "9".toList)) :=
  ⟨by decide,
    add_frame (Multiset.mk [(1, "2".toList), (2, "13".toList)] : Multiset Nat) 2 "9".toList
      (by decide)⟩

/-- C18: `divideStrs(a, "0")` returns `["NaN", "NaN"]` when `a` is `"0"` and
`["Infinity", "NaN"]` otherwise, and for canonical operands `divideStrs` returns
a sentinel (`"NaN"` or `"Infinity"`) in a component if and only if the divisor
is `"0"`.  Every fuel of at least `10` per inner loop suffices. -/
theorem divideStrs_sentinel (a b : Str) (ha : canonical a = true) (hb : canonical b = true)
    (fuel : Nat) (hf : 10 ≤ fuel) :
    divideStrs fuel a ['0'] =
        some (if a = ['0'] then "NaN".toList else "Infinity".toList, "NaN".toList) ∧
      ∃ q r : Str, divideStrs fuel a b = some (q, r) ∧
        ((q = "NaN".toList ∨ q = "Infinity".toList ∨ r = "NaN".toList ∨
          r = "Infinity".toList) ↔ b = ['0']) := by
  have h0 : divideStrs fuel a ['0'] =
      some (if a = ['0'] then "NaN".toList else "Infinity".toList, "NaN".toList) := by
    unfold divideStrs
    rw [if_pos rfl]
  refine ⟨h0, ?_⟩
  by_cases hb0 : b = ['0']
  · subst hb0
    exact ⟨_, _, h0, by simp⟩
  · obtain ⟨q, r, hdiv, hq, hr, -, -, -⟩ := divideStrs_spec a b ha hb hb0 fuel hf
    refine ⟨q, r, hdiv, ?_⟩
    have hn : canonical "NaN".toList = false := by decide
    have hi : canonical "Infinity".toList = false := by decide
    constructor
    · rintro (h | h | h | h)
      · rw [h, hn] at hq; exact absurd hq (by decide)
      · rw [h, hi] at hq; exact absurd hq (by decide)
      · rw [h, hn] at hr; exact absurd hr (by decide)
      · rw [h, hi] at hr; exact absurd hr (by decide)
    · intro h; exact absurd h hb0

theorem divideStrs_sentinel_witness :
    canonical "42".toList = true ∧ canonical "5".toList = true ∧ 10 ≤ 10 ∧
      (divideStrs 10 "42".toList ['0'] =
        some (if "42".toList = ['0'] then "NaN".toList else "Infinity".toList,
          "NaN".toList) ∧
      ∃ q r : Str, divideStrs 10 "42".toList "5".toList = some (q, r) ∧
        ((q = "NaN".toList ∨ q = "Infinity".toList ∨ r = "NaN".toList ∨
          r = "Infinity".toList) ↔ "5".toList = ['0'])) :=
  ⟨by decide, by decide, by decide,
    divideStrs_sentinel "42".toList "5".toList (by decide) (by decide) 10 (by decide)⟩

/-- C19, the claim as stated fails: `gcdStrs("7", "0")` returns `"7"`, and with no
amount of fuel does it return `"NaN"` or `"Infinity"`. -/
theorem gcdStrs_by_zero_counterexample :
    canonical "7".toList = true ∧ gcdStrs 1 "7".toList ['0'] = some "7".toList ∧
      ¬ ∃ fuel : Nat, gcdStrs fuel "7".toList ['0'] = some "NaN".toList ∨
        gcdStrs fuel "7".toList ['0'] = some "Infinity".toList := by
  refine ⟨by decide, by decide, ?_⟩
  rintro ⟨fuel, h⟩
  cases fuel with
  | zero => simp [gcdStrs, gcdLoop] at h
  | succ n =>
    have h7 : gcdStrs (n + 1) "7".toList ['0'] = some "7".toList := by
      simp [gcdStrs, gcdLoop]
    rw [h7] at h
    revert h
    decide

/-- C19, amended: for every canonical digit string `a`, `gcdStrs(a, "0")` returns
`a` itself, an ordinary digit string and no sentinel: the guard `b !== "0"` ends
the loop before any division is made. -/
theorem gcdStrs_by_zero (a : Str) (ha : canonical a = true) (fuel : Nat) (hf : 0 < fuel) :
    gcdStrs fuel a ['0'] = some a ∧ a ≠ "NaN".toList ∧ a ≠ "Infinity".toList := by
  refine ⟨?_, ?_, ?_⟩
  · obtain ⟨n, rfl⟩ : ∃ n, fuel = n + 1 := ⟨fuel - 1, by omega⟩
    simp [gcdStrs, gcdLoop]
  · intro h; rw [h] at ha; revert ha; decide
  · intro h; rw [h] at ha; revert ha; decide

theorem gcdStrs_by_zero_witness :
    canonical "84".toList = true ∧ 0 < 3 ∧
      (gcdStrs 3 "84".toList ['0'] = some "84".toList ∧ "84".toList ≠ "NaN".toList ∧
        "84".toList ≠ "Infinity".toList) :=
  ⟨by decide, by decide, gcdStrs_by_zero "84".toList (by decide) 3 (by decide)⟩

/-- C16: for non-negative integers `m1` and `m2` with `m1 * m2 + 2048 < 2^31`,
`chainMod(m1, m2)` is `floor((m1 * m2 + 2048) / 4096)`, the nearest integer to
`m1 * m2 / 4096` with halves rounded up; hence `4096` is an identity on either
side, and `chainMod(4096, 4096) = 4096`. -/
theorem chainMod_correct (m1 m2 : Int) (h1 : 0 ≤ m1) (h2 : 0 ≤ m2)
    (h : m1 * m2 + 2048 < 2 ^ 31) :
    chainMod m1 m2 = (m1 * m2 + 2048) / 4096 ∧
      (2 * (4096 * chainMod m1 m2 - m1 * m2) ≤ 4096 ∧
        -4096 < 2 * (4096 * chainMod m1 m2 - m1 * m2)) ∧
      (m1 = 4096 → chainMod m1 m2 = m2) ∧ (m2 = 4096 → chainMod m1 m2 = m1) ∧
      chainMod 4096 4096 = 4096 := by
  have hp : 0 ≤ m1 * m2 := mul_nonneg h1 h2
  have hc : chainMod m1 m2 = (m1 * m2 + 2048) / 4096 := by
    unfold chainMod toInt32
    rw [Int.shiftRight_eq_div_pow]
    generalize m1 * m2 = p at hp h
    norm_num at h ⊢
    congr 1
    omega
  refine ⟨hc, ?_, ?_, ?_, by decide⟩
  · rw [hc]
    generalize m1 * m2 = p at hp h
    omega
  · intro h4; rw [hc, h4]; omega
  · intro h4; rw [hc, h4]; omega

theorem chainMod_correct_witness :
    (0 : Int) ≤ 6144 ∧ (0 : Int) ≤ 5325 ∧ (6144 : Int) * 5325 + 2048 < 2 ^ 31 ∧
      (chainMod 6144 5325 = (6144 * 5325 + 2048) / 4096 ∧
      (2 * (4096 * chainMod 6144 5325 - 6144 * 5325) ≤ 4096 ∧
        -4096 < 2 * (4096 * chainMod 6144 5325 - 6144 * 5325)) ∧
      ((6144 : Int) = 4096 → chainMod 6144 5325 = 5325) ∧
      ((5325 : Int) = 4096 → chainMod 6144 5325 = 6144) ∧
      chainMod 4096 4096 = 4096) :=
  ⟨by decide, by decide, by decide,
    chainMod_correct 6144 5325 (by decide) (by decide) (by decide)⟩

/-! ### roundHalfToZero -/

theorem roundHalfToZero_nonneg (n : ℚ) (h0 : 0 ≤ n) :
    roundHalfToZero n = if n - ⌊n⌋ > 1 / 2 then (⌊n⌋ : ℚ) + 1 else ⌊n⌋ := by
  have hf1 := Int.floor_le n
  unfold roundHalfToZero mathTrunc mathSign
  simp only [if_pos h0]
  rw [abs_of_nonneg (by linarith)]
  by_cases hfr : n - ⌊n⌋ > 1 / 2
  · have hfl : (0 : ℚ) ≤ ⌊n⌋ := by exact_mod_cast Int.floor_nonneg.mpr h0
    have hpos : 0 < n := by linarith
    simp only [if_pos hfr, if_pos hpos, mul_one]
  · simp only [if_neg hfr, mul_zero, add_zero]

theorem roundHalfToZero_neg (n : ℚ) (h0 : n < 0) :
    roundHalfToZero n = if ⌈n⌉ - n > 1 / 2 then (⌈n⌉ : ℚ) - 1 else ⌈n⌉ := by
  have hc1 := Int.le_ceil n
  unfold roundHalfToZero mathTrunc mathSign
  simp only [if_neg (not_le.mpr h0), if_neg (not_lt.mpr (le_of_lt h0)), if_pos h0]
  rw [abs_of_nonpos (by linarith), neg_sub]
  by_cases hfr : ⌈n⌉ - n > 1 / 2
  · simp only [if_pos hfr, mul_one]; ring
  · simp only [if_neg hfr, mul_zero, add_zero]

theorem roundHalfToZero_int (z : ℤ) : roundHalfToZero (z : ℚ) = z := by
  rcases le_or_lt 0 (z : ℚ) with h | h
  · rw [roundHalfToZero_nonneg _ h, Int.floor_intCast]
    simp
  · rw [roundHalfToZero_neg _ h, Int.ceil_intCast]
    simp

/-- C15: for every rational `n`, `roundHalfToZero(n)` is an integer within `1/2`
of `n`, and when `n` lies exactly halfway between two integers the result is
the one nearer to zero; so `roundHalfToZero(2.5) = 2` and
`roundHalfToZero(-2.5) = -2`. -/
theorem roundHalfToZero_correct (n : ℚ) :
    (∃ z : ℤ, roundHalfToZero n = z) ∧ |roundHalfToZero n - n| ≤ 1 / 2 ∧
      (∀ k : ℤ, n = k + 1 / 2 →
        roundHalfToZero n = (if 0 ≤ k then (k : ℚ) else k + 1) ∧
          |roundHalfToZero n| < |n|) ∧
      roundHalfToZero (5 / 2) = 2 ∧ roundHalfToZero (-5 / 2) = -2 := by
  have hhalf : ∀ (m : ℚ) (k : ℤ), m = k + 1 / 2 →
      roundHalfToZero m = (if 0 ≤ k then (k : ℚ) else k + 1) ∧
        |roundHalfToZero m| < |m| := by
    intro m k hk
    by_cases hk0 : 0 ≤ k
    · have hkq : (0 : ℚ) ≤ k := by exact_mod_cast hk0
      have hm0 : 0 ≤ m := by linarith
      have hfl : ⌊m⌋ = k := by
        rw [Int.floor_eq_iff]; constructor <;> linarith
      have hr : roundHalfToZero m = k := by
        rw [roundHalfToZero_nonneg m hm0, hfl, if_neg (by linarith)]
      rw [hr, if_pos hk0]
      refine ⟨rfl, ?_⟩
      rw [abs_of_nonneg hkq, abs_of_nonneg hm0]; linarith
    · have hk1 : k + 1 ≤ 0 := by omega
      have hkq : (k : ℚ) + 1 ≤ 0 := by exact_mod_cast hk1
      have hm0 : m < 0 := by linarith
      have hcl : ⌈m⌉ = k + 1 := by
        rw [Int.ceil_eq_iff]; push_cast; constructor <;> linarith
      have hr : roundHalfToZero m = k + 1 := by
        rw [roundHalfToZero_neg m hm0, hcl, if_neg (by push_cast; linarith)]
        push_cast; rfl
      rw [hr, if_neg hk0]
      refine ⟨rfl, ?_⟩
      rw [abs_of_nonpos hkq, abs_of_neg hm0]; linarith
  refine ⟨?_, ?_, hhalf n, ?_, ?_⟩
  · rcases le_or_lt 0 n with h | h
    · rw [roundHalfToZero_nonneg n h]
      split_ifs
      · exact ⟨⌊n⌋ + 1, by push_cast; rfl⟩
      · exact ⟨⌊n⌋, rfl⟩
    · rw [roundHalfToZero_neg n h]
      split_ifs
      · exact ⟨⌈n⌉ - 1, by push_cast; rfl⟩
      · exact ⟨⌈n⌉, rfl⟩
  · rcases le_or_lt 0 n with h | h
    · have hf1 := Int.floor_le n
      have hf2 := Int.lt_floor_add_one n
      rw [roundHalfToZero_nonneg n h, abs_le]
      split_ifs with hfr
      · constructor <;> linarith
      · constructor <;> linarith
    · have hc1 := Int.le_ceil n
      have hc2 := Int.ceil_lt_add_one n
      rw [roundHalfToZero_neg n h, abs_le]
      split_ifs with hfr
      · constructor <;> linarith
      · constructor <;> linarith
  · have := (hhalf (5 / 2) 2 (by norm_num)).1
    simpa using this
  · have := (hhalf (-5 / 2) (-3) (by norm_num)).1
    rw [this]; norm_num

theorem roundHalfToZero_correct_witness :
    roundHalfToZero (7 / 2) = 3 ∧ |roundHalfToZero (7 / 2) - 7 / 2| ≤ 1 / 2 :=
  ⟨by
    have h := ((roundHalfToZero_correct (7 / 2)).2.2.1 3 (by norm_num)).1
    simpa using h,
   (roundHalfToZero_correct (7 / 2)).2.1⟩

/-! ### simplify and scale -/

theorem foldl_gcd_dvd_init : ∀ (l : List Nat) (a : Nat), l.foldl Nat.gcd a ∣ a := by
  intro l
  induction l with
  | nil => intro a; exact dvd_refl a
  | cons x t ih => intro a; exact dvd_trans (ih (Nat.gcd a x)) (Nat.gcd_dvd_left a x)

theorem foldl_gcd_dvd_mem : ∀ (l : List Nat) (a x : Nat), x ∈ l → l.foldl Nat.gcd a ∣ x := by
  intro l
  induction l with
  | nil => intro a x hx; simp at hx
  | cons y t ih =>
    intro a x hx
    rcases List.mem_cons.mp hx with rfl | hx
    · exact dvd_trans (foldl_gcd_dvd_init t (Nat.gcd a x)) (Nat.gcd_dvd_right a x)
    · exact ih (Nat.gcd a y) x hx

theorem foldl_gcd_mul (G : Nat) : ∀ (ql : List Nat) (qa : Nat),
    (ql.map (fun q => q * G)).foldl Nat.gcd (qa * G) = ql.foldl Nat.gcd qa * G := by
  intro ql
  induction ql with
  | nil => intro qa; rfl
  | cons x t ih =>
    intro qa
    simp only [List.map_cons, List.foldl_cons]
    rw [Nat.gcd_mul_right, ih]

namespace Multiset

variable {α : Type}

theorem gcdMults_spec (fuel : Nat) (hf : 10 ≤ fuel) :
    ∀ (l : List Str) (g : Str), canonical g = true →
      (∀ m ∈ l, canonical m = true ∧ value m < fuel) →
      ∃ r : Str, gcdMults fuel g l = some r ∧ canonical r = true ∧
        value r = (l.map value).foldl Nat.gcd (value g) := by
  intro l
  induction l with
  | nil => intro g hg _; exact ⟨g, rfl, hg, rfl⟩
  | cons m t ih =>
    intro g hg hl
    obtain ⟨hm, hmf⟩ := hl m (List.mem_cons_self _ _)
    obtain ⟨r0, h1, h2, h3⟩ := gcdLoop_spec fuel hf fuel g m hg hm hmf
    obtain ⟨r, h4, h5, h6⟩ := ih r0 h2 (fun x hx => hl x (List.mem_cons_of_mem _ hx))
    refine ⟨r, ?_, h5, ?_⟩
    · have h1b : gcdStrs fuel g m = some r0 := h1
      simp only [gcdMults, h1b, h4]
    · rw [h6, h3]; rfl

theorem mapSet_of_not_mem [DecidableEq α] (v : α) (x : Str) :
    ∀ d : MapData α, v ∉ d.map Prod.fst → mapSet d v x = d ++ [(v, x)] := by
  intro d
  induction d with
  | nil => intro _; rfl
  | cons e t ih =>
    intro h
    obtain ⟨k, y⟩ := e
    simp only [List.map_cons, List.mem_cons, not_or] at h
    have hkv : ¬ k = v := fun hk => h.1 hk.symm
    simp only [mapSet, if_neg hkv, ih h.2, List.cons_append]

theorem add_fresh [DecidableEq α] (acc : Multiset α) (v : α) (k : Str)
    (hk : canonical k = true) (hv : v ∉ acc.data.map Prod.fst) :
    acc.add v k = ⟨acc.data ++ [(v, k)]⟩ := by
  unfold add
  rw [mapGet_none_of_not_mem v acc.data hv, mapSet_of_not_mem v _ acc.data hv]
  simp only [orZero, addStrs_zero_left k hk]

theorem nodup_step {β : Type} (l t : List β) (v : β) (h : (l ++ v :: t).Nodup) :
    v ∉ l ∧ ((l ++ [v]) ++ t).Nodup := by
  refine ⟨?_, by simpa using h⟩
  rw [List.nodup_middle, List.nodup_cons] at h
  exact fun hv => h.1 (List.mem_append_left _ hv)

theorem foldl_add_fresh [DecidableEq α] (f : Str → Str) :
    ∀ (d : MapData α) (acc : Multiset α), (∀ e ∈ d, canonical (f e.2) = true) →
      (acc.data.map Prod.fst ++ d.map Prod.fst).Nodup →
      d.foldl (fun a e => a.add e.1 (f e.2)) acc =
        ⟨acc.data ++ d.map (fun e => (e.1, f e.2))⟩ := by
  intro d
  induction d with
  | nil => intro acc _ _; simp
  | cons e t ih =>
    intro acc hc hn
    obtain ⟨hv, hn2⟩ := nodup_step _ _ _ hn
    rw [List.foldl_cons, add_fresh acc e.1 _ (hc e (List.mem_cons_self _ _)) hv,
      ih _ (fun x hx => hc x (List.mem_cons_of_mem _ hx)) (by simpa using hn2)]
    simp

theorem simplifyLoop_spec [DecidableEq α] (fuel : Nat) (g : Str) (Q : Str → Str) :
    ∀ (d : MapData α) (acc : Multiset α),
      (∀ e ∈ d, canonical (Q e.2) = true ∧ ∃ r, divideStrs fuel e.2 g = some (Q e.2, r)) →
      (acc.data.map Prod.fst ++ d.map Prod.fst).Nodup →
      simplifyLoop fuel g d acc = some ⟨acc.data ++ d.map (fun e => (e.1, Q e.2))⟩ := by
  intro d
  induction d with
  | nil => intro acc _ _; simp [simplifyLoop]
  | cons e t ih =>
    intro acc hc hn
    obtain ⟨k, m⟩ := e
    obtain ⟨hv, hn2⟩ := nodup_step _ _ _ hn
    obtain ⟨hq, r, hdiv⟩ := hc (k, m) (List.mem_cons_self _ _)
    simp only [simplifyLoop, hdiv]
    rw [add_fresh acc k _ hq hv,
      ih _ (fun x hx => hc x (List.mem_cons_of_mem _ hx)) (by simpa using hn2)]
    simp

/-- What `simplify` does on a multiset with a first entry `(k0, first)`, canonical
multiplicities of which one is not `"0"`, and distinct keys: the gcd `g` of all
multiplicities is found, it is not `"0"`, and every multiplicity is replaced by
its exact quotient by `g`. -/
theorem simplify_cons_spec [DecidableEq α] (k0 : α) (first : Str) (rest : MapData α)
    (hm : (Multiset.mk ((k0, first) :: rest)).canonicalMults = true)
    (hk : (Multiset.mk ((k0, first) :: rest)).distinctKeys)
    (hnz : ∃ e ∈ (k0, first) :: rest, e.2 ≠ ['0']) (fuel : Nat) (hf : 10 ≤ fuel)
    (hfm : ∀ e ∈ (k0, first) :: rest, value e.2 < fuel) :
    ∃ (g : Str) (Q : Str → Str),
      gcdMults fuel first (rest.map Prod.snd) = some g ∧ canonical g = true ∧ 0 < value g ∧
      value g = ((rest.map Prod.snd).map value).foldl Nat.gcd (value first) ∧
      simplify fuel (Multiset.mk ((k0, first) :: rest)) =
        some ⟨((k0, first) :: rest).map (fun e => (e.1, Q e.2))⟩ ∧
      ∀ e ∈ (k0, first) :: rest, canonical (Q e.2) = true ∧
        divideStrs fuel e.2 g = some (Q e.2, ['0']) ∧
        value e.2 = value (Q e.2) * value g := by
  have hc := (canonicalMults_iff _).mp hm
  have hcf : canonical first = true := hc (k0, first) (List.mem_cons_self _ _)
  obtain ⟨g, hg1, hg2, hg3⟩ := gcdMults_spec fuel hf (rest.map Prod.snd) first hcf (by
    intro x hx
    obtain ⟨e, he, rfl⟩ := List.mem_map.mp hx
    exact ⟨hc e (List.mem_cons_of_mem _ he), hfm e (List.mem_cons_of_mem _ he)⟩)
  have hdvd : ∀ e ∈ (k0, first) :: rest, value g ∣ value e.2 := by
    intro e he
    rw [hg3]
    rcases List.mem_cons.mp he with rfl | he
    · exact foldl_gcd_dvd_init _ _
    · apply foldl_gcd_dvd_mem
      exact List.mem_map.mpr ⟨e.2, List.mem_map.mpr ⟨e, he, rfl⟩, rfl⟩
  have hgpos : 0 < value g := by
    obtain ⟨e, he, he0⟩ := hnz
    have hpos := value_pos_of_ne_zero e.2 (hc e he) he0
    rcases Nat.eq_zero_or_pos (value g) with h0 | h0
    · have := hdvd e he
      rw [h0, Nat.zero_dvd] at this
      omega
    · exact h0
  have hg0 : g ≠ ['0'] := by
    intro h
    rw [h, value_zero_str] at hgpos
    omega
  have hQ : ∀ e ∈ (k0, first) :: rest,
      canonical ((divideStrs fuel e.2 g).getD ([], [])).1 = true ∧
      divideStrs fuel e.2 g = some (((divideStrs fuel e.2 g).getD ([], [])).1, ['0']) ∧
      value e.2 = value ((divideStrs fuel e.2 g).getD ([], [])).1 * value g := by
    intro e he
    obtain ⟨q, r, hdiv, hq, hr, hv, hrlt, -⟩ := divideStrs_spec e.2 g (hc e he) hg2 hg0 fuel hf
    have h1 : value g ∣ value r := by
      have h2 := hdvd e he
      rw [hv] at h2
      exact (Nat.dvd_add_right (Dvd.intro_left _ rfl)).mp h2
    have hr0 : value r = 0 := Nat.eq_zero_of_dvd_of_lt h1 hrlt
    have hrs : r = ['0'] := canonical_value_zero r hr hr0
    rw [hdiv]
    simp only [Option.getD_some]
    exact ⟨hq, by rw [hrs], by rw [hv, hr0, add_zero]⟩
  refine ⟨g, fun x => ((divideStrs fuel x g).getD ([], [])).1, hg1, hg2, hgpos, hg3, ?_, hQ⟩
  have hloop := simplifyLoop_spec fuel g (fun x => ((divideStrs fuel x g).getD ([], [])).1)
    ((k0, first) :: rest) empty
    (fun e he => ⟨(hQ e he).1, ['0'], (hQ e he).2.1⟩)
    (by
      have h : ((k0, first) :: rest).map Prod.fst =
          (empty : Multiset α).data.map Prod.fst ++ ((k0, first) :: rest).map Prod.fst := rfl
      rw [← h]; exact hk)
  simp only [simplify, hg1]
  rw [hloop]
  simp [empty]

/-- On a multiset with canonical multiplicities of which one is not `"0"`, the
multiplicities of `simplify()` have gcd `"1"`. -/
theorem simplify_gcd_one [DecidableEq α] (m : Multiset α) (hm : m.canonicalMults = true)
    (hk : m.distinctKeys) (hnz : ∃ e ∈ m.data, e.2 ≠ ['0']) (fuel : Nat) (hf : 10 ≤ fuel)
    (hfm : ∀ e ∈ m.data, value e.2 < fuel) :
    ∃ s : Multiset α, simplify fuel m = some s ∧ gcdOfAll fuel s = some ['1'] := by
  obtain ⟨d⟩ := m
  cases d with
  | nil => obtain ⟨e, he, -⟩ := hnz; simp at he
  | cons e0 rest =>
    obtain ⟨k0, first⟩ := e0
    obtain ⟨g, Q, -, -, hgpos, hg3, hs, hQ⟩ :=
      simplify_cons_spec k0 first rest hm hk hnz fuel hf hfm
    refine ⟨_, hs, ?_⟩
    have hle : ∀ e ∈ (k0, first) :: rest, value (Q e.2) < fuel := by
      intro e he
      have h1 := (hQ e he).2.2
      have h2 := hfm e he
      have h3 : value (Q e.2) ≤ value (Q e.2) * value g := Nat.le_mul_of_pos_right _ hgpos
      omega
    obtain ⟨r, hr1, hr2, hr3⟩ := gcdMults_spec fuel hf
      ((rest.map (fun e => (e.1, Q e.2))).map Prod.snd) (Q first)
      (hQ (k0, first) (List.mem_cons_self _ _)).1 (by
        intro x hx
        simp only [List.map_map, List.mem_map, Function.comp] at hx
        obtain ⟨e, he, rfl⟩ := hx
        exact ⟨(hQ e (List.mem_cons_of_mem _ he)).1, hle e (List.mem_cons_of_mem _ he)⟩)
    have hgo : gcdOfAll fuel
        (Multiset.mk (((k0, first) :: rest).map (fun e => (e.1, Q e.2)))) = some r := hr1
    rw [hgo]
    have hlist : (rest.map Prod.snd).map value =
        (((rest.map (fun e => (e.1, Q e.2))).map Prod.snd).map value).map
          (fun q => q * value g) := by
      simp only [List.map_map]
      apply List.map_congr_left
      intro e he
      simp only [Function.comp]
      exact (hQ e (List.mem_cons_of_mem _ he)).2.2
    have hfirst := (hQ (k0, first) (List.mem_cons_self _ _)).2.2
    simp only at hfirst
    rw [hlist, hfirst, foldl_gcd_mul, ← hr3] at hg3
    have hr1v : value r = 1 := by
      have h := Nat.eq_of_mul_eq_mul_right hgpos (by rw [one_mul]; exact hg3.symm : value r * value g = 1 * value g)
      exact h
    rw [canonical_inj r ['1'] hr2 rfl (by rw [hr1v]; rfl)]

end Multiset

/-- C11, the code at the failing input: on the multiset `{1: "0"}`, whose only
multiplicity is the canonical string `"0"`, `simplify()` divides by the gcd
`"0"`, adds the sentinel `"NaN"` and returns `{1: "1100"}`, which is not empty
and whose multiplicities have gcd `"1100"`, not `"1"`; no fuel changes this. -/
theorem simplify_all_zero :
    (Multiset.mk [(1, "0".toList)] : Multiset Nat).canonicalMults = true ∧
      (Multiset.mk [(1, "0".toList)] : Multiset Nat).distinctKeys ∧
      Multiset.simplify 10 (Multiset.mk [(1, "0".toList)] : Multiset Nat) =
        some (Multiset.mk [(1, "1100".toList)]) ∧
      Multiset.gcdOfAll 10 (Multiset.mk [(1, "1100".toList)] : Multiset Nat) =
        some "1100".toList ∧
      ¬ ∃ (fuel : Nat) (s : Multiset Nat),
        Multiset.simplify fuel (Multiset.mk [(1, "0".toList)] : Multiset Nat) = some s ∧
          (s.data = [] ∨ Multiset.gcdOfAll fuel s = some ['1']) := by
  refine ⟨by decide, by decide, by decide, by decide, ?_⟩
  rintro ⟨fuel, s, hs, h⟩
  have h1 : Multiset.simplify fuel (Multiset.mk [(1, "0".toList)] : Multiset Nat) =
      some (Multiset.mk [(1, "1100".toList)]) := rfl
  rw [h1] at hs
  have hs2 : s = Multiset.mk [(1, "1100".toList)] := (Option.some.inj hs).symm
  subst hs2
  have h2 : Multiset.gcdOfAll fuel (Multiset.mk [(1, "1100".toList)] : Multiset Nat) =
      some "1100".toList := rfl
  rw [h2] at h
  revert h
  decide

/-- C12: for a multiset `m` with canonical multiplicities of which at least one
is not `"0"`, with `g` the gcd of all its multiplicities, `simplify()` divides
every multiplicity by `g` exactly: the result has the values of `m`, each with
the quotient of its multiplicity by `g` (remainder `"0"`), and
`m.simplify().scale(g)` gives every value the multiplicity it has in `m`.
Fuel of at least `10` and above every multiplicity suffices. -/
theorem simplify_scale {α : Type} [DecidableEq α] (m : Multiset α)
    (hm : m.canonicalMults = true) (hk : m.distinctKeys)
    (hnz : ∃ e ∈ m.data, e.2 ≠ ['0']) (fuel : Nat) (hf : 10 ≤ fuel)
    (hfm : ∀ e ∈ m.data, value e.2 < fuel) :
    ∃ (g : Str) (s : Multiset α), Multiset.gcdOfAll fuel m = some g ∧
      Multiset.simplify fuel m = some s ∧
      s.data.map Prod.fst = m.data.map Prod.fst ∧
      (∀ e ∈ m.data, ∃ q, divideStrs fuel e.2 g = some (q, ['0']) ∧ s.get e.1 = some q) ∧
      (∀ v, (s.scale g).get v = m.get v) ∧ s.scale g = m := by
  obtain ⟨d⟩ := m
  cases d with
  | nil => obtain ⟨e, he, -⟩ := hnz; simp at he
  | cons e0 rest =>
    obtain ⟨k0, first⟩ := e0
    obtain ⟨g, Q, hg1, hg2, hgpos, -, hs, hQ⟩ :=
      Multiset.simplify_cons_spec k0 first rest hm hk hnz fuel hf hfm
    have hkeys : (((k0, first) :: rest).map (fun e => (e.1, Q e.2))).map Prod.fst =
        ((k0, first) :: rest).map Prod.fst := by
      rw [List.map_map]; rfl
    have hscale : (Multiset.mk (((k0, first) :: rest).map (fun e => (e.1, Q e.2)))).scale g =
        Multiset.mk ((k0, first) :: rest) := by
      unfold Multiset.scale
      rw [Multiset.foldl_add_fresh (fun x => multiplyStrs x g)]
      · simp only [Multiset.empty, List.nil_append, List.map_map, Multiset.mk.injEq]
        conv_rhs => rw [← List.map_id ((k0, first) :: rest)]
        apply List.map_congr_left
        intro e he
        obtain ⟨hq, -, hv⟩ := hQ e he
        obtain ⟨h1, h2⟩ := multiplyStrs_spec (Q e.2) g hq hg2
        have hce := (Multiset.canonicalMults_iff _).mp hm e he
        simp only [Function.comp, id]
        rw [canonical_inj _ _ h1 hce (by rw [h2, hv])]
      · intro e he
        obtain ⟨e2, he2, rfl⟩ := List.mem_map.mp he
        exact (multiplyStrs_spec (Q e2.2) g (hQ e2 he2).1 hg2).1
      · simp only [Multiset.empty, List.map_nil, List.nil_append]
        rw [hkeys]; exact hk
    refine ⟨g, _, hg1, hs, hkeys, ?_, ?_, hscale⟩
    · intro e he
      refine ⟨Q e.2, (hQ e he).2.1, ?_⟩
      have hn : ((((k0, first) :: rest).map (fun e => (e.1, Q e.2))).map Prod.fst).Nodup := by
        rw [hkeys]; exact hk
      exact (Multiset.mem_iff_mapGet e.1 (Q e.2) _ hn).mp
        (List.mem_map.mpr ⟨e, he, rfl⟩)
    · intro v
      rw [hscale]

theorem simplify_scale_witness :
    (Multiset.mk [(1, "6".toList), (2, "0".toList), (3, "9".toList)] :
        Multiset Nat).canonicalMults = true ∧
      (Multiset.mk [(1, "6".toList), (2, "0".toList), (3, "9".toList)] :
        Multiset Nat).distinctKeys ∧
      (∃ e ∈ (Multiset.mk [(1, "6".toList), (2, "0".toList), (3, "9".toList)] :
        Multiset Nat).data, e.2 ≠ ['0']) ∧
      10 ≤ 12 ∧
      (∀ e ∈ (Multiset.mk [(1, "6".toList), (2, "0".toList), (3, "9".toList)] :
        Multiset Nat).data, value e.2 < 12) ∧
      ∃ (g : Str) (s : Multiset Nat),
        Multiset.gcdOfAll 12 (Multiset.mk [(1, "6".toList), (2, "0".toList), (3, "9".toList)] :
          Multiset Nat) = some g ∧
        Multiset.simplify 12 (Multiset.mk [(1, "6".toList), (2, "0".toList), (3, "9".toList)] :
          Multiset Nat) = some s ∧
        s.data.map Prod.fst =
          (Multiset.mk [(1, "6".toList), (2, "0".toList), (3, "9".toList)] :
            Multiset Nat).data.map Prod.fst ∧
        (∀ e ∈ (Multiset.mk [(1, "6".toList), (2, "0".toList), (3, "9".toList)] :
            Multiset Nat).data,
          ∃ q, divideStrs 12 e.2 g = some (q, ['0']) ∧ s.get e.1 = some q) ∧
        (∀ v, (s.scale g).get v =
          (Multiset.mk [(1, "6".toList), (2, "0".toList), (3, "9".toList)] :
            Multiset Nat).get v) ∧
        s.scale g = Multiset.mk [(1, "6".toList), (2, "0".toList), (3, "9".toList)] :=
  ⟨by decide, by decide, by decide, by decide, by decide,
    simplify_scale
      (Multiset.mk [(1, "6".toList), (2, "0".toList), (3, "9".toList)] : Multiset Nat)
      (by decide) (by decide) (by decide) 12 (by decide) (by decide)⟩

/-! ### Binary64 rounding -/

theorem roundHalfEven_near (y : ℚ) : |(roundHalfEven y : ℚ) - y| ≤ 1 / 2 := by
  have h1 := Int.floor_le y
  have h2 := Int.lt_floor_add_one y
  unfold roundHalfEven
  rw [abs_le]
  split_ifs <;> push_cast <;> constructor <;> linarith

theorem roundHalfEven_of_lt (N : ℤ) (y : ℚ) (h1 : (N : ℚ) ≤ y) (h2 : y < N + 1 / 2) :
    roundHalfEven y = N := by
  have hf : ⌊y⌋ = N := by
    rw [Int.floor_eq_iff]; constructor <;> linarith
  unfold roundHalfEven
  rw [hf, if_pos (by linarith)]

theorem roundHalfEven_intCast (N : ℤ) : roundHalfEven (N : ℚ) = N :=
  roundHalfEven_of_lt N N (le_refl _) (by linarith)

theorem log2_bounds (q : ℚ) (hq : 0 < q) :
    (2 : ℚ) ^ (Int.log 2 q) ≤ q ∧ q < (2 : ℚ) ^ (Int.log 2 q + 1) := by
  have h1 := Int.zpow_log_le_self (b := 2) (r := q) (by norm_num) hq
  have h2 := Int.lt_zpow_succ_log_self (b := 2) (by norm_num) q
  simp only [Nat.cast_ofNat] at h1 h2
  exact ⟨h1, h2⟩

theorem log2_eq (k : ℤ) (q : ℚ) (h1 : (2 : ℚ) ^ k ≤ q) (h2 : q < (2 : ℚ) ^ (k + 1)) :
    Int.log 2 q = k := by
  have hq : 0 < q := lt_of_lt_of_le (zpow_pos (by norm_num) k) h1
  have h3 : k ≤ Int.log 2 q :=
    (Int.zpow_le_iff_le_log (b := 2) (by norm_num) hq).mp (by simpa using h1)
  have h4 : Int.log 2 q < k + 1 :=
    (Int.lt_zpow_iff_log_lt (b := 2) (by norm_num) hq).mp (by simpa using h2)
  omega

/-- The definition of `toDouble` at a non-zero `q` whose binary exponent `k`,
last place `2 ^ e` and rounded significand `m` are known. -/
theorem toDouble_of_ne_zero (q : ℚ) (h0 : q ≠ 0) (k e m : ℤ) (hk : Int.log 2 |q| = k)
    (he : max (k - 52) (-1074) = e) (hm : roundHalfEven (|q| / (2 : ℚ) ^ e) = m) :
    toDouble q =
      if (2 : ℚ) ^ (1024 : ℕ) ≤ (m : ℚ) * (2 : ℚ) ^ e then
        (if 0 < q then JSNum.posInf else JSNum.negInf)
      else JSNum.finite (if 0 < q then (m : ℚ) * (2 : ℚ) ^ e else -((m : ℚ) * (2 : ℚ) ^ e)) := by
  unfold toDouble
  rw [if_neg h0]
  simp only [hk, he, hm]

theorem toDouble_zero : toDouble 0 = JSNum.finite 0 := by
  unfold toDouble
  rw [if_pos rfl]

/-- A value of a finite double is left unchanged by the rounding. -/
theorem toDouble_isDouble (q : ℚ) (h : isDouble q) : toDouble q = JSNum.finite q := by
  obtain ⟨m, e, hm, he, hq, hlt⟩ := h
  by_cases h0 : q = 0
  · rw [h0, toDouble_zero]
  have ha : 0 < |q| := abs_pos.mpr h0
  obtain ⟨hk1, hk2⟩ := log2_bounds |q| ha
  obtain ⟨k, hk⟩ : ∃ k, Int.log 2 |q| = k := ⟨_, rfl⟩
  obtain ⟨E, hE⟩ : ∃ E, max (k - 52) (-1074) = E := ⟨_, rfl⟩
  rw [hk] at hk1 hk2
  have h2e : (0 : ℚ) < (2 : ℚ) ^ e := zpow_pos (by norm_num) e
  have habs : |q| = (|m| : ℤ) * (2 : ℚ) ^ e := by
    rw [hq, abs_mul, abs_of_pos h2e, Int.cast_abs]
  have hmq : ((|m| : ℤ) : ℚ) < (2 : ℚ) ^ (53 : ℤ) := by
    calc ((|m| : ℤ) : ℚ) < ((2 ^ 53 : ℤ) : ℚ) := by exact_mod_cast hm
      _ = (2 : ℚ) ^ (53 : ℤ) := by norm_num
  have hlt2 : (2 : ℚ) ^ k < (2 : ℚ) ^ (53 + e) := by
    rw [zpow_add₀ (by norm_num : (2 : ℚ) ≠ 0)]
    calc (2 : ℚ) ^ k ≤ |q| := hk1
      _ = (|m| : ℤ) * (2 : ℚ) ^ e := habs
      _ < (2 : ℚ) ^ (53 : ℤ) * (2 : ℚ) ^ e := mul_lt_mul_of_pos_right hmq h2e
  have hk53 : k < 53 + e := (zpow_lt_zpow_iff_right₀ (by norm_num)).mp hlt2
  have hle : E ≤ e := by rw [← hE]; exact max_le (by omega) he
  obtain ⟨d, hd⟩ : ∃ d : ℕ, e = E + d := ⟨(e - E).toNat, by omega⟩
  have h2E : (0 : ℚ) < (2 : ℚ) ^ E := zpow_pos (by norm_num) _
  have hsplit : (2 : ℚ) ^ e = (2 : ℚ) ^ E * (2 : ℚ) ^ d := by
    rw [hd, zpow_add₀ (by norm_num : (2 : ℚ) ≠ 0), zpow_natCast]
  have hy : |q| / (2 : ℚ) ^ E = ((|m| * 2 ^ d : ℤ) : ℚ) := by
    rw [habs, hsplit]
    push_cast
    field_simp
    ring
  have hround : roundHalfEven (|q| / (2 : ℚ) ^ E) = |m| * 2 ^ d := by
    rw [hy, roundHalfEven_intCast]
  have hr : ((|m| * 2 ^ d : ℤ) : ℚ) * (2 : ℚ) ^ E = |q| := by
    rw [← hy]
    field_simp
  rw [toDouble_of_ne_zero q h0 k E _ hk hE hround, hr, if_neg (not_le.mpr hlt)]
  congr 1
  split_ifs with hpos
  · exact abs_of_pos hpos
  · rw [abs_of_nonpos (not_lt.mp hpos), neg_neg]

/-- Every integer of magnitude at most `2 ^ 53` is the value of a double. -/
theorem isDouble_int (z : ℤ) (h : |z| ≤ 2 ^ 53) : isDouble (z : ℚ) := by
  have hq : |(z : ℚ)| ≤ (2 : ℚ) ^ (53 : ℕ) := by
    have : ((|z| : ℤ) : ℚ) ≤ ((2 ^ 53 : ℤ) : ℚ) := by exact_mod_cast h
    simpa using this
  have hbig : |(z : ℚ)| < (2 : ℚ) ^ (1024 : ℕ) :=
    lt_of_le_of_lt hq (by norm_num)
  by_cases h53 : |z| < 2 ^ 53
  · exact ⟨z, 0, h53, by norm_num, by simp, hbig⟩
  · have habs : |z| = 2 ^ 53 := le_antisymm h (not_lt.mp h53)
    rcases abs_cases z with ⟨h1, _⟩ | ⟨h1, _⟩
    · refine ⟨2 ^ 52, 1, by norm_num, by norm_num, ?_, hbig⟩
      have : z = 2 ^ 53 := by omega
      rw [this]; norm_num
    · refine ⟨-2 ^ 52, 1, by norm_num, by norm_num, ?_, hbig⟩
      have : z = -2 ^ 53 := by omega
      rw [this]; norm_num

/-! ### applyMod -/

theorem jsMul_finite (a b : ℚ) : jsMul (JSNum.finite a) (JSNum.finite b) = toDouble (a * b) :=
  rfl

theorem jsAdd_finite (a b : ℚ) : jsAdd (JSNum.finite a) (JSNum.finite b) = toDouble (a + b) :=
  rfl

theorem jsDiv_finite (a b : ℚ) (hb : b ≠ 0) :
    jsDiv (JSNum.finite a) (JSNum.finite b) = toDouble (a / b) := by
  simp only [jsDiv, if_neg hb]

theorem applyMod_step (z : ℤ) (hd : isDouble (z : ℚ)) (hb : |(z : ℚ)| < (2 : ℚ) ^ (1012 : ℕ)) :
    roundHalfToZeroNum (jsDiv (jsMul (JSNum.finite z) (JSNum.finite 4096))
      (JSNum.finite 0x1000)) = JSNum.finite z := by
  have hmul : isDouble ((z : ℚ) * 4096) := by
    obtain ⟨m, e, hm, he, hq, -⟩ := hd
    refine ⟨m, e + 12, hm, by omega, ?_, ?_⟩
    · rw [zpow_add₀ (by norm_num : (2 : ℚ) ≠ 0), hq]
      norm_num
      ring
    · rw [abs_mul]
      have h4 : |(4096 : ℚ)| = 4096 := abs_of_pos (by norm_num)
      rw [h4]
      calc |(z : ℚ)| * 4096 < (2 : ℚ) ^ (1012 : ℕ) * 4096 :=
            mul_lt_mul_of_pos_right hb (by norm_num)
        _ = (2 : ℚ) ^ (1024 : ℕ) := by norm_num
  have h3 : (z : ℚ) * 4096 / 0x1000 = z := by norm_num
  rw [jsMul_finite, toDouble_isDouble _ hmul, jsDiv_finite _ _ (by norm_num), h3,
    toDouble_isDouble _ hd]
  show JSNum.finite (roundHalfToZero (z : ℚ)) = _
  rw [roundHalfToZero_int]

/-- C17, the claim as stated fails: `2 ^ 1012` is an integer and a double, and
`applyMod(4096, 2 ^ 1012)` is `Infinity`, because the product `2 ^ 1024`
overflows. -/
theorem applyMod_overflow :
    isDouble ((2 : ℚ) ^ (1012 : ℕ)) ∧ (((2 : ℤ) ^ (1012 : ℕ) : ℤ) : ℚ) = (2 : ℚ) ^ (1012 : ℕ) ∧
      applyMod (JSNum.finite 4096) (NumOrArray.num (JSNum.finite ((2 : ℚ) ^ (1012 : ℕ)))) =
        NumOrArray.num JSNum.posInf ∧
      applyMod (JSNum.finite 4096) (NumOrArray.num (JSNum.finite ((2 : ℚ) ^ (1012 : ℕ)))) ≠
        NumOrArray.num (JSNum.finite ((2 : ℚ) ^ (1012 : ℕ))) := by
  have hd : isDouble ((2 : ℚ) ^ (1012 : ℕ)) :=
    ⟨1, 1012, by norm_num, by norm_num, by norm_num, by
      rw [abs_of_pos (by positivity)]
      exact pow_lt_pow_right₀ (by norm_num) (by norm_num)⟩
  have hq : (2 : ℚ) ^ (1012 : ℕ) * 4096 = (2 : ℚ) ^ (1024 : ℕ) := by norm_num
  have habs : |(2 : ℚ) ^ (1024 : ℕ)| = (2 : ℚ) ^ (1024 : ℕ) := abs_of_pos (by positivity)
  have hk : Int.log 2 |(2 : ℚ) ^ (1024 : ℕ)| = 1024 := by
    rw [habs]
    exact log2_eq 1024 _ (by norm_num) (by norm_num)
  have hm : roundHalfEven (|(2 : ℚ) ^ (1024 : ℕ)| / (2 : ℚ) ^ (972 : ℤ)) = 2 ^ 52 := by
    have : |(2 : ℚ) ^ (1024 : ℕ)| / (2 : ℚ) ^ (972 : ℤ) = ((2 ^ 52 : ℤ) : ℚ) := by
      rw [habs]; norm_num
    rw [this, roundHalfEven_intCast]
  have hov : toDouble ((2 : ℚ) ^ (1024 : ℕ)) = JSNum.posInf := by
    rw [toDouble_of_ne_zero _ (by positivity) 1024 972 (2 ^ 52) hk (by decide) hm,
      if_pos (by norm_num), if_pos (by positivity)]
  have hres : applyMod (JSNum.finite 4096)
      (NumOrArray.num (JSNum.finite ((2 : ℚ) ^ (1012 : ℕ)))) = NumOrArray.num JSNum.posInf := by
    show NumOrArray.num (roundHalfToZeroNum (jsDiv
      (jsMul (JSNum.finite ((2 : ℚ) ^ (1012 : ℕ))) (JSNum.finite 4096))
      (JSNum.finite 0x1000))) = _
    rw [jsMul_finite, hq, hov]
    simp only [jsDiv]
    rw [if_pos (by norm_num)]
    rfl
  refine ⟨hd, by rw [Int.cast_pow, Int.cast_ofNat], hres, ?_⟩
  rw [hres]
  intro h
  cases h

/-- C17, amended: for every integer `v` that is the value of a double with
`|v| < 2 ^ 1012`, so that `v * 4096` does not overflow, `applyMod(4096, v) = v`,
and for every array `vs` of such integers `applyMod(4096, vs)` is an array equal
to `vs` element by element. -/
theorem applyMod_identity (v : ℤ) (hd : isDouble (v : ℚ))
    (hb : |(v : ℚ)| < (2 : ℚ) ^ (1012 : ℕ)) (vs : List ℤ)
    (hvs : ∀ z ∈ vs, isDouble (z : ℚ) ∧ |(z : ℚ)| < (2 : ℚ) ^ (1012 : ℕ)) :
    applyMod (JSNum.finite 4096) (NumOrArray.num (JSNum.finite v)) =
        NumOrArray.num (JSNum.finite v) ∧
      applyMod (JSNum.finite 4096)
          (NumOrArray.array (vs.map (fun z : ℤ => JSNum.finite (z : ℚ)))) =
        NumOrArray.array (vs.map (fun z : ℤ => JSNum.finite (z : ℚ))) := by
  refine ⟨?_, ?_⟩
  · show NumOrArray.num (roundHalfToZeroNum (jsDiv (jsMul (JSNum.finite v) (JSNum.finite 4096))
      (JSNum.finite 0x1000))) = _
    rw [applyMod_step v hd hb]
  · show NumOrArray.array ((vs.map (fun z : ℤ => JSNum.finite (z : ℚ))).map
      (fun v => roundHalfToZeroNum (jsDiv (jsMul v (JSNum.finite 4096))
        (JSNum.finite 0x1000)))) = _
    rw [List.map_map]
    congr 1
    apply List.map_congr_left
    intro z hz
    exact applyMod_step z (hvs z hz).1 (hvs z hz).2

theorem small_lt_pow (z : ℤ) (h : |z| ≤ 2 ^ 53) : |(z : ℚ)| < (2 : ℚ) ^ (1012 : ℕ) := by
  have h1 : |(z : ℚ)| ≤ (2 : ℚ) ^ (53 : ℕ) := by
    have : ((|z| : ℤ) : ℚ) ≤ ((2 ^ 53 : ℤ) : ℚ) := by exact_mod_cast h
    rw [Int.cast_abs] at this
    calc |(z : ℚ)| ≤ ((2 ^ 53 : ℤ) : ℚ) := this
      _ = (2 : ℚ) ^ (53 : ℕ) := by norm_num
  exact lt_of_le_of_lt h1 (pow_lt_pow_right₀ (by norm_num) (by norm_num))

theorem applyMod_identity_witness :
    isDouble (((-37 : ℤ) : ℚ)) ∧ |(((-37 : ℤ)) : ℚ)| < (2 : ℚ) ^ (1012 : ℕ) ∧
      (∀ z ∈ [(5 : ℤ), -12, 0], isDouble (z : ℚ) ∧ |(z : ℚ)| < (2 : ℚ) ^ (1012 : ℕ)) ∧
      (applyMod (JSNum.finite 4096) (NumOrArray.num (JSNum.finite ((-37 : ℤ) : ℚ))) =
          NumOrArray.num (JSNum.finite ((-37 : ℤ) : ℚ)) ∧
        applyMod (JSNum.finite 4096)
            (NumOrArray.array ([(5 : ℤ), -12, 0].map (fun z : ℤ => JSNum.finite (z : ℚ)))) =
          NumOrArray.array ([(5 : ℤ), -12, 0].map (fun z : ℤ => JSNum.finite (z : ℚ)))) :=
  have h1 : isDouble (((-37 : ℤ) : ℚ)) := isDouble_int _ (by decide)
  have h1b : |(((-37 : ℤ)) : ℚ)| < (2 : ℚ) ^ (1012 : ℕ) := small_lt_pow _ (by decide)
  have h2 : ∀ z ∈ [(5 : ℤ), -12, 0],
      isDouble (z : ℚ) ∧ |(z : ℚ)| < (2 : ℚ) ^ (1012 : ℕ) := by
    intro z hz
    simp only [List.mem_cons, List.mem_singleton, List.not_mem_nil, or_false] at hz
    rcases hz with rfl | rfl | rfl
    · exact ⟨isDouble_int _ (by decide), small_lt_pow _ (by decide)⟩
    · exact ⟨isDouble_int _ (by decide), small_lt_pow _ (by decide)⟩
    · exact ⟨isDouble_int _ (by decide), small_lt_pow _ (by decide)⟩
  ⟨h1, h1b, h2, applyMod_identity (-37) h1 h1b [5, -12, 0] h2⟩

/-! ### damageVariation -/

/-- The arithmetic core of the division step: an integer `m` within `1/2` of
`X * P / M` lies in `[N * P, (N + 1) * P)` when `N` is the integer quotient of
`X` by `M`, `P` is a power of two and `M < 2 * P`. -/
theorem round_between (X M N P y : ℚ) (m nP : ℤ) (hM : 0 < M) (hP : 0 < P)
    (hN1 : N * M ≤ X) (hN2 : X + 1 ≤ (N + 1) * M) (hMP : M < 2 * P)
    (hy : y * M = X * P) (hnear : |(m : ℚ) - y| ≤ 1 / 2) (hnP : (nP : ℚ) = N * P) :
    N * P ≤ (m : ℚ) ∧ (m : ℚ) < (N + 1) * P := by
  obtain ⟨hlo, hhi⟩ := abs_le.mp hnear
  have hyN : N * P ≤ y := by
    have h1 : N * P * M ≤ y * M := by
      rw [hy]
      have := mul_le_mul_of_nonneg_right hN1 (le_of_lt hP)
      linarith
    exact le_of_mul_le_mul_right h1 hM
  have hyN1 : y + 1 / 2 < (N + 1) * P := by
    have h1 : (y + 1 / 2) * M < (N + 1) * P * M := by
      have h2 := mul_le_mul_of_nonneg_right hN2 (le_of_lt hP)
      have h3 : (y + 1 / 2) * M = X * P + M / 2 := by rw [add_mul, hy]; ring
      rw [h3]
      have h4 : (N + 1) * P * M = (N + 1) * M * P := by ring
      rw [h4]
      linarith
    exact lt_of_mul_lt_mul_right h1 (le_of_lt hM)
  refine ⟨?_, by linarith⟩
  have h1 : (nP : ℚ) - 1 < (m : ℚ) := by rw [hnP]; linarith
  have h2 : nP - 1 < m := by exact_mod_cast h1
  have h3 : nP ≤ m := by omega
  rw [← hnP]
  exact_mod_cast h3

/-- The division step of `damageVariation`: for integers `0 ≤ x < 2 ^ 53` and
`0 < mx < 2 ^ 53`, `Math.trunc(x / mx)` computed in doubles is the integer
quotient. -/
theorem trunc_toDouble_div (x mx : ℤ) (hx0 : 0 ≤ x) (hx : x < 2 ^ 53) (hmax : 0 < mx)
    (hmax53 : mx < 2 ^ 53) :
    jsTrunc (toDouble ((x : ℚ) / (mx : ℚ))) = JSNum.finite (((x / mx : ℤ)) : ℚ) := by
  have hM : (0 : ℚ) < (mx : ℚ) := by exact_mod_cast hmax
  rcases eq_or_lt_of_le hx0 with h0 | hpos
  · rw [← h0]
    simp [toDouble_zero, jsTrunc, mathTrunc]
  have hX : (0 : ℚ) < (x : ℚ) := by exact_mod_cast hpos
  have hX1 : (1 : ℚ) ≤ (x : ℚ) := by exact_mod_cast hpos
  have hX53 : (x : ℚ) < (2 : ℚ) ^ (53 : ℤ) := by
    calc (x : ℚ) < ((2 ^ 53 : ℤ) : ℚ) := by exact_mod_cast hx
      _ = (2 : ℚ) ^ (53 : ℤ) := by norm_num
  have hM1 : (1 : ℚ) ≤ (mx : ℚ) := by exact_mod_cast hmax
  have hM53 : (mx : ℚ) < (2 : ℚ) ^ (53 : ℤ) := by
    calc (mx : ℚ) < ((2 ^ 53 : ℤ) : ℚ) := by exact_mod_cast hmax53
      _ = (2 : ℚ) ^ (53 : ℤ) := by norm_num
  have hq : 0 < (x : ℚ) / (mx : ℚ) := div_pos hX hM
  have habs : |(x : ℚ) / (mx : ℚ)| = (x : ℚ) / (mx : ℚ) := abs_of_pos hq
  obtain ⟨k, hk⟩ : ∃ k, Int.log 2 ((x : ℚ) / (mx : ℚ)) = k := ⟨_, rfl⟩
  obtain ⟨hk1, hk2⟩ := log2_bounds _ hq
  rw [hk] at hk1 hk2
  have hqle : (x : ℚ) / (mx : ℚ) ≤ (x : ℚ) := div_le_self (le_of_lt hX) hM1
  have hk53 : k < 53 :=
    (zpow_lt_zpow_iff_right₀ (by norm_num : (1 : ℚ) < 2)).mp
      (lt_of_le_of_lt hk1 (lt_of_le_of_lt hqle hX53))
  have hqlow : (2 : ℚ) ^ (-53 : ℤ) < (x : ℚ) / (mx : ℚ) := by
    rw [lt_div_iff₀ hM]
    have h1 : (2 : ℚ) ^ (-53 : ℤ) * (mx : ℚ) < (2 : ℚ) ^ (-53 : ℤ) * (2 : ℚ) ^ (53 : ℤ) :=
      mul_lt_mul_of_pos_left hM53 (zpow_pos (by norm_num) _)
    have h2 : (2 : ℚ) ^ (-53 : ℤ) * (2 : ℚ) ^ (53 : ℤ) = 1 := by
      rw [← zpow_add₀ (by norm_num : (2 : ℚ) ≠ 0)]; norm_num
    linarith
  have hklow : -53 < k + 1 :=
    (zpow_lt_zpow_iff_right₀ (by norm_num : (1 : ℚ) < 2)).mp (lt_trans hqlow hk2)
  have hE : max (k - 52) (-1074) = k - 52 := max_eq_left (by omega)
  obtain ⟨t, ht⟩ : ∃ t : ℕ, k - 52 = -(t : ℤ) := ⟨(52 - k).toNat, by omega⟩
  have hP : (0 : ℚ) < (2 : ℚ) ^ t := pow_pos (by norm_num) t
  have hP1 : (1 : ℚ) ≤ (2 : ℚ) ^ t := one_le_pow₀ (by norm_num)
  have h2E : (2 : ℚ) ^ (k - 52) = ((2 : ℚ) ^ t)⁻¹ := by
    rw [ht, zpow_neg, zpow_natCast]
  have hkP : (2 : ℚ) ^ k = (2 : ℚ) ^ (52 : ℤ) * ((2 : ℚ) ^ t)⁻¹ := by
    have : k = 52 + (k - 52) := by ring
    conv_lhs => rw [this]
    rw [zpow_add₀ (by norm_num : (2 : ℚ) ≠ 0), h2E]
  have hyeq : |(x : ℚ) / (mx : ℚ)| / (2 : ℚ) ^ (k - 52) = (x : ℚ) / (mx : ℚ) * (2 : ℚ) ^ t := by
    rw [habs, h2E, div_inv_eq_mul]
  have hMP : (mx : ℚ) < 2 * (2 : ℚ) ^ t := by
    have h1 : (2 : ℚ) ^ (52 : ℤ) * ((2 : ℚ) ^ t)⁻¹ ≤ (x : ℚ) / (mx : ℚ) := by
      rw [← hkP]; exact hk1
    rw [le_div_iff₀ hM] at h1
    have h2 : (2 : ℚ) ^ (52 : ℤ) * (mx : ℚ) ≤ (x : ℚ) * (2 : ℚ) ^ t := by
      have h3 := mul_le_mul_of_nonneg_right h1 (le_of_lt hP)
      have h4 : (2 : ℚ) ^ (52 : ℤ) * ((2 : ℚ) ^ t)⁻¹ * (mx : ℚ) * (2 : ℚ) ^ t =
          (2 : ℚ) ^ (52 : ℤ) * (mx : ℚ) := by
        field_simp
      rw [h4] at h3
      exact h3
    have h5 : (x : ℚ) * (2 : ℚ) ^ t < (2 : ℚ) ^ (53 : ℤ) * (2 : ℚ) ^ t :=
      mul_lt_mul_of_pos_right hX53 hP
    have h6 : (2 : ℚ) ^ (53 : ℤ) = 2 * (2 : ℚ) ^ (52 : ℤ) := by norm_num
    have h7 : (0 : ℚ) < (2 : ℚ) ^ (52 : ℤ) := zpow_pos (by norm_num) _
    rw [h6] at h5
    have h8 : (2 : ℚ) ^ (52 : ℤ) * (mx : ℚ) < (2 : ℚ) ^ (52 : ℤ) * (2 * (2 : ℚ) ^ t) := by
      calc (2 : ℚ) ^ (52 : ℤ) * (mx : ℚ) ≤ (x : ℚ) * (2 : ℚ) ^ t := h2
        _ < 2 * (2 : ℚ) ^ (52 : ℤ) * (2 : ℚ) ^ t := h5
        _ = (2 : ℚ) ^ (52 : ℤ) * (2 * (2 : ℚ) ^ t) := by ring
    exact lt_of_mul_lt_mul_left h8 (le_of_lt h7)
  have hN1 : ((x / mx : ℤ) : ℚ) * (mx : ℚ) ≤ (x : ℚ) := by
    exact_mod_cast Int.ediv_mul_le x (ne_of_gt hmax)
  have hN2 : (x : ℚ) + 1 ≤ (((x / mx : ℤ) : ℚ) + 1) * (mx : ℚ) := by
    have h1 : x + 1 ≤ (x / mx + 1) * mx := Int.lt_ediv_add_one_mul_self x hmax
    exact_mod_cast h1
  have hN0 : (0 : ℚ) ≤ ((x / mx : ℤ) : ℚ) := by
    exact_mod_cast Int.ediv_nonneg hx0 (le_of_lt hmax)
  have hNx : ((x / mx : ℤ) : ℚ) ≤ (x : ℚ) := by
    exact_mod_cast Int.ediv_le_self mx hx0
  obtain ⟨m, hm⟩ : ∃ m, roundHalfEven (|(x : ℚ) / (mx : ℚ)| / (2 : ℚ) ^ (k - 52)) = m :=
    ⟨_, rfl⟩
  have hnear : |(m : ℚ) - (x : ℚ) / (mx : ℚ) * (2 : ℚ) ^ t| ≤ 1 / 2 := by
    rw [← hm, hyeq]
    exact roundHalfEven_near _
  obtain ⟨hlo, hhi⟩ := round_between (x : ℚ) (mx : ℚ) ((x / mx : ℤ) : ℚ) ((2 : ℚ) ^ t)
    ((x : ℚ) / (mx : ℚ) * (2 : ℚ) ^ t) m ((x / mx) * 2 ^ t) hM hP hN1 hN2 hMP
    (by field_simp) hnear (by push_cast; ring)
  have hr1 : ((x / mx : ℤ) : ℚ) ≤ (m : ℚ) * ((2 : ℚ) ^ t)⁻¹ := by
    rw [← div_eq_mul_inv, le_div_iff₀ hP]; exact hlo
  have hr2 : (m : ℚ) * ((2 : ℚ) ^ t)⁻¹ < ((x / mx : ℤ) : ℚ) + 1 := by
    rw [← div_eq_mul_inv, div_lt_iff₀ hP]; exact hhi
  have habs2 : Int.log 2 |(x : ℚ) / (mx : ℚ)| = k := by rw [habs]; exact hk
  rw [toDouble_of_ne_zero _ (ne_of_gt hq) k (k - 52) m habs2 hE hm, h2E]
  have hnov : ¬ ((2 : ℚ) ^ (1024 : ℕ) ≤ (m : ℚ) * ((2 : ℚ) ^ t)⁻¹) := by
    have h1 : (m : ℚ) * ((2 : ℚ) ^ t)⁻¹ < (2 : ℚ) ^ (53 : ℤ) + 1 := by linarith
    have h2 : (2 : ℚ) ^ (53 : ℤ) + 1 < (2 : ℚ) ^ (1024 : ℕ) := by norm_num
    linarith
  rw [if_neg hnov, if_pos hq]
  show JSNum.finite (mathTrunc ((m : ℚ) * ((2 : ℚ) ^ t)⁻¹)) = _
  congr 1
  unfold mathTrunc
  rw [if_pos (le_trans hN0 hr1)]
  have hfl : ⌊(m : ℚ) * ((2 : ℚ) ^ t)⁻¹⌋ = x / mx := by
    rw [Int.floor_eq_iff]; exact ⟨hr1, hr2⟩
  rw [hfl]

theorem damageLoop_succ (baseDamage mx : JSNum) (fuel : Nat) (i : JSNum)
    (damages : List JSNum) :
    damageLoop baseDamage mx (fuel + 1) i damages =
      if jsLe i mx = true then
        damageLoop baseDamage mx fuel (jsAdd i (JSNum.finite 1))
          (damages ++ [jsTrunc (jsDiv (jsMul baseDamage i) mx)])
      else some damages := rfl

theorem jsLe_finite (a b : ℚ) : jsLe (JSNum.finite a) (JSNum.finite b) = decide (a ≤ b) := rfl

/-- One iteration of the loop at an integer index `i` with `0 < i ≤ mx`, in the
range where the product and the counter are exact. -/
theorem damage_step (b mx i : ℤ) (hb : 0 ≤ b) (hM : mx < 2 ^ 53) (hbM : b * mx < 2 ^ 53)
    (hi0 : 0 < i) (hi : i ≤ mx) :
    jsTrunc (jsDiv (jsMul (JSNum.finite b) (JSNum.finite i)) (JSNum.finite mx)) =
        JSNum.finite (((b * i / mx : ℤ)) : ℚ) ∧
      jsAdd (JSNum.finite i) (JSNum.finite 1) = JSNum.finite (((i + 1 : ℤ)) : ℚ) := by
  have hmx : 0 < mx := by omega
  have hbi0 : 0 ≤ b * i := mul_nonneg hb (by omega)
  have hbi : b * i < 2 ^ 53 := lt_of_le_of_lt (mul_le_mul_of_nonneg_left hi hb) hbM
  have hmxq : ((mx : ℤ) : ℚ) ≠ 0 := by exact_mod_cast (ne_of_gt hmx)
  constructor
  · have h1 : (b : ℚ) * (i : ℚ) = ((b * i : ℤ) : ℚ) := by push_cast; rfl
    rw [jsMul_finite, h1, toDouble_isDouble _ (isDouble_int _ (by rw [abs_of_nonneg hbi0]; omega)),
      jsDiv_finite _ _ hmxq]
    exact trunc_toDouble_div (b * i) mx hbi0 hbi hmx hM
  · have h1 : (i : ℚ) + 1 = ((i + 1 : ℤ) : ℚ) := by push_cast; rfl
    rw [jsAdd_finite, h1]
    exact toDouble_isDouble _ (isDouble_int _ (by rw [abs_of_nonneg (by omega)]; omega))

theorem damageLoop_spec (b mx : ℤ) (hb : 0 ≤ b) (hM : mx < 2 ^ 53) (hbM : b * mx < 2 ^ 53) :
    ∀ (n : ℕ) (i : ℤ) (damages : List JSNum) (fuel : ℕ), 0 < i → i + n = mx + 1 →
      n + 1 ≤ fuel →
      damageLoop (JSNum.finite b) (JSNum.finite mx) fuel (JSNum.finite i) damages =
        some (damages ++
          (List.range n).map (fun j : ℕ => JSNum.finite (((b * (i + j) / mx : ℤ)) : ℚ))) := by
  intro n
  induction n with
  | zero =>
    intro i damages fuel _ hin hf
    obtain ⟨f, rfl⟩ : ∃ f, fuel = f + 1 := ⟨fuel - 1, by omega⟩
    have hlt : ¬ ((i : ℚ) ≤ (mx : ℚ)) := by
      have : mx < i := by omega
      exact not_le.mpr (by exact_mod_cast this)
    rw [damageLoop_succ, jsLe_finite, if_neg (by simpa using hlt)]
    simp
  | succ n ih =>
    intro i damages fuel hi0 hin hf
    obtain ⟨f, rfl⟩ : ∃ f, fuel = f + 1 := ⟨fuel - 1, by omega⟩
    have hile : i ≤ mx := by omega
    have hle : (i : ℚ) ≤ (mx : ℚ) := by exact_mod_cast hile
    obtain ⟨h1, h2⟩ := damage_step b mx i hb hM hbM hi0 hile
    rw [damageLoop_succ, jsLe_finite, if_pos (by simpa using hle), h1, h2,
      ih (i + 1) _ f (by omega) (by omega) (by omega),
      List.range_succ_eq_map, List.map_cons, List.map_map, List.append_assoc]
    congr 2
    rw [List.singleton_append]
    congr 1
    · simp
    · apply List.map_congr_left
      intro j _
      simp only [Function.comp, Nat.cast_succ]
      congr 3
      ring

/-- C20, the claim as stated fails: for `baseDamage = 2 ^ 53 - 1` and
`min = max = 85` the product `baseDamage * 85` is rounded to a double before the
division, and the single value returned is `9007199254740990`, which is not
`baseDamage = 9007199254740991`; more fuel does not change it. -/
theorem damageVariation_rounding :
    (0 : ℤ) ≤ 9007199254740991 ∧ (0 : ℤ) < 85 ∧ (85 : ℤ) ≤ 85 ∧
      damageVariation 2 (JSNum.finite 9007199254740991) (JSNum.finite 85) (JSNum.finite 85) =
        some [JSNum.finite 9007199254740990] ∧
      ¬ ∃ fuel : ℕ,
        damageVariation fuel (JSNum.finite 9007199254740991) (JSNum.finite 85)
          (JSNum.finite 85) = some [JSNum.finite 9007199254740991] := by
  have hmul : toDouble ((9007199254740991 : ℚ) * 85) = JSNum.finite 765611936652984192 := by
    have hq : (9007199254740991 : ℚ) * 85 = 765611936652984235 := by norm_num
    have habs : |(765611936652984235 : ℚ)| = 765611936652984235 := abs_of_pos (by norm_num)
    have hk : Int.log 2 |(765611936652984235 : ℚ)| = 59 := by
      rw [habs]; exact log2_eq 59 _ (by norm_num) (by norm_num)
    have hm : roundHalfEven (|(765611936652984235 : ℚ)| / (2 : ℚ) ^ (7 : ℤ)) =
        5981343255101439 := by
      rw [habs]
      exact roundHalfEven_of_lt _ _ (by norm_num) (by norm_num)
    rw [hq, toDouble_of_ne_zero _ (by norm_num) 59 7 5981343255101439 hk (by decide) hm,
      if_neg (by norm_num), if_pos (by norm_num)]
    congr 1
    norm_num
  have hdiv : toDouble ((765611936652984192 : ℚ) / 85) = JSNum.finite 9007199254740990 := by
    have habs : |(765611936652984192 : ℚ) / 85| = 765611936652984192 / 85 :=
      abs_of_pos (by norm_num)
    have hk : Int.log 2 |(765611936652984192 : ℚ) / 85| = 52 := by
      rw [habs]; exact log2_eq 52 _ (by norm_num) (by norm_num)
    have hm : roundHalfEven (|(765611936652984192 : ℚ) / 85| / (2 : ℚ) ^ (0 : ℤ)) =
        9007199254740990 := by
      rw [habs]
      exact roundHalfEven_of_lt _ _ (by norm_num) (by norm_num)
    rw [toDouble_of_ne_zero _ (by norm_num) 52 0 9007199254740990 hk (by decide) hm,
      if_neg (by norm_num), if_pos (by norm_num)]
    congr 1
    norm_num
  have hval : jsTrunc (jsDiv (jsMul (JSNum.finite 9007199254740991) (JSNum.finite 85))
      (JSNum.finite 85)) = JSNum.finite 9007199254740990 := by
    rw [jsMul_finite, hmul, jsDiv_finite _ _ (by norm_num), hdiv]
    show JSNum.finite (mathTrunc 9007199254740990) = _
    have h : mathTrunc 9007199254740990 = 9007199254740990 := by
      unfold mathTrunc
      rw [if_pos (by norm_num)]
      have : ⌊(9007199254740990 : ℚ)⌋ = 9007199254740990 := by
        rw [Int.floor_eq_iff]; constructor <;> norm_num
      rw [this]; norm_num
    rw [h]
  have hstep : jsAdd (JSNum.finite 85) (JSNum.finite 1) = JSNum.finite 86 := by
    have h1 : (85 : ℚ) + 1 = ((86 : ℤ) : ℚ) := by norm_num
    rw [jsAdd_finite, h1, toDouble_isDouble _ (isDouble_int _ (by decide))]
    norm_num
  have hle1 : jsLe (JSNum.finite 85) (JSNum.finite 85) = true := by
    rw [jsLe_finite]; simp
  have hle2 : jsLe (JSNum.finite 86) (JSNum.finite 85) = false := by
    rw [jsLe_finite]; simp; norm_num
  have hrun : ∀ f : ℕ, damageVariation (f + 2) (JSNum.finite 9007199254740991)
      (JSNum.finite 85) (JSNum.finite 85) = some [JSNum.finite 9007199254740990] := by
    intro f
    unfold damageVariation
    rw [damageLoop_succ, if_pos hle1, hval, hstep, damageLoop_succ, hle2]
    simp
  refine ⟨by decide, by decide, by decide, hrun 0, ?_⟩
  rintro ⟨fuel, h⟩
  match fuel, h with
  | 0, h => simp [damageVariation, damageLoop] at h
  | 1, h =>
    unfold damageVariation at h
    rw [damageLoop_succ, if_pos hle1] at h
    simp [damageLoop] at h
  | f + 2, h =>
    rw [hrun f] at h
    simp only [Option.some.injEq, List.cons.injEq, JSNum.finite.injEq, and_true] at h
    norm_num at h

/-- C20, amended: for integers `baseDamage ≥ 0` and `0 < min ≤ max` with
`max < 2 ^ 53` and `baseDamage * max < 2 ^ 53`, so that the loop counter and
every product are exact doubles, `damageVariation(baseDamage, min, max)` returns
exactly `max - min + 1` values, the `i`-th being
`floor(baseDamage * (min + i) / max)`; the sequence is non-decreasing and its
last element is `baseDamage`; with `min = 85` and `max = 100` there are `16`
rolls.  Fuel of `max - min + 2` loop tests suffices. -/
theorem damageVariation_correct (baseDamage min max : ℤ) (hb : 0 ≤ baseDamage)
    (hmin : 0 < min) (hmax : min ≤ max) (hM : max < 2 ^ 53)
    (hbM : baseDamage * max < 2 ^ 53) (fuel : ℕ) (hf : (max - min + 1).toNat + 1 ≤ fuel) :
    ∃ L : List ℤ,
      damageVariation fuel (JSNum.finite baseDamage) (JSNum.finite min) (JSNum.finite max) =
        some (L.map (fun z : ℤ => JSNum.finite (z : ℚ))) ∧
      L = (List.range (max - min + 1).toNat).map
        (fun j : ℕ => (baseDamage * (min + j)) / max) ∧
      L.length = (max - min + 1).toNat ∧
      L.Pairwise (fun x y => x ≤ y) ∧
      L.getLast? = some baseDamage ∧
      (min = 85 → max = 100 → L.length = 16) := by
  refine ⟨_, ?_, rfl, by simp, ?_, ?_, ?_⟩
  · unfold damageVariation
    rw [damageLoop_spec baseDamage max hb hM hbM (max - min + 1).toNat min [] fuel hmin
      (by omega) hf, List.nil_append, List.map_map]
    rfl
  · apply List.Pairwise.map _ _ (List.pairwise_lt_range _)
    intro x y hxy
    apply Int.ediv_le_ediv (by omega)
    apply mul_le_mul_of_nonneg_left _ hb
    have : (x : Int) < y := by exact_mod_cast hxy
    omega
  · obtain ⟨k, hk⟩ : ∃ k : Nat, (max - min + 1).toNat = k + 1 :=
      ⟨(max - min).toNat, by omega⟩
    rw [hk, List.range_succ, List.map_append, List.map_singleton,
      List.getLast?_append_cons, List.getLast?_singleton]
    have hkm : min + (k : Int) = max := by omega
    rw [hkm, Int.mul_ediv_cancel _ (by omega)]
  · intro h1 h2
    rw [h1, h2]
    simp

theorem damageVariation_correct_witness :
    (0 : ℤ) ≤ 231 ∧ (0 : ℤ) < 85 ∧ (85 : ℤ) ≤ 100 ∧ (100 : ℤ) < 2 ^ 53 ∧
      (231 : ℤ) * 100 < 2 ^ 53 ∧ ((100 : ℤ) - 85 + 1).toNat + 1 ≤ 17 ∧
      ∃ L : List ℤ,
        damageVariation 17 (JSNum.finite ((231 : ℤ) : ℚ)) (JSNum.finite ((85 : ℤ) : ℚ))
            (JSNum.finite ((100 : ℤ) : ℚ)) =
          some (L.map (fun z : ℤ => JSNum.finite (z : ℚ))) ∧
        L = (List.range ((100 : ℤ) - 85 + 1).toNat).map
          (fun j : ℕ => ((231 : ℤ) * (85 + j)) / 100) ∧
        L.length = ((100 : ℤ) - 85 + 1).toNat ∧
        L.Pairwise (fun x y => x ≤ y) ∧
        L.getLast? = some 231 ∧
        ((85 : ℤ) = 85 → (100 : ℤ) = 100 → L.length = 16) :=
  ⟨by decide, by decide, by decide, by decide, by decide, by decide,
    damageVariation_correct 231 85 100 (by decide) (by decide) (by decide) (by decide)
      (by decide) 17 (by decide)⟩

end Sulcalc
